import Mathlib

/-!
# The multiaddr codec (`codec.go`)

A shallow embedding of the four traversals of `codec.go`:
`stringToBytes`, `validateBytes`, `bytesToString` and `bytesSplit`, with
`sizeForAddr`.

The codec calls collaborators that live outside `codec.go`: the protocol
registry (`ProtocolWithName`, `ProtocolWithCode`), the varint primitives
(`CodeToVarint`, `ReadVarintCode`), the per-protocol `Transcoder` and the
multibase text encoding.  They are taken as parameters, gathered in `Env`;
what a theorem needs from them is a hypothesis of that theorem.

Conventions of the embedding:
* a Go `string` is a `List Char`, a Go `[]byte` a `List Nat` (its entries are
  byte values), a Go `int` an `Int`;
* a slice has no spare capacity, so `b[i:]` and `b[:i]` panic exactly when
  `i` is negative or larger than `len(b)`;
* a call returns an `Outcome`: a value, a Go `error`, a run-time panic, or
  no return at all (a loop that never exits).
-/

namespace Multiaddr

/-- A byte of a Go `[]byte`. -/
abbrev Byte := Nat

/-- A Go `string`. -/
abbrev Str := List Char

/-- The Go errors of `codec.go`, one constructor per `fmt.Errorf` and per
collaborator whose error is passed on. -/
inductive Error where
  /-- The error "invalid multiaddr, must begin with /". -/
  | mustBeginWithSlash
  /-- The error "unknown protocol requires an argument". -/
  | unknownRequiresArgument
  /-- The error of `multibase.Decode`. -/
  | multibase
  /-- The error "no protocol with name %s". -/
  | noProtocolWithName (name : Str)
  /-- The error "protocol requires address, none given: %s". -/
  | requiresAddress (name : Str)
  /-- The error "no transcoder for %s protocol". -/
  | noTranscoder (name : Str)
  /-- The error "failed to parse %s: %s %s". -/
  | failedToParse (name tok : Str)
  /-- The error of `ReadVarintCode`. -/
  | varint
  /-- The error "invalid value for size". -/
  | invalidValueForSize
  /-- The error of a transcoder's `BytesToString` or `ValidateBytes`. -/
  | transcoder
  deriving DecidableEq, Repr

/-- What a call of one of the codec functions does. -/
inductive Outcome (α : Type) where
  /-- The call returns a value and a nil error. -/
  | ok (a : α)
  /-- The call returns a non-nil error. -/
  | error (e : Error)
  /-- The call panics (slice bounds out of range, nil dereference). -/
  | crash
  /-- The call does not return: its loop repeats without end. -/
  | diverge
  deriving DecidableEq, Repr

/-- The `Transcoder` interface of a protocol.  An `Option` result is `none`
when the Go method returns an error; `ValidateBytes` is `true` when the Go
method returns nil. -/
structure Transcoder where
  StringToBytes : Str → Option (List Byte)
  BytesToString : List Byte → Option Str
  ValidateBytes : List Byte → Bool

/-- The fields of the `Protocol` descriptor that `codec.go` reads.
`Transcoder` is `none` for a nil interface. -/
structure Protocol where
  Name : Str
  Code : Int
  Size : Int
  Path : Bool
  Transcoder : Option Transcoder

/-- The collaborators of the codec.  `ReadVarintCode b` is `none` on error and
otherwise the decoded integer with the number of bytes read; `multibaseDecode`
is `multibase.Decode` (its encoding result dropped), `multibaseEncodeBase32`
is `multibase.Encode(multibase.Base32, ·)`, which cannot fail for that base. -/
structure Env where
  ProtocolWithName : Str → Protocol
  ProtocolWithCode : Int → Protocol
  CodeToVarint : Int → List Byte
  ReadVarintCode : List Byte → Option (Int × Nat)
  multibaseDecode : Str → Option (List Byte)
  multibaseEncodeBase32 : List Byte → Str

/-! ## Go library functions used by the codec -/

/-- The literal `"unknown"`. -/
def unknownLit : Str := ['u', 'n', 'k', 'n', 'o', 'w', 'n']

/-- Drop the leading `/` characters. -/
def dropSlashes : Str → Str
  | [] => []
  | c :: cs => if c = '/' then dropSlashes cs else c :: cs

/-- Go `strings.TrimRight(s, "/")`. -/
def trimRight (s : Str) : Str := (dropSlashes s.reverse).reverse

/-- Go `strings.Split(s, "/")`: always at least one token. -/
def splitSlash : Str → List Str
  | [] => [[]]
  | c :: cs =>
    if c = '/' then [] :: splitSlash cs
    else
      match splitSlash cs with
      | [] => [[c]]
      | t :: ts => (c :: t) :: ts

/-- Go `strings.Join(sp, "/")`. -/
def joinSlash : List Str → Str
  | [] => []
  | [t] => t
  | t :: u :: ts => t ++ '/' :: joinSlash (u :: ts)

/-- The slice `b[i:]`; `none` when Go panics. -/
def sliceFrom (b : List Byte) (i : Int) : Option (List Byte) :=
  if 0 ≤ i ∧ i ≤ b.length then some (b.drop i.toNat) else none

/-- The slice `b[:i]`; `none` when Go panics. -/
def sliceTo (b : List Byte) (i : Int) : Option (List Byte) :=
  if 0 ≤ i ∧ i ≤ b.length then some (b.take i.toNat) else none

/-! ## `codec.go` -/

/-- The loop of `stringToBytes` (lines 26-72): `sp` is the token list still to
consume, `b` the bytes written so far.  For a path protocol the remaining
tokens are replaced by the single token `"/" + strings.Join(sp, "/")`, so
after `sp = sp[1:]` the list is empty and the loop exits with the buffer. -/
def stringToBytesLoop (env : Env) : List Str → List Byte → Outcome (List Byte)
  | [], b => .ok b
  | tok :: sp, b =>
    if tok = unknownLit then
      match sp with
      | [] => .error .unknownRequiresArgument
      | arg :: sp2 =>
        match env.multibaseDecode arg with
        | none => .error .multibase
        | some bts => stringToBytesLoop env sp2 (b ++ bts)
    else
      let p := env.ProtocolWithName tok
      if p.Code = 0 then .error (.noProtocolWithName tok)
      else
        let b1 := b ++ env.CodeToVarint p.Code
        if p.Size = 0 then stringToBytesLoop env sp b1
        else
          match sp with
          | [] => .error (.requiresAddress p.Name)
          | arg :: sp1 =>
            let tok0 : Str := if p.Path then '/' :: joinSlash (arg :: sp1) else arg
            match p.Transcoder with
            | none => .error (.noTranscoder p.Name)
            | some tr =>
              match tr.StringToBytes tok0 with
              | none => .error (.failedToParse p.Name tok0)
              | some a =>
                let b2 := if p.Size < 0 then b1 ++ env.CodeToVarint a.length else b1
                if p.Path then .ok (b2 ++ a)
                else stringToBytesLoop env sp1 (b2 ++ a)

/-- The function `stringToBytes` (lines 11-75). -/
def stringToBytes (env : Env) (s : Str) : Outcome (List Byte) :=
  match splitSlash (trimRight s) with
  | [] => .crash
  | first :: sp =>
    if first ≠ [] then .error .mustBeginWithSlash
    else stringToBytesLoop env sp []

/-- The function `sizeForAddr` (lines 171-184): `none` on error, otherwise
`(skip, size)`. -/
def sizeForAddr (env : Env) (p : Protocol) (b : List Byte) : Option (Nat × Int) :=
  if p.Size > 0 then some (0, Int.tdiv p.Size 8)
  else if p.Size = 0 then some (0, 0)
  else
    match env.ReadVarintCode b with
    | none => none
    | some (size, n) => some (n, size)

/-- One pass through the body of a `for` loop over a state `σ`: the pass
either leaves the function (`done`) or reaches the end of the body or a
`continue` with a new state (`next`). -/
inductive Step (σ α : Type) where
  | done (r : Outcome α)
  | next (s : σ)

/-- A `for` loop run for at most `fuel` passes through its body; `diverge`
when the passes do not suffice. -/
def iterate {σ α : Type} (body : σ → Step σ α) : Nat → σ → Outcome α
  | 0, _ => .diverge
  | fuel + 1, s =>
    match body s with
    | .done r => r
    | .next s1 => iterate body fuel s1

/-- The loop of `validateBytes` (lines 78-113): the test `len(b) > 0` and one
pass through the body. -/
def validateBytesBody (env : Env) (b : List Byte) : Step (List Byte) Unit :=
  if b = [] then .done (.ok ())
  else
    match env.ReadVarintCode b with
    | none => .done (.error .varint)
    | some (code, n) =>
      match sliceFrom b n with
      | none => .done .crash
      | some b1 =>
        let p := env.ProtocolWithCode code
        if p.Code = 0 then .done (.ok ())
        else if p.Size = 0 then .next b1
        else
          match sizeForAddr env p b1 with
          | none => .done (.error .varint)
          | some (n2, size) =>
            match sliceFrom b1 n2 with
            | none => .done .crash
            | some b2 =>
              if (b2.length : Int) < size ∨ size < 0 then .done (.error .invalidValueForSize)
              else
                match p.Transcoder with
                | none => .done .crash
                | some tr =>
                  if tr.ValidateBytes (b2.take size.toNat) then .next (b2.drop size.toNat)
                  else .done (.error .transcoder)

/-- The function `validateBytes` (lines 77-114).  A pass that does not return either
shortens `b` or leaves it as it is, and in the second case every later pass
does the same: `len(b) + 1` passes decide the call (`validateBytes_of_fuel`). -/
def validateBytes (env : Env) (b : List Byte) : Outcome Unit :=
  iterate (validateBytesBody env) (b.length + 1) b

/-- The loop of `bytesToString` (lines 119-168) on the state `(b, s)`, `s`
being the text built so far. -/
def bytesToStringBody (env : Env) (st : List Byte × Str) : Step (List Byte × Str) Str :=
  let b := st.1
  let s := st.2
  if b = [] then .done (.ok s)
  else
    match env.ReadVarintCode b with
    | none => .done (.error .varint)
    | some (code, n) =>
      let p := env.ProtocolWithCode code
      if p.Code = 0 then
        .done (.ok (s ++ '/' :: unknownLit ++ '/' :: env.multibaseEncodeBase32 b))
      else
        match sliceFrom b n with
        | none => .done .crash
        | some b1 =>
          let s1 := s ++ '/' :: p.Name
          if p.Size = 0 then .next (b1, s1)
          else
            match sizeForAddr env p b1 with
            | none => .done (.error .varint)
            | some (n2, size) =>
              match sliceFrom b1 n2 with
              | none => .done .crash
              | some b2 =>
                if (b2.length : Int) < size ∨ size < 0 then .done (.error .invalidValueForSize)
                else
                  match p.Transcoder with
                  | none => .done (.error (.noTranscoder p.Name))
                  | some tr =>
                    match tr.BytesToString (b2.take size.toNat) with
                    | none => .done (.error .transcoder)
                    | some a =>
                      let a1 : Str :=
                        match p.Path, a with
                        | true, '/' :: a2 => a2
                        | _, _ => a
                      let s2 := if a1.length > 0 then s1 ++ '/' :: a1 else s1
                      .next (b2.drop size.toNat, s2)

/-- The function `bytesToString` (lines 116-169). -/
def bytesToString (env : Env) (b : List Byte) : Outcome Str :=
  iterate (bytesToStringBody env) (b.length + 1) (b, [])

/-- The loop of `bytesSplit` (lines 188-211) on the state `(b, ret)`, `ret`
being the ranges appended so far.  `length` is `n + n2 + size` over the
integers: the three are machine integers bounded by the size of a buffer or,
for `size`, by the range of `int`, and a sum that wraps around is negative,
which panics in `b[:length]` like a sum that is too large. -/
def bytesSplitBody (env : Env) (st : List Byte × List (List Byte)) :
    Step (List Byte × List (List Byte)) (List (List Byte)) :=
  let b := st.1
  let ret := st.2
  if b = [] then .done (.ok ret)
  else
    match env.ReadVarintCode b with
    | none => .done (.error .varint)
    | some (code, n) =>
      let p := env.ProtocolWithCode code
      if p.Code = 0 then .done (.ok (ret ++ [b]))
      else
        match sliceFrom b n with
        | none => .done .crash
        | some bn =>
          match sizeForAddr env p bn with
          | none => .done (.error .varint)
          | some (n2, size) =>
            let length : Int := (n : Int) + (n2 : Int) + size
            match sliceTo b length, sliceFrom b length with
            | some r, some b1 => .next (b1, ret ++ [r])
            | _, _ => .done .crash

/-- The function `bytesSplit` (lines 186-212). -/
def bytesSplit (env : Env) (b : List Byte) : Outcome (List (List Byte)) :=
  iterate (bytesSplitBody env) (b.length + 1) (b, [])

/-! ## A concrete environment

The collaborators are not part of `codec.go`.  The definitions below give the
codec a concrete environment to run in, of the kind the specification
describes: LEB128 varints, base32 multibase text and a small registry of
protocols, one of each length discipline (fixed size, no value, variable
size) and a path protocol. -/

/-- Modelled from the spec: the varint writer `writeVarint(value) -> bytes`,
which is not in `codec.go`.  Unsigned LEB128, seven bits a byte, least
significant group first, the high bit set on every byte but the last; `fuel`
bounds the number of bytes. -/
def putUvarint : Nat → Nat → List Byte
  | 0, _ => []
  | fuel + 1, x =>
    if x < 128 then [x] else (x % 128 + 128) :: putUvarint fuel (x / 128)

/-- Modelled from the spec: the varint reader
`readVarint(bytes) -> (value, bytesConsumed)|error`, which is not in
`codec.go`.  It fails when the buffer ends before a byte below 128. -/
def readUvarint : List Byte → Option (Nat × Nat)
  | [] => none
  | b :: rest =>
    if b < 128 then some (b, 1)
    else
      match readUvarint rest with
      | none => none
      | some (v, n) => some (b % 128 + 128 * v, n + 1)

/-- Modelled from the spec: `CodeToVarint`, the varint of `uint64(num)` in at
most ten bytes. -/
def leb128Write (num : Int) : List Byte := putUvarint 10 (num % 2 ^ 64).toNat

/-- Modelled from the spec: `ReadVarintCode`, failing on a truncated varint
and on one that does not fit `uint64`; the value is converted to `int`. -/
def leb128Read (b : List Byte) : Option (Int × Nat) :=
  match readUvarint b with
  | none => none
  | some (v, n) =>
    if 10 < n ∨ 2 ^ 64 ≤ v then none
    else some (if v < 2 ^ 63 then (v : Int) else (v : Int) - 2 ^ 64, n)

/-- The bits of `x`, most significant first, in `width` bits. -/
def toBits : Nat → Nat → List Bool
  | 0, _ => []
  | width + 1, x => (x / 2 ^ width % 2 == 1) :: toBits width x

/-- The number spelled by a list of bits, most significant first. -/
def ofBits (bs : List Bool) : Nat := bs.foldl (fun acc b => 2 * acc + (if b then 1 else 0)) 0

/-- Cut a list of bits into groups of `k + 1`; the last group is padded with
zero bits when `pad` is set and dropped otherwise. -/
def chunkBits (k : Nat) (pad : Bool) : Nat → List Bool → List (List Bool)
  | 0, _ => []
  | fuel + 1, bs =>
    if bs = [] then []
    else if bs.length < k + 1 then
      (if pad then [bs ++ List.replicate (k + 1 - bs.length) false] else [])
    else bs.take (k + 1) :: chunkBits k pad fuel (bs.drop (k + 1))

/-- The lower-case base32 alphabet of RFC 4648. -/
def base32Alphabet : List Char := "abcdefghijklmnopqrstuvwxyz234567".toList

/-- Modelled from the spec: the opaque-segment text encoding
`multibase.Encode(multibase.Base32, b)`: the prefix `b` and the unpadded
lower-case base32 text of the bytes. -/
def base32Encode (b : List Byte) : Str :=
  let bits := (b.map (toBits 8)).flatten
  'b' :: (chunkBits 4 true bits.length bits).map (fun g => base32Alphabet.getD (ofBits g) 'a')

/-- Modelled from the spec: `multibase.Decode`, of which only the base32
branch (prefix `b`) is modelled; every other text is rejected here. -/
def base32Decode : Str → Option (List Byte)
  | 'b' :: cs =>
    if cs.all (fun c => base32Alphabet.contains c) ∧ (5 * cs.length) % 8 < 5 then
      let bits := (cs.map (fun c => toBits 5 (base32Alphabet.indexOf c))).flatten
      some ((chunkBits 7 false bits.length bits).map ofBits)
    else none
  | _ => none

/-- The bytes of an ASCII string, `[]byte(s)`; `none` outside ASCII, which the
model does not cover. -/
def asciiBytes : Str → Option (List Byte)
  | [] => some []
  | c :: cs =>
    if c.toNat < 128 then (asciiBytes cs).map (fun r => c.toNat :: r) else none

/-- The ASCII string of a byte list, `string(b)`; `none` outside ASCII. -/
def asciiString : List Byte → Option Str
  | [] => some []
  | b :: bs =>
    if b < 128 then (asciiString bs).map (fun r => Char.ofNat b :: r) else none

/-- The value of a string of decimal digits; `none` on any other character
and on the empty string. -/
def parseDecimal (s : Str) : Option Nat :=
  if s = [] ∨ ¬ s.all Char.isDigit then none
  else some (s.foldl (fun acc c => 10 * acc + (c.toNat - 48)) 0)

/-- The decimal digits of `x`, at most `fuel` of them. -/
def decimalDigits : Nat → Nat → Str
  | 0, _ => []
  | fuel + 1, x =>
    if x < 10 then [Char.ofNat (48 + x)]
    else decimalDigits fuel (x / 10) ++ [Char.ofNat (48 + x % 10)]

/-- Modelled from the spec: a transcoder, which is not in `codec.go`; here
one for a port number (`tcp`): a decimal number below 65536 in two bytes, big
endian. -/
def TranscoderPort : Transcoder where
  StringToBytes s :=
    match parseDecimal s with
    | none => none
    | some i => if 65536 ≤ i then none else some [i / 256, i % 256]
  BytesToString b :=
    match b with
    | [hi, lo] => some (decimalDigits 5 (256 * hi + lo))
    | _ => none
  ValidateBytes _ := true

/-- Modelled from the spec: a transcoder, which is not in `codec.go`; here
one for a zone name (`ip6zone`): the text itself; an empty value is refused
in both directions, and a `/` is refused in the text to encode and by the
validator. -/
def TranscoderIP6Zone : Transcoder where
  StringToBytes s := if s = [] ∨ s.contains '/' then none else asciiBytes s
  BytesToString b := if b = [] then none else asciiString b
  ValidateBytes b := !(b == []) && !(b.contains 47)

/-- Modelled from the spec: a transcoder, which is not in `codec.go`; here
one for a path (`unix`): the text itself. -/
def TranscoderUnix : Transcoder where
  StringToBytes s := asciiBytes s
  BytesToString b := asciiString b
  ValidateBytes _ := true

/-- Modelled from the spec: a descriptor of the registry, which is not in
`codec.go`; the protocol `tcp`: code 6, sixteen bits. -/
def protoTCP : Protocol := ⟨"tcp".toList, 6, 16, false, some TranscoderPort⟩

/-- Modelled from the spec: a descriptor of the registry, which is not in
`codec.go`; the protocol `quic`: code 460, no value. -/
def protoQUIC : Protocol := ⟨"quic".toList, 460, 0, false, none⟩

/-- Modelled from the spec: a descriptor of the registry, which is not in
`codec.go`; the protocol `ip6zone`: code 42, length-prefixed. -/
def protoIP6ZONE : Protocol := ⟨"ip6zone".toList, 42, -1, false, some TranscoderIP6Zone⟩

/-- Modelled from the spec: a descriptor of the registry, which is not in
`codec.go`; the protocol `unix`: code 400, length-prefixed, a path. -/
def protoUNIX : Protocol := ⟨"unix".toList, 400, -1, true, some TranscoderUnix⟩

/-- Modelled from the spec: the descriptor with the sentinel code 0, the zero
`Protocol{}`, returned by a lookup that finds nothing. -/
def protoNone : Protocol := ⟨[], 0, 0, false, none⟩

/-- Modelled from the spec: the registry lookup `byName`, which is not in
`codec.go`: the first match in a table, or `Protocol{}`. -/
def lookupName : List Protocol → Str → Protocol
  | [], _ => protoNone
  | p :: ps, s => if p.Name = s then p else lookupName ps s

/-- Modelled from the spec: the registry lookup `byCode`, which is not in
`codec.go`: the first match in a table, or `Protocol{}`. -/
def lookupCode : List Protocol → Int → Protocol
  | [], _ => protoNone
  | p :: ps, c => if p.Code = c then p else lookupCode ps c

/-- The environment over a table of protocols. -/
def tableEnv (table : List Protocol) : Env where
  ProtocolWithName := lookupName table
  ProtocolWithCode := lookupCode table
  CodeToVarint := leb128Write
  ReadVarintCode := leb128Read
  multibaseDecode := base32Decode
  multibaseEncodeBase32 := base32Encode

/-- The environment with `tcp`, `quic`, `ip6zone` and `unix` registered. -/
def refEnv : Env := tableEnv [protoTCP, protoQUIC, protoIP6ZONE, protoUNIX]

/-- The environment with `quic`, `ip6zone` and `unix` registered. -/
def textEnv : Env := tableEnv [protoQUIC, protoIP6ZONE, protoUNIX]

/-! ## Valid addresses, in the words of the specification -/

/-- A valid binary address, as the specification describes it: a sequence of
known components, each a readable varint code, the length prefix of a
variable-size protocol, and a value of exactly the resolved length
(`sizeForAddr`) that lies in the buffer and passes the protocol's
`ValidateBytes` (a protocol of size 0 has no value, hence nothing to pass);
after the components, the end of the buffer, or a tail that starts with a
readable varint code that the registry does not know. -/
inductive ValidAddr (env : Env) : List Byte → Prop where
  | done : ValidAddr env []
  | unknownTail (hdr more : List Byte) (code : Int)
      (hread : env.ReadVarintCode (hdr ++ more) = some (code, hdr.length))
      (hcode : (env.ProtocolWithCode code).Code = 0) :
      ValidAddr env (hdr ++ more)
  | noValue (hdr rest : List Byte) (code : Int)
      (hread : env.ReadVarintCode (hdr ++ rest) = some (code, hdr.length))
      (hcode : (env.ProtocolWithCode code).Code ≠ 0)
      (hsize : (env.ProtocolWithCode code).Size = 0)
      (hrest : ValidAddr env rest) :
      ValidAddr env (hdr ++ rest)
  | valued (hdr pre value rest : List Byte) (code : Int) (tr : Transcoder)
      (hread : env.ReadVarintCode (hdr ++ (pre ++ (value ++ rest))) = some (code, hdr.length))
      (hcode : (env.ProtocolWithCode code).Code ≠ 0)
      (hsize : (env.ProtocolWithCode code).Size ≠ 0)
      (hres : sizeForAddr env (env.ProtocolWithCode code) (pre ++ (value ++ rest)) =
        some (pre.length, (value.length : Int)))
      (htr : (env.ProtocolWithCode code).Transcoder = some tr)
      (hval : tr.ValidateBytes value = true)
      (hrest : ValidAddr env rest) :
      ValidAddr env (hdr ++ (pre ++ (value ++ rest)))

/-- Reading a varint from a buffer gives the same result when bytes are
appended after the buffer. -/
def VarintStable (env : Env) : Prop :=
  ∀ (b more : List Byte) (r : Int × Nat),
    env.ReadVarintCode b = some r → env.ReadVarintCode (b ++ more) = some r

/-! ## Definitions used to state the claims -/

/-- The text of a value as `bytesToString` appends it (lines 159-161): the
rendering `a` of the transcoder, without its first character when the
protocol is a path and that character is `/`. -/
def valueText (p : Protocol) (a : Str) : Str :=
  match p.Path, a with
  | true, '/' :: a2 => a2
  | _, _ => a

/-- What `bytesToString` appends for a component with a value (lines 135 and
162-164): `/`, the name, and `/` with the value text unless that is empty. -/
def rendered (p : Protocol) (a : Str) : Str :=
  '/' :: p.Name ++ (if (valueText p a).length > 0 then '/' :: valueText p a else [])

/-- A buffer that is a sequence of known components and nothing else: each a
readable varint code that the registry knows, the length prefix of a
variable-size protocol, and a value of the resolved length. -/
inductive KnownComponents (env : Env) : List Byte → Prop where
  | done : KnownComponents env []
  | noValue (hdr rest : List Byte) (code : Int)
      (hread : env.ReadVarintCode (hdr ++ rest) = some (code, hdr.length))
      (hcode : (env.ProtocolWithCode code).Code ≠ 0)
      (hsize : (env.ProtocolWithCode code).Size = 0)
      (hrest : KnownComponents env rest) :
      KnownComponents env (hdr ++ rest)
  | valued (hdr pre value rest : List Byte) (code : Int)
      (hread : env.ReadVarintCode (hdr ++ (pre ++ (value ++ rest))) = some (code, hdr.length))
      (hcode : (env.ProtocolWithCode code).Code ≠ 0)
      (hsize : (env.ProtocolWithCode code).Size ≠ 0)
      (hres : sizeForAddr env (env.ProtocolWithCode code) (pre ++ (value ++ rest)) =
        some (pre.length, (value.length : Int)))
      (hrest : KnownComponents env rest) :
      KnownComponents env (hdr ++ (pre ++ (value ++ rest)))

/-- The text `"/unknown/" + multibase.Encode(multibase.Base32, u)` that
`bytesToString` appends for an unknown tail `u` (line 131). -/
def unknownText (env : Env) (u : List Byte) : Str :=
  '/' :: unknownLit ++ '/' :: env.multibaseEncodeBase32 u

/-! ## Definitions used to state the claims on `stringToBytes` -/

/-- The text of a token list: every token after a `/`. -/
def textOf : List Str → Str
  | [] => []
  | t :: ts => '/' :: t ++ textOf ts

/-- The tokens that the loop of `stringToBytes` consumes: those of the string
without its trailing slashes, after the first. -/
def tokensOf (s : Str) : List Str := (splitSlash (trimRight s)).tail

/-- Whether the walk of `stringToBytes` over the tokens meets the literal
`unknown` where it expects a protocol name, and so takes the raw-bytes escape
of lines 27-38.  The walk follows lines 39-71: a name, then no token for a
protocol of size 0, every remaining token for a path protocol, one token
otherwise. -/
def takesEscape (env : Env) : List Str → Bool
  | [] => false
  | tok :: sp =>
    if tok = unknownLit then true
    else
      let p := env.ProtocolWithName tok
      if p.Code = 0 then false
      else if p.Size = 0 then takesEscape env sp
      else
        match sp with
        | [] => false
        | _ :: sp1 => if p.Path then false else takesEscape env sp1

/-- A component as `stringToBytes` writes it: the protocol and the bytes of
the value (none for a protocol of size 0). -/
structure Comp where
  p : Protocol
  value : List Byte

/-- The bytes of a component (lines 43 and 67-70): the varint of the code, the
varint of the length of the value for a variable-size protocol, the value. -/
def Comp.bytes (env : Env) (c : Comp) : List Byte :=
  env.CodeToVarint c.p.Code ++
    ((if c.p.Size < 0 then env.CodeToVarint c.value.length else []) ++ c.value)

/-- The bytes of a list of components. -/
def bytesOf (env : Env) (cs : List Comp) : List Byte := (cs.map (Comp.bytes env)).flatten

/-- The relation `Parsed env sp cs`: the walk of `stringToBytes` over the tokens `sp`, none
of them taken for the `unknown` escape, writes the components `cs`. -/
inductive Parsed (env : Env) : List Str → List Comp → Prop where
  | done : Parsed env [] []
  | noValue (tok : Str) (sp : List Str) (cs : List Comp)
      (hu : tok ≠ unknownLit)
      (hcode : (env.ProtocolWithName tok).Code ≠ 0)
      (hsize : (env.ProtocolWithName tok).Size = 0)
      (hrest : Parsed env sp cs) :
      Parsed env (tok :: sp) (⟨env.ProtocolWithName tok, []⟩ :: cs)
  | valued (tok arg : Str) (sp : List Str) (cs : List Comp) (tr : Transcoder) (a : List Byte)
      (hu : tok ≠ unknownLit)
      (hcode : (env.ProtocolWithName tok).Code ≠ 0)
      (hsize : (env.ProtocolWithName tok).Size ≠ 0)
      (hpath : (env.ProtocolWithName tok).Path = false)
      (htr : (env.ProtocolWithName tok).Transcoder = some tr)
      (ha : tr.StringToBytes arg = some a)
      (hrest : Parsed env sp cs) :
      Parsed env (tok :: arg :: sp) (⟨env.ProtocolWithName tok, a⟩ :: cs)
  | path (tok arg : Str) (sp : List Str) (tr : Transcoder) (a : List Byte)
      (hu : tok ≠ unknownLit)
      (hcode : (env.ProtocolWithName tok).Code ≠ 0)
      (hsize : (env.ProtocolWithName tok).Size ≠ 0)
      (hpath : (env.ProtocolWithName tok).Path = true)
      (htr : (env.ProtocolWithName tok).Transcoder = some tr)
      (ha : tr.StringToBytes ('/' :: joinSlash (arg :: sp)) = some a) :
      Parsed env (tok :: arg :: sp) [⟨env.ProtocolWithName tok, a⟩]

/-- What the codec takes for granted of the registry and of the varints: a
protocol found under a name has that name, is the one found under its code,
and has a code in the range of `int`; a varint that was written is read back,
with its length, whatever follows it. -/
structure EnvOK (env : Env) : Prop where
  name_eq : ∀ name, (env.ProtocolWithName name).Code ≠ 0 →
    (env.ProtocolWithName name).Name = name
  code_eq : ∀ name, (env.ProtocolWithName name).Code ≠ 0 →
    env.ProtocolWithCode (env.ProtocolWithName name).Code = env.ProtocolWithName name
  code_range : ∀ name, (env.ProtocolWithName name).Code ≠ 0 →
    0 ≤ (env.ProtocolWithName name).Code ∧ (env.ProtocolWithName name).Code < 2 ^ 63
  varint : ∀ (c : Int) (rest : List Byte), 0 ≤ c → c < 2 ^ 63 →
    env.ReadVarintCode (env.CodeToVarint c ++ rest) = some (c, (env.CodeToVarint c).length)

/-- The transcoders of the registered protocols write values of the size of
the protocol: `Size / 8` bytes for a fixed-size protocol, and fewer than
`2 ^ 63` bytes (the range of `int`) for a text shorter than that. -/
structure SizesOK (env : Env) : Prop where
  fixed : ∀ name tr t a, (env.ProtocolWithName name).Code ≠ 0 →
    0 < (env.ProtocolWithName name).Size →
    (env.ProtocolWithName name).Transcoder = some tr → tr.StringToBytes t = some a →
    (a.length : Int) = Int.tdiv (env.ProtocolWithName name).Size 8
  bounded : ∀ name tr t a, (env.ProtocolWithName name).Code ≠ 0 →
    (env.ProtocolWithName name).Transcoder = some tr → tr.StringToBytes t = some a →
    t.length < 2 ^ 63 → a.length < 2 ^ 63

/-- The transcoders of the registered protocols are inverted by their own
`BytesToString`, and those of the protocols that are not paths refuse the
empty text. -/
structure TranscodersInvert (env : Env) : Prop where
  inverts : ∀ name tr t a, (env.ProtocolWithName name).Code ≠ 0 →
    (env.ProtocolWithName name).Transcoder = some tr → tr.StringToBytes t = some a →
    tr.BytesToString a = some t
  nonempty : ∀ name tr, (env.ProtocolWithName name).Code ≠ 0 →
    (env.ProtocolWithName name).Path = false →
    (env.ProtocolWithName name).Transcoder = some tr → tr.StringToBytes [] = none

/-- The transcoders of the registered protocols write values that pass their
own `ValidateBytes`. -/
def TranscodersValidate (env : Env) : Prop :=
  ∀ name tr t a, (env.ProtocolWithName name).Code ≠ 0 →
    (env.ProtocolWithName name).Transcoder = some tr → tr.StringToBytes t = some a →
    tr.ValidateBytes a = true

/-- The length prefix of a component: the varint of the length of the value
for a variable-size protocol, nothing otherwise. -/
def Comp.pre (env : Env) (c : Comp) : List Byte :=
  if c.p.Size < 0 then env.CodeToVarint c.value.length else []

/-- A component whose bytes are read back as they were written: its code is
known, is read back from its varint, and `sizeForAddr` resolves the length
of its value, whatever follows the component. -/
structure Comp.Framed (env : Env) (c : Comp) : Prop where
  known : (env.ProtocolWithCode c.p.Code).Code ≠ 0
  proto : env.ProtocolWithCode c.p.Code = c.p
  hdr_ne : env.CodeToVarint c.p.Code ≠ []
  read : ∀ r, env.ReadVarintCode (env.CodeToVarint c.p.Code ++ r) =
    some (c.p.Code, (env.CodeToVarint c.p.Code).length)
  resolve : ∀ r, sizeForAddr env c.p (c.pre env ++ (c.value ++ r)) =
    some ((c.pre env).length, (c.value.length : Int))
  no_value : c.p.Size = 0 → c.value = []

/-- The last token of a token list, if there is one, is not empty. -/
def LastNonempty : List Str → Prop
  | [] => True
  | [t] => t ≠ []
  | _ :: u :: ts => LastNonempty (u :: ts)

/-- A single-component string, `/name` or `/name/value`, by its parts. -/
structure CompStr where
  name : Str
  value : Option Str

/-- The string of a single component. -/
def CompStr.text (c : CompStr) : Str :=
  match c.value with
  | none => '/' :: c.name
  | some v => '/' :: c.name ++ '/' :: v

/-- The tokens of a single component. -/
def CompStr.tokens (c : CompStr) : List Str :=
  match c.value with
  | none => [c.name]
  | some v => [c.name, v]

/-- Either `/name` of a registered protocol without a value, or `/name/value` of a
registered protocol with a value that is not a path; the name and the value
are tokens (not empty, without a `/`), and the name is not the literal
`unknown`, which `stringToBytes` never looks up. -/
def SingleComponent (env : Env) (c : CompStr) : Prop :=
  c.name ≠ [] ∧ '/' ∉ c.name ∧ c.name ≠ unknownLit ∧
  (env.ProtocolWithName c.name).Code ≠ 0 ∧
  match c.value with
  | none => (env.ProtocolWithName c.name).Size = 0
  | some v =>
    (env.ProtocolWithName c.name).Size ≠ 0 ∧ (env.ProtocolWithName c.name).Path = false ∧
      v ≠ [] ∧ '/' ∉ v

/-! ## Definitions used to state the claims on truncation and on the encoder -/

/-- What a varint read returns depends only on the bytes that it consumes:
when the varint at the front of a buffer is read, the same bytes followed by
anything else read the same. -/
def VarintLocal (env : Env) : Prop :=
  ∀ (x y z : List Byte) (c : Int),
    env.ReadVarintCode (x ++ y) = some (c, x.length) →
    env.ReadVarintCode (x ++ z) = some (c, x.length)

/-- A valid address with the byte ranges of its components: `ValidAddr`, each
component not empty, and with it the range that the component occupies; an
unknown tail is one range. -/
inductive ValidRanges (env : Env) : List Byte → List (List Byte) → Prop where
  | done : ValidRanges env [] []
  | unknownTail (hdr more : List Byte) (code : Int)
      (hne : hdr ++ more ≠ [])
      (hread : env.ReadVarintCode (hdr ++ more) = some (code, hdr.length))
      (hcode : (env.ProtocolWithCode code).Code = 0) :
      ValidRanges env (hdr ++ more) [hdr ++ more]
  | noValue (hdr rest : List Byte) (code : Int) (rs : List (List Byte))
      (hne : hdr ≠ [])
      (hread : env.ReadVarintCode (hdr ++ rest) = some (code, hdr.length))
      (hcode : (env.ProtocolWithCode code).Code ≠ 0)
      (hsize : (env.ProtocolWithCode code).Size = 0)
      (hrest : ValidRanges env rest rs) :
      ValidRanges env (hdr ++ rest) (hdr :: rs)
  | valued (hdr pre value rest : List Byte) (code : Int) (tr : Transcoder)
      (rs : List (List Byte))
      (hne : hdr ++ (pre ++ value) ≠ [])
      (hread : env.ReadVarintCode (hdr ++ (pre ++ (value ++ rest))) = some (code, hdr.length))
      (hcode : (env.ProtocolWithCode code).Code ≠ 0)
      (hsize : (env.ProtocolWithCode code).Size ≠ 0)
      (hres : sizeForAddr env (env.ProtocolWithCode code) (pre ++ (value ++ rest)) =
        some (pre.length, (value.length : Int)))
      (htr : (env.ProtocolWithCode code).Transcoder = some tr)
      (hval : tr.ValidateBytes value = true)
      (hrest : ValidRanges env rest rs) :
      ValidRanges env (hdr ++ (pre ++ (value ++ rest))) ((hdr ++ (pre ++ value)) :: rs)

/-- Whether the walk of `stringToBytes` over the tokens comes to a token, at
the place of a protocol name, that is neither the literal `unknown` nor a
name of the registry.  The places of the names are the first token and the
token after a completed component: after `unknown` and its argument, after
the name of a protocol of size 0, after the name and the value of a protocol
that is not a path; nothing after a path protocol. -/
def meetsUnknownName (env : Env) : List Str → Bool
  | [] => false
  | tok :: sp =>
    if tok = unknownLit then
      match sp with
      | [] => false
      | _ :: sp2 => meetsUnknownName env sp2
    else
      let p := env.ProtocolWithName tok
      if p.Code = 0 then true
      else if p.Size = 0 then meetsUnknownName env sp
      else
        match sp with
        | [] => false
        | _ :: sp1 => if p.Path then false else meetsUnknownName env sp1

/-- Whether the walk of `stringToBytes` over the tokens comes to the name of a
path protocol with a value (lines 54-58), which takes every token after it. -/
def usesPath (env : Env) : List Str → Bool
  | [] => false
  | tok :: sp =>
    if tok = unknownLit then
      match sp with
      | [] => false
      | _ :: sp2 => usesPath env sp2
    else
      let p := env.ProtocolWithName tok
      if p.Code = 0 then false
      else if p.Size = 0 then usesPath env sp
      else
        match sp with
        | [] => false
        | _ :: sp1 => if p.Path then true else usesPath env sp1

/-- Modelled from the spec: a transcoder, which is not in `codec.go`; here
one for a host name (`dns`): the text itself, not empty; the validator
accepts the values that are ASCII text, which the renderer renders. -/
def TranscoderDNS : Transcoder where
  StringToBytes s := if s = [] then none else asciiBytes s
  BytesToString b := asciiString b
  ValidateBytes b := b.all (fun x => decide (x < 128))

/-- Modelled from the spec: a descriptor of the registry, which is not in
`codec.go`; the protocol `dns`: code 53, length-prefixed. -/
def protoDNS : Protocol := ⟨"dns".toList, 53, -1, false, some TranscoderDNS⟩

/-- The environment with `quic` and `dns` registered. -/
def dnsEnv : Env := tableEnv [protoQUIC, protoDNS]

/-- The transcoders of the registered protocols read back what they render.
A value `a` that `StringToBytes` writes, for a text that `stringToBytes` can
pass to it, is rendered by `BytesToString` as a text `r`, and `StringToBytes`
turns the rendering into `a` again; `r` need not be the text that was
encoded.  The rendering survives the cut of the string into tokens: for a
protocol that is not a path, `r` is not empty and has no `/`; for a path
protocol, whose texts are `/` and the remaining tokens joined, the value text
of `r` (`valueText`) is more than trailing slashes, and it is this value text
without its trailing slashes, after a `/`, that gives `a` again. -/
structure TranscodersReencode (env : Env) : Prop where
  plain : ∀ name tr t a, (env.ProtocolWithName name).Code ≠ 0 →
    (env.ProtocolWithName name).Size ≠ 0 → (env.ProtocolWithName name).Path = false →
    (env.ProtocolWithName name).Transcoder = some tr → '/' ∉ t →
    tr.StringToBytes t = some a →
    ∃ r, tr.BytesToString a = some r ∧ r ≠ [] ∧ '/' ∉ r ∧ tr.StringToBytes r = some a
  path : ∀ name tr y c a, (env.ProtocolWithName name).Code ≠ 0 →
    (env.ProtocolWithName name).Size ≠ 0 → (env.ProtocolWithName name).Path = true →
    (env.ProtocolWithName name).Transcoder = some tr → c ≠ '/' →
    tr.StringToBytes ('/' :: (y ++ [c])) = some a →
    ∃ r, tr.BytesToString a = some r ∧
      trimRight (valueText (env.ProtocolWithName name) r) ≠ [] ∧
      tr.StringToBytes ('/' :: trimRight (valueText (env.ProtocolWithName name) r)) = some a

/-! ## Loops: fuel -/

section Fuel

variable {σ α : Type}

theorem iterate_zero (body : σ → Step σ α) (s : σ) : iterate body 0 s = .diverge := rfl

theorem iterate_succ (body : σ → Step σ α) (f : Nat) (s : σ) :
    iterate body (f + 1) s =
      match body s with
      | .done r => r
      | .next s1 => iterate body f s1 := rfl

theorem iterate_done (body : σ → Step σ α) (f : Nat) (s : σ) (r : Outcome α)
    (h : body s = .done r) : iterate body (f + 1) s = r := by
  rw [iterate_succ, h]

theorem iterate_next (body : σ → Step σ α) (f : Nat) (s s1 : σ)
    (h : body s = .next s1) : iterate body (f + 1) s = iterate body f s1 := by
  rw [iterate_succ, h]

/-- One more pass does not change a result that was reached. -/
theorem iterate_succ_of_ne_diverge (body : σ → Step σ α) :
    ∀ (f : Nat) (s : σ) (r : Outcome α),
      iterate body f s = r → r ≠ .diverge → iterate body (f + 1) s = r := by
  intro f
  induction f with
  | zero =>
    intro s r h hr
    rw [iterate_zero] at h
    exact absurd h.symm hr
  | succ f ih =>
    intro s r h hr
    rw [iterate_succ] at h ⊢
    cases hb : body s with
    | done r1 => rw [hb] at h; exact h
    | next s1 => rw [hb] at h; exact ih s1 r h hr

/-- More fuel does not change a result that was reached. -/
theorem iterate_mono (body : σ → Step σ α) (f g : Nat) (s : σ) (r : Outcome α)
    (h : iterate body f s = r) (hr : r ≠ .diverge) (hfg : f ≤ g) :
    iterate body g s = r := by
  induction g with
  | zero =>
    have : f = 0 := Nat.le_zero.mp hfg
    subst this
    exact h
  | succ g ih =>
    rcases Nat.lt_or_ge f (g + 1) with hlt | hge
    · exact iterate_succ_of_ne_diverge body g s r (ih (Nat.lt_succ_iff.mp hlt)) hr
    · have : f = g + 1 := Nat.le_antisymm hfg hge
      subst this
      exact h

/-- A state from which every pass leads to a state of the same kind is never
left: the loop does not return, whatever the fuel. -/
theorem iterate_stuck (body : σ → Step σ α) (P : σ → Prop)
    (hP : ∀ s, P s → ∃ s1, body s = .next s1 ∧ P s1) :
    ∀ (f : Nat) (s : σ), P s → iterate body f s = .diverge := by
  intro f
  induction f with
  | zero => intro s _; rfl
  | succ f ih =>
    intro s hs
    obtain ⟨s1, h1, h2⟩ := hP s hs
    rw [iterate_next body f s s1 h1]
    exact ih s1 h2

/-- With a measure `m` that every pass decreases, unless it reaches a state
that is never left, `m s + 1` passes decide the loop: it has returned by then
or it never returns. -/
theorem iterate_decided (body : σ → Step σ α) (m : σ → Nat) (P : σ → Prop)
    (hP : ∀ s, P s → ∃ s1, body s = .next s1 ∧ P s1)
    (hm : ∀ s s1, body s = .next s1 → m s1 < m s ∨ P s1) :
    ∀ (k : Nat) (s : σ), m s ≤ k →
      iterate body (m s + 1) s ≠ .diverge ∨ ∀ f, iterate body f s = .diverge := by
  intro k
  induction k with
  | zero =>
    intro s hk
    cases hb : body s with
    | done r =>
      by_cases hr : r = .diverge
      · right
        intro f
        cases f with
        | zero => rfl
        | succ f => rw [iterate_done body f s r hb, hr]
      · left
        rw [iterate_done body (m s) s r hb]
        exact hr
    | next s1 =>
      right
      rcases hm s s1 hb with hlt | hst
      · omega
      · intro f
        cases f with
        | zero => rfl
        | succ f => rw [iterate_next body f s s1 hb]; exact iterate_stuck body P hP f s1 hst
  | succ k ih =>
    intro s hk
    cases hb : body s with
    | done r =>
      by_cases hr : r = .diverge
      · right
        intro f
        cases f with
        | zero => rfl
        | succ f => rw [iterate_done body f s r hb, hr]
      · left
        rw [iterate_done body (m s) s r hb]
        exact hr
    | next s1 =>
      rcases hm s s1 hb with hlt | hst
      · rcases ih s1 (by omega) with hfin | hdiv
        · left
          rw [iterate_next body (m s) s s1 hb]
          have := iterate_mono body (m s1 + 1) (m s) s1 _ rfl hfin (by omega)
          rw [this]
          exact hfin
        · right
          intro f
          cases f with
          | zero => rfl
          | succ f => rw [iterate_next body f s s1 hb]; exact hdiv f
      · right
        intro f
        cases f with
        | zero => rfl
        | succ f => rw [iterate_next body f s s1 hb]; exact iterate_stuck body P hP f s1 hst

/-- A result reached with some fuel is the result with fuel `m s + 1`. -/
theorem iterate_of_fuel (body : σ → Step σ α) (m : σ → Nat) (P : σ → Prop)
    (hP : ∀ s, P s → ∃ s1, body s = .next s1 ∧ P s1)
    (hm : ∀ s s1, body s = .next s1 → m s1 < m s ∨ P s1)
    (f : Nat) (s : σ) (r : Outcome α) (h : iterate body f s = r) (hr : r ≠ .diverge) :
    iterate body (m s + 1) s = r := by
  rcases iterate_decided body m P hP hm (m s) s (Nat.le_refl _) with hfin | hdiv
  · have h1 := iterate_mono body f (max f (m s + 1)) s r h hr (Nat.le_max_left _ _)
    have h2 := iterate_mono body (m s + 1) (max f (m s + 1)) s _ rfl hfin (Nat.le_max_right _ _)
    rw [← h2, h1]
  · rw [hdiv f] at h
    exact absurd h.symm hr

end Fuel

/-! ## Slices -/

theorem sliceFrom_eq_some {b b1 : List Byte} {i : Int} (h : sliceFrom b i = some b1) :
    0 ≤ i ∧ i ≤ b.length ∧ b1 = b.drop i.toNat := by
  unfold sliceFrom at h
  split at h
  · rename_i hc
    exact ⟨hc.1, hc.2, (Option.some.inj h).symm⟩
  · exact absurd h (by simp)

theorem sliceFrom_nat (b : List Byte) (n : Nat) (h : n ≤ b.length) :
    sliceFrom b (n : Int) = some (b.drop n) := by
  unfold sliceFrom
  rw [if_pos ⟨Int.natCast_nonneg n, Int.ofNat_le.mpr h⟩, Int.toNat_natCast]

theorem sliceTo_nat (b : List Byte) (n : Nat) (h : n ≤ b.length) :
    sliceTo b (n : Int) = some (b.take n) := by
  unfold sliceTo
  rw [if_pos ⟨Int.natCast_nonneg n, Int.ofNat_le.mpr h⟩, Int.toNat_natCast]

theorem sliceFrom_append (x y : List Byte) : sliceFrom (x ++ y) (x.length : Int) = some y := by
  rw [sliceFrom_nat _ _ (by simp), List.drop_left]

theorem sliceTo_append (x y : List Byte) : sliceTo (x ++ y) (x.length : Int) = some x := by
  rw [sliceTo_nat _ _ (by simp), List.take_left]

/-- A successful `b[n:]` splits `b` into the `n` bytes skipped and the rest. -/
theorem sliceFrom_split {b b1 : List Byte} {n : Nat} (h : sliceFrom b (n : Int) = some b1) :
    ∃ x, b = x ++ b1 ∧ x.length = n := by
  obtain ⟨_, h2, rfl⟩ := sliceFrom_eq_some h
  have hn : n ≤ b.length := Int.ofNat_le.mp h2
  refine ⟨b.take n, ?_, List.length_take_of_le hn⟩
  rw [Int.toNat_natCast, List.take_append_drop]

/-! ## One pass of `validateBytes` -/

theorem validateBytesBody_nil (env : Env) : validateBytesBody env [] = .done (.ok ()) := by
  simp [validateBytesBody]

theorem validateBytesBody_unknown (env : Env) (hdr more : List Byte) (code : Int)
    (hread : env.ReadVarintCode (hdr ++ more) = some (code, hdr.length))
    (hcode : (env.ProtocolWithCode code).Code = 0) :
    validateBytesBody env (hdr ++ more) = .done (.ok ()) := by
  unfold validateBytesBody
  split
  · rfl
  · simp only [hread, sliceFrom_append, hcode, if_true]

theorem validateBytesBody_noValue (env : Env) (hdr rest : List Byte) (code : Int)
    (hne : hdr ++ rest ≠ [])
    (hread : env.ReadVarintCode (hdr ++ rest) = some (code, hdr.length))
    (hcode : (env.ProtocolWithCode code).Code ≠ 0)
    (hsize : (env.ProtocolWithCode code).Size = 0) :
    validateBytesBody env (hdr ++ rest) = .next rest := by
  unfold validateBytesBody
  simp only [hne, hread, sliceFrom_append, hcode, hsize, if_true, if_false]

theorem validateBytesBody_valued (env : Env) (hdr pre value rest : List Byte) (code : Int)
    (tr : Transcoder)
    (hne : hdr ++ (pre ++ (value ++ rest)) ≠ [])
    (hread : env.ReadVarintCode (hdr ++ (pre ++ (value ++ rest))) = some (code, hdr.length))
    (hcode : (env.ProtocolWithCode code).Code ≠ 0)
    (hsize : (env.ProtocolWithCode code).Size ≠ 0)
    (hres : sizeForAddr env (env.ProtocolWithCode code) (pre ++ (value ++ rest)) =
      some (pre.length, (value.length : Int)))
    (htr : (env.ProtocolWithCode code).Transcoder = some tr)
    (hval : tr.ValidateBytes value = true) :
    validateBytesBody env (hdr ++ (pre ++ (value ++ rest))) = .next rest := by
  unfold validateBytesBody
  have hlen : ¬ (((value ++ rest).length : Int) < (value.length : Int) ∨ (value.length : Int) < 0) := by
    simp only [List.length_append, Nat.cast_add]
    omega
  simp only [hne, hread, sliceFrom_append, hcode, hsize, hres, htr, hlen, if_false,
    Int.toNat_natCast, List.take_left, List.drop_left, hval, if_true]

/-- A pass of `validateBytes` that goes on has read a known component. -/
theorem validateBytesBody_next (env : Env) (b b1 : List Byte)
    (h : validateBytesBody env b = .next b1) :
    b ≠ [] ∧ ∃ hdr code, env.ReadVarintCode b = some (code, hdr.length) ∧
      (env.ProtocolWithCode code).Code ≠ 0 ∧
      (((env.ProtocolWithCode code).Size = 0 ∧ b = hdr ++ b1) ∨
       ((env.ProtocolWithCode code).Size ≠ 0 ∧ ∃ pre value tr,
          b = hdr ++ (pre ++ (value ++ b1)) ∧
          sizeForAddr env (env.ProtocolWithCode code) (pre ++ (value ++ b1)) =
            some (pre.length, (value.length : Int)) ∧
          (env.ProtocolWithCode code).Transcoder = some tr ∧
          tr.ValidateBytes value = true)) := by
  unfold validateBytesBody at h
  split at h
  · exact absurd h (by simp)
  rename_i hne
  refine ⟨hne, ?_⟩
  split at h
  · exact absurd h (by simp)
  rename_i code n hread
  split at h
  · exact absurd h (by simp)
  rename_i b1' hs1
  obtain ⟨hdr, rfl, rfl⟩ := sliceFrom_split hs1
  refine ⟨hdr, code, hread, ?_⟩
  simp only at h
  split at h
  · exact absurd h (by simp)
  rename_i hcode
  refine ⟨hcode, ?_⟩
  split at h
  · rename_i hsize
    injection h with h
    exact Or.inl ⟨hsize, by rw [h]⟩
  rename_i hsize
  split at h
  · exact absurd h (by simp)
  rename_i n2 size hsz
  split at h
  · exact absurd h (by simp)
  rename_i b2 hs2
  obtain ⟨pre, rfl, rfl⟩ := sliceFrom_split hs2
  split at h
  · exact absurd h (by simp)
  rename_i hlen
  split at h
  · exact absurd h (by simp)
  rename_i tr htr
  split at h
  · rename_i hval
    injection h with h
    have h0 : 0 ≤ size := by omega
    have h1 : size.toNat ≤ b2.length := by omega
    refine Or.inr ⟨hsize, pre, b2.take size.toNat, tr, ?_, ?_, htr, hval⟩
    · rw [← h, List.take_append_drop]
    · rw [← h, List.take_append_drop, hsz, List.length_take_of_le h1, Int.toNat_of_nonneg h0]
  · exact absurd h (by simp)

/-- A pass of `validateBytes` that returns nil is at the end of the buffer or
at a code that the registry does not know. -/
theorem validateBytesBody_done_ok (env : Env) (b : List Byte)
    (h : validateBytesBody env b = .done (.ok ())) :
    b = [] ∨ ∃ hdr more code, b = hdr ++ more ∧
      env.ReadVarintCode b = some (code, hdr.length) ∧
      (env.ProtocolWithCode code).Code = 0 := by
  unfold validateBytesBody at h
  split at h
  · rename_i hb; exact Or.inl hb
  right
  split at h
  · exact absurd h (by simp)
  rename_i code n hread
  split at h
  · exact absurd h (by simp)
  rename_i b1 hs1
  obtain ⟨hdr, rfl, rfl⟩ := sliceFrom_split hs1
  refine ⟨hdr, b1, code, rfl, hread, ?_⟩
  simp only at h
  split at h
  · assumption
  split at h
  · exact absurd h (by simp)
  split at h
  · exact absurd h (by simp)
  split at h
  · exact absurd h (by simp)
  split at h
  · exact absurd h (by simp)
  split at h
  · exact absurd h (by simp)
  split at h
  · exact absurd h (by simp)
  · exact absurd h (by simp)

/-! ## `validateBytes`: fuel, and the valid addresses -/

theorem validateBytesBody_next_suffix (env : Env) (b b1 : List Byte)
    (h : validateBytesBody env b = .next b1) : ∃ x, b = x ++ b1 := by
  obtain ⟨_, hdr, code, _, _, h1 | ⟨_, pre, value, _, h2, _⟩⟩ := validateBytesBody_next env b b1 h
  · exact ⟨hdr, h1.2⟩
  · exact ⟨hdr ++ (pre ++ value), by rw [h2]; simp⟩

/-- With enough fuel for some result, `validateBytes` has that result. -/
theorem validateBytes_of_fuel (env : Env) (f : Nat) (b : List Byte) (r : Outcome Unit)
    (h : iterate (validateBytesBody env) f b = r) (hr : r ≠ .diverge) :
    validateBytes env b = r := by
  refine iterate_of_fuel (validateBytesBody env) List.length
    (fun s => validateBytesBody env s = .next s) ?_ ?_ f b r h hr
  · intro s hs
    exact ⟨s, hs, hs⟩
  · intro s s1 hs
    obtain ⟨x, hx⟩ := validateBytesBody_next_suffix env s s1 hs
    cases x with
    | nil =>
      right
      have : s = s1 := by simpa using hx
      rw [← this]
      rw [← this] at hs
      exact hs
    | cons c x =>
      left
      rw [hx]
      simp
      omega

theorem validAddr_of_iterate (env : Env) :
    ∀ (f : Nat) (b : List Byte),
      iterate (validateBytesBody env) f b = .ok () → ValidAddr env b := by
  intro f
  induction f with
  | zero =>
    intro b h
    rw [iterate_zero] at h
    exact absurd h (by simp)
  | succ f ih =>
    intro b h
    rw [iterate_succ] at h
    cases hb : validateBytesBody env b with
    | done r =>
      rw [hb] at h
      simp only at h
      subst h
      rcases validateBytesBody_done_ok env b hb with rfl | ⟨hdr, more, code, rfl, hread, hcode⟩
      · exact ValidAddr.done
      · exact ValidAddr.unknownTail hdr more code hread hcode
    | next b1 =>
      rw [hb] at h
      simp only at h
      have hv := ih b1 h
      obtain ⟨_, hdr, code, hread, hcode, ⟨hsize, rfl⟩ | ⟨hsize, pre, value, tr, rfl, hres, htr, hval⟩⟩ :=
        validateBytesBody_next env b b1 hb
      · exact ValidAddr.noValue hdr b1 code hread hcode hsize hv
      · exact ValidAddr.valued hdr pre value b1 code tr hread hcode hsize hres htr hval hv

theorem validAddr_of_validateBytes (env : Env) (b : List Byte)
    (h : validateBytes env b = .ok ()) : ValidAddr env b :=
  validAddr_of_iterate env _ b h

theorem validateBytes_of_validAddr (env : Env) (b : List Byte)
    (h : ValidAddr env b) : validateBytes env b = .ok () := by
  induction h with
  | done => rfl
  | unknownTail hdr more code hread hcode =>
    exact validateBytes_of_fuel env 1 _ _
      (iterate_done _ 0 _ _ (validateBytesBody_unknown env hdr more code hread hcode)) (by simp)
  | noValue hdr rest code hread hcode hsize _ ih =>
    by_cases hne : hdr ++ rest = []
    · rw [hne]; rfl
    · refine validateBytes_of_fuel env (rest.length + 1 + 1) _ _ ?_ (by simp)
      rw [iterate_next _ _ _ _ (validateBytesBody_noValue env hdr rest code hne hread hcode hsize)]
      exact ih
  | valued hdr pre value rest code tr hread hcode hsize hres htr hval _ ih =>
    by_cases hne : hdr ++ (pre ++ (value ++ rest)) = []
    · rw [hne]; rfl
    · refine validateBytes_of_fuel env (rest.length + 1 + 1) _ _ ?_ (by simp)
      rw [iterate_next _ _ _ _
        (validateBytesBody_valued env hdr pre value rest code tr hne hread hcode hsize hres htr hval)]
      exact ih

theorem sizeForAddr_append (env : Env) (hs : VarintStable env) (p : Protocol)
    (b more : List Byte) (r : Nat × Int) (h : sizeForAddr env p b = some r) :
    sizeForAddr env p (b ++ more) = some r := by
  unfold sizeForAddr at h ⊢
  split
  · rename_i hp; rw [if_pos hp] at h; exact h
  rename_i hp
  rw [if_neg hp] at h
  split
  · rename_i hp0; rw [if_pos hp0] at h; exact h
  rename_i hp0
  rw [if_neg hp0] at h
  cases hr : env.ReadVarintCode b with
  | none => rw [hr] at h; exact absurd h (by simp)
  | some v =>
    rw [hr] at h
    rw [hs b more v hr]
    exact h

theorem validAddr_append (env : Env) (hs : VarintStable env) (b1 b2 : List Byte)
    (h1 : ValidAddr env b1) (h2 : ValidAddr env b2) : ValidAddr env (b1 ++ b2) := by
  induction h1 with
  | done => exact h2
  | unknownTail hdr more code hread hcode =>
    rw [List.append_assoc]
    refine ValidAddr.unknownTail hdr (more ++ b2) code ?_ hcode
    rw [← List.append_assoc]
    exact hs _ _ _ hread
  | noValue hdr rest code hread hcode hsize _ ih =>
    rw [List.append_assoc]
    refine ValidAddr.noValue hdr (rest ++ b2) code ?_ hcode hsize ih
    rw [← List.append_assoc]
    exact hs _ _ _ hread
  | valued hdr pre value rest code tr hread hcode hsize hres htr hval _ ih =>
    have e1 : hdr ++ (pre ++ (value ++ rest)) ++ b2 = hdr ++ (pre ++ (value ++ (rest ++ b2))) := by
      simp
    have e2 : pre ++ (value ++ rest) ++ b2 = pre ++ (value ++ (rest ++ b2)) := by simp
    rw [e1]
    refine ValidAddr.valued hdr pre value (rest ++ b2) code tr ?_ hcode hsize ?_ htr hval ih
    · rw [← e1]; exact hs _ _ _ hread
    · rw [← e2]; exact sizeForAddr_append env hs _ _ _ _ hres

/-! ## The LEB128 varints of the concrete environment -/

theorem readUvarint_append (b more : List Byte) (r : Nat × Nat)
    (h : readUvarint b = some r) : readUvarint (b ++ more) = some r := by
  induction b generalizing r with
  | nil => exact absurd h (by simp [readUvarint])
  | cons c cs ih =>
    simp only [List.cons_append, readUvarint] at h ⊢
    split
    · rename_i hc; rw [if_pos hc] at h; exact h
    · rename_i hc
      rw [if_neg hc] at h
      cases hr : readUvarint cs with
      | none => rw [hr] at h; exact absurd h (by simp)
      | some v =>
        rw [hr] at h
        rw [show cs.append more = cs ++ more from rfl, ih v hr]
        exact h

theorem leb128Read_append (b more : List Byte) (r : Int × Nat)
    (h : leb128Read b = some r) : leb128Read (b ++ more) = some r := by
  unfold leb128Read at h ⊢
  cases hr : readUvarint b with
  | none => rw [hr] at h; exact absurd h (by simp)
  | some v =>
    rw [hr] at h
    rw [readUvarint_append b more v hr]
    exact h

theorem varintStable_tableEnv (table : List Protocol) : VarintStable (tableEnv table) :=
  fun b more r h => leb128Read_append b more r h

theorem putUvarint_length_le (f x : Nat) : (putUvarint f x).length ≤ f := by
  induction f generalizing x with
  | zero => simp [putUvarint]
  | succ f ih =>
    unfold putUvarint
    split
    · simp
    · simp only [List.length_cons]
      have := ih (x / 128)
      omega

theorem readUvarint_putUvarint (f x : Nat) (rest : List Byte) (hx : x < 128 ^ f) (hf : 0 < f) :
    readUvarint (putUvarint f x ++ rest) = some (x, (putUvarint f x).length) := by
  induction f generalizing x with
  | zero => exact absurd hf (by decide)
  | succ f ih =>
    unfold putUvarint
    split
    · rename_i h
      simp [readUvarint, h]
    · rename_i h
      have hf0 : 0 < f := by
        rcases Nat.eq_zero_or_pos f with h0 | h0
        · subst h0; simp at hx; omega
        · exact h0
      have hx1 : x / 128 < 128 ^ f := by
        rw [Nat.div_lt_iff_lt_mul (by decide)]
        rw [pow_succ] at hx
        exact hx
      have hge : ¬ (x % 128 + 128 < 128) := by omega
      have e : (x % 128 + 128) % 128 + 128 * (x / 128) = x := by omega
      simp only [List.cons_append, readUvarint, hge, if_false, List.length_cons]
      rw [show (putUvarint f (x / 128)).append rest = putUvarint f (x / 128) ++ rest from rfl,
        ih (x / 128) hx1 hf0]
      simp only [e]

theorem leb128Read_leb128Write (c : Int) (h0 : 0 ≤ c) (h1 : c < 2 ^ 63) (rest : List Byte) :
    leb128Read (leb128Write c ++ rest) = some (c, (leb128Write c).length) := by
  obtain ⟨x, rfl⟩ := Int.eq_ofNat_of_zero_le h0
  have hx : x < 2 ^ 63 := by exact_mod_cast h1
  have h64 : x < 2 ^ 64 := lt_trans hx (by norm_num)
  have h70 : x < 128 ^ 10 := lt_trans hx (by norm_num)
  have hmod : ((x : Int) % 2 ^ 64).toNat = x := by
    rw [Int.emod_eq_of_lt h0 (lt_trans h1 (by norm_num)), Int.toNat_natCast]
  unfold leb128Read leb128Write
  rw [hmod, readUvarint_putUvarint 10 x rest h70 (by decide)]
  have hl := putUvarint_length_le 10 x
  have hc : ¬ (10 < (putUvarint 10 x).length ∨ 2 ^ 64 ≤ x) := by
    rintro (h | h)
    · exact absurd hl (Nat.not_le.mpr h)
    · exact absurd h64 (Nat.not_lt.mpr h)
  simp only [hc, if_false, hx, if_true]

/-! ## Claims on `validateBytes` -/

/-- C5. Validity characterisation: `validateBytes b` succeeds if and only if
`b` is a sequence of known components, each a readable varint code, the
length prefix of a variable-size protocol and a value of exactly the resolved
length that lies in the buffer and passes the protocol's `ValidateBytes`,
followed by the end of the buffer or by a tail that starts with a readable
varint code absent from the registry. -/
theorem validateBytes_ok_iff (env : Env) (b : List Byte) :
    validateBytes env b = .ok () ↔ ValidAddr env b :=
  ⟨validAddr_of_validateBytes env b, validateBytes_of_validAddr env b⟩

/-- C10. Concatenation preserves validity: when reading a varint gives the
same result after bytes are appended to the buffer, two buffers that
`validateBytes` accepts concatenate to a buffer that it accepts. -/
theorem validateBytes_append (env : Env) (hs : VarintStable env) (b1 b2 : List Byte)
    (h1 : validateBytes env b1 = .ok ()) (h2 : validateBytes env b2 = .ok ()) :
    validateBytes env (b1 ++ b2) = .ok () :=
  validateBytes_of_validAddr env _
    (validAddr_append env hs b1 b2 (validAddr_of_validateBytes env b1 h1)
      (validAddr_of_validateBytes env b2 h2))

/-- C10, at `/tcp/80` and `/ip6zone/x/quic` in the concrete environment. -/
theorem validateBytes_append_witness :
    VarintStable refEnv ∧ validateBytes refEnv [6, 0, 80] = .ok () ∧
      validateBytes refEnv [42, 1, 120, 204, 3] = .ok () ∧
      validateBytes refEnv ([6, 0, 80] ++ [42, 1, 120, 204, 3]) = .ok () :=
  ⟨varintStable_tableEnv _, by decide, by decide,
    validateBytes_append refEnv (varintStable_tableEnv _) [6, 0, 80] [42, 1, 120, 204, 3]
      (by decide) (by decide)⟩

/-! ## One pass of `bytesSplit` -/

theorem sliceTo_eq_some {b r : List Byte} {i : Int} (h : sliceTo b i = some r) :
    0 ≤ i ∧ i ≤ b.length ∧ r = b.take i.toNat := by
  unfold sliceTo at h
  split at h
  · rename_i hc
    exact ⟨hc.1, hc.2, (Option.some.inj h).symm⟩
  · exact absurd h (by simp)

theorem bytesSplitBody_nil (env : Env) (ret : List (List Byte)) :
    bytesSplitBody env ([], ret) = .done (.ok ret) := by
  simp [bytesSplitBody]

theorem bytesSplitBody_unknown (env : Env) (b : List Byte) (ret : List (List Byte))
    (code : Int) (n : Nat) (hne : b ≠ [])
    (hread : env.ReadVarintCode b = some (code, n))
    (hcode : (env.ProtocolWithCode code).Code = 0) :
    bytesSplitBody env (b, ret) = .done (.ok (ret ++ [b])) := by
  unfold bytesSplitBody
  simp only [hne, hread, hcode, if_true, if_false]

/-- A pass of `bytesSplit` over a known code, in terms of what it reads. -/
theorem bytesSplitBody_known (env : Env) (b : List Byte) (ret : List (List Byte))
    (code : Int) (n n2 : Nat) (size : Int) (hne : b ≠ [])
    (hread : env.ReadVarintCode b = some (code, n))
    (hcode : (env.ProtocolWithCode code).Code ≠ 0)
    (hn : n ≤ b.length)
    (hres : sizeForAddr env (env.ProtocolWithCode code) (b.drop n) = some (n2, size))
    (h0 : 0 ≤ (n : Int) + (n2 : Int) + size)
    (h1 : (n : Int) + (n2 : Int) + size ≤ b.length) :
    bytesSplitBody env (b, ret) =
      .next (b.drop ((n : Int) + (n2 : Int) + size).toNat,
        ret ++ [b.take ((n : Int) + (n2 : Int) + size).toNat]) := by
  unfold bytesSplitBody
  simp only [hne, hread, hcode, if_false, sliceFrom_nat b n hn, hres]
  unfold sliceTo sliceFrom
  simp only [h0, h1, and_self, if_true]

theorem bytesSplitBody_next (env : Env) (b b1 : List Byte) (ret ret1 : List (List Byte))
    (h : bytesSplitBody env (b, ret) = .next (b1, ret1)) :
    b ≠ [] ∧ ∃ (code : Int) (n n2 : Nat) (size : Int),
      env.ReadVarintCode b = some (code, n) ∧
      (env.ProtocolWithCode code).Code ≠ 0 ∧ n ≤ b.length ∧
      sizeForAddr env (env.ProtocolWithCode code) (b.drop n) = some (n2, size) ∧
      0 ≤ (n : Int) + (n2 : Int) + size ∧ (n : Int) + (n2 : Int) + size ≤ b.length ∧
      b1 = b.drop ((n : Int) + (n2 : Int) + size).toNat ∧
      ret1 = ret ++ [b.take ((n : Int) + (n2 : Int) + size).toNat] := by
  unfold bytesSplitBody at h
  simp only at h
  split at h
  · exact absurd h (by simp)
  rename_i hne
  refine ⟨hne, ?_⟩
  split at h
  · exact absurd h (by simp)
  rename_i code n hread
  split at h
  · exact absurd h (by simp)
  rename_i hcode
  split at h
  · exact absurd h (by simp)
  rename_i bn hsn
  obtain ⟨_, hn, rfl⟩ := sliceFrom_eq_some hsn
  rw [Int.toNat_natCast] at h
  split at h
  · exact absurd h (by simp)
  rename_i n2 size hres
  split at h
  · rename_i r b1' hr hb
    obtain ⟨h0, h1, rfl⟩ := sliceTo_eq_some hr
    obtain ⟨_, _, rfl⟩ := sliceFrom_eq_some hb
    injection h with h
    injection h with ha hb
    exact ⟨code, n, n2, size, hread, hcode, Int.ofNat_le.mp hn, hres, h0, h1, ha.symm, hb.symm⟩
  · exact absurd h (by simp)

/-- What a pass of `bytesSplit` does to the buffer does not depend on the
ranges collected so far. -/
theorem bytesSplitBody_next_ret (env : Env) (b b1 : List Byte) (ret ret1 : List (List Byte))
    (h : bytesSplitBody env (b, ret) = .next (b1, ret1)) :
    ∃ r, b = r ++ b1 ∧ ret1 = ret ++ [r] ∧
      ∀ ret0, bytesSplitBody env (b, ret0) = .next (b1, ret0 ++ [r]) := by
  obtain ⟨hne, code, n, n2, size, hread, hcode, hn, hres, h0, h1, rfl, rfl⟩ :=
    bytesSplitBody_next env b b1 ret ret1 h
  refine ⟨_, (List.take_append_drop _ b).symm, rfl, fun ret0 => ?_⟩
  exact bytesSplitBody_known env b ret0 code n n2 size hne hread hcode hn hres h0 h1

/-- With enough fuel for some result, `bytesSplit` has that result. -/
theorem bytesSplit_of_fuel (env : Env) (f : Nat) (b : List Byte)
    (r : Outcome (List (List Byte)))
    (h : iterate (bytesSplitBody env) f (b, []) = r) (hr : r ≠ .diverge) :
    bytesSplit env b = r := by
  refine iterate_of_fuel (bytesSplitBody env) (fun st => st.1.length)
    (fun st => ∀ ret0, ∃ ret1, bytesSplitBody env (st.1, ret0) = .next (st.1, ret1))
    ?_ ?_ f (b, []) r h hr
  · rintro ⟨s, ret⟩ hs
    obtain ⟨ret1, h1⟩ := hs ret
    exact ⟨(s, ret1), h1, hs⟩
  · rintro ⟨s, ret⟩ ⟨s1, ret1⟩ hs
    obtain ⟨x, hx, _, hall⟩ := bytesSplitBody_next_ret env s s1 ret ret1 hs
    cases x with
    | nil =>
      right
      have e : s = s1 := by simpa using hx
      intro ret0
      refine ⟨ret0 ++ [[]], ?_⟩
      have := hall ret0
      rw [e] at this
      exact this
    | cons c x =>
      left
      simp only [hx, List.length_append, List.length_cons]
      omega

theorem sizeForAddr_size_zero (env : Env) (p : Protocol) (b : List Byte) (h : p.Size = 0) :
    sizeForAddr env p b = some (0, 0) := by
  unfold sizeForAddr
  simp [h]

/-- A pass of `bytesSplit` over a well-framed known component cuts it off. -/
theorem bytesSplitBody_component (env : Env) (hdr pre value rest : List Byte)
    (ret : List (List Byte)) (code : Int)
    (hne : hdr ++ (pre ++ (value ++ rest)) ≠ [])
    (hread : env.ReadVarintCode (hdr ++ (pre ++ (value ++ rest))) = some (code, hdr.length))
    (hcode : (env.ProtocolWithCode code).Code ≠ 0)
    (hres : sizeForAddr env (env.ProtocolWithCode code) (pre ++ (value ++ rest)) =
      some (pre.length, (value.length : Int))) :
    bytesSplitBody env (hdr ++ (pre ++ (value ++ rest)), ret) =
      .next (rest, ret ++ [hdr ++ (pre ++ value)]) := by
  have e : hdr ++ (pre ++ (value ++ rest)) = (hdr ++ (pre ++ value)) ++ rest := by simp
  have hl : ((hdr.length : Int) + (pre.length : Int) + (value.length : Int)).toNat =
      (hdr ++ (pre ++ value)).length := by
    simp only [List.length_append]
    omega
  rw [bytesSplitBody_known env _ ret code hdr.length pre.length value.length hne hread hcode
    (by simp) (by rw [List.drop_left]; exact hres) (by omega)
    (by simp only [List.length_append, Nat.cast_add]; omega)]
  rw [hl, e, List.drop_left, List.take_left]

theorem bytesSplit_iterate_of_validAddr (env : Env) (b : List Byte) (h : ValidAddr env b) :
    ∀ ret, ∃ f rs, iterate (bytesSplitBody env) f (b, ret) = .ok (ret ++ rs) ∧
      rs.flatten = b := by
  induction h with
  | done =>
    intro ret
    exact ⟨1, [], by rw [iterate_done _ 0 _ _ (bytesSplitBody_nil env ret)]; simp, rfl⟩
  | unknownTail hdr more code hread hcode =>
    intro ret
    by_cases hne : hdr ++ more = []
    · rw [hne]
      exact ⟨1, [], by rw [iterate_done _ 0 _ _ (bytesSplitBody_nil env ret)]; simp, rfl⟩
    · exact ⟨1, [hdr ++ more],
        iterate_done _ 0 _ _ (bytesSplitBody_unknown env _ ret code _ hne hread hcode), by simp⟩
  | noValue hdr rest code hread hcode hsize _ ih =>
    intro ret
    by_cases hne : hdr ++ rest = []
    · rw [hne]
      exact ⟨1, [], by rw [iterate_done _ 0 _ _ (bytesSplitBody_nil env ret)]; simp, rfl⟩
    · obtain ⟨f, rs, h1, h2⟩ := ih (ret ++ [hdr])
      refine ⟨f + 1, hdr :: rs, ?_, by simp [h2]⟩
      have hstep := bytesSplitBody_component env hdr [] [] rest ret code (by simpa using hne)
        (by simpa using hread) hcode
        (by simpa using sizeForAddr_size_zero env _ rest hsize)
      simp only [List.nil_append, List.append_nil] at hstep
      rw [iterate_next _ _ _ _ hstep, h1]
      simp
  | valued hdr pre value rest code tr hread hcode hsize hres htr hval _ ih =>
    intro ret
    by_cases hne : hdr ++ (pre ++ (value ++ rest)) = []
    · rw [hne]
      exact ⟨1, [], by rw [iterate_done _ 0 _ _ (bytesSplitBody_nil env ret)]; simp, rfl⟩
    · obtain ⟨f, rs, h1, h2⟩ := ih (ret ++ [hdr ++ (pre ++ value)])
      refine ⟨f + 1, (hdr ++ (pre ++ value)) :: rs, ?_, by simp [h2]⟩
      rw [iterate_next _ _ _ _
        (bytesSplitBody_component env hdr pre value rest ret code hne hread hcode hres), h1]
      simp

/-! ## Claims on `bytesSplit` -/

/-- C4. Segmentation tiling: for every buffer `b` that `validateBytes`
accepts, `bytesSplit b` succeeds and the ranges it returns, concatenated in
order, are `b`. -/
theorem bytesSplit_tiles (env : Env) (b : List Byte) (h : validateBytes env b = .ok ()) :
    ∃ rs, bytesSplit env b = .ok rs ∧ rs.flatten = b := by
  obtain ⟨f, rs, h1, h2⟩ :=
    bytesSplit_iterate_of_validAddr env b (validAddr_of_validateBytes env b h) []
  exact ⟨rs, bytesSplit_of_fuel env f b _ h1 (by simp), h2⟩

/-- C4, at `/tcp/80/quic/unix/a/b` in the concrete environment. -/
theorem bytesSplit_tiles_witness :
    validateBytes refEnv [6, 0, 80, 204, 3, 144, 3, 4, 47, 97, 47, 98] = .ok () ∧
      ∃ rs, bytesSplit refEnv [6, 0, 80, 204, 3, 144, 3, 4, 47, 97, 47, 98] = .ok rs ∧
        rs.flatten = [6, 0, 80, 204, 3, 144, 3, 4, 47, 97, 47, 98] :=
  ⟨by decide, bytesSplit_tiles refEnv _ (by decide)⟩

/-! ## One pass of `bytesToString` -/

theorem bytesToStringBody_nil (env : Env) (s : Str) :
    bytesToStringBody env ([], s) = .done (.ok s) := by
  simp [bytesToStringBody]

theorem bytesToStringBody_unknown (env : Env) (b : List Byte) (s : Str) (code : Int) (n : Nat)
    (hne : b ≠ []) (hread : env.ReadVarintCode b = some (code, n))
    (hcode : (env.ProtocolWithCode code).Code = 0) :
    bytesToStringBody env (b, s) = .done (.ok (s ++ unknownText env b)) := by
  unfold bytesToStringBody unknownText
  simp only [hne, hread, hcode, if_true, if_false, List.append_assoc]

theorem bytesToStringBody_noValue (env : Env) (hdr rest : List Byte) (s : Str) (code : Int)
    (hne : hdr ++ rest ≠ [])
    (hread : env.ReadVarintCode (hdr ++ rest) = some (code, hdr.length))
    (hcode : (env.ProtocolWithCode code).Code ≠ 0)
    (hsize : (env.ProtocolWithCode code).Size = 0) :
    bytesToStringBody env (hdr ++ rest, s) =
      .next (rest, s ++ '/' :: (env.ProtocolWithCode code).Name) := by
  unfold bytesToStringBody
  simp only [hne, hread, sliceFrom_append, hcode, hsize, if_true, if_false]

/-- A pass of `bytesToString` over a well-framed component with a value. -/
theorem bytesToStringBody_valued (env : Env) (hdr pre value rest : List Byte) (s : Str)
    (code : Int)
    (hne : hdr ++ (pre ++ (value ++ rest)) ≠ [])
    (hread : env.ReadVarintCode (hdr ++ (pre ++ (value ++ rest))) = some (code, hdr.length))
    (hcode : (env.ProtocolWithCode code).Code ≠ 0)
    (hsize : (env.ProtocolWithCode code).Size ≠ 0)
    (hres : sizeForAddr env (env.ProtocolWithCode code) (pre ++ (value ++ rest)) =
      some (pre.length, (value.length : Int))) :
    bytesToStringBody env (hdr ++ (pre ++ (value ++ rest)), s) =
      match (env.ProtocolWithCode code).Transcoder with
      | none => .done (.error (.noTranscoder (env.ProtocolWithCode code).Name))
      | some tr =>
        match tr.BytesToString value with
        | none => .done (.error .transcoder)
        | some a => .next (rest, s ++ rendered (env.ProtocolWithCode code) a) := by
  unfold bytesToStringBody
  have hlen : ¬ (((value ++ rest).length : Int) < (value.length : Int) ∨ (value.length : Int) < 0) := by
    simp only [List.length_append, Nat.cast_add]
    omega
  simp only [hne, hread, sliceFrom_append, hcode, hsize, hres, hlen, if_false,
    Int.toNat_natCast, List.take_left, List.drop_left]
  cases (env.ProtocolWithCode code).Transcoder with
  | none => rfl
  | some tr =>
    simp only
    cases tr.BytesToString value with
    | none => rfl
    | some a =>
      simp only [rendered, valueText]
      split <;> simp

/-- A pass of `bytesToString` that goes on has rendered a known component. -/
theorem bytesToStringBody_next (env : Env) (b b1 : List Byte) (s s1 : Str)
    (h : bytesToStringBody env (b, s) = .next (b1, s1)) :
    b ≠ [] ∧ ∃ hdr code, env.ReadVarintCode b = some (code, hdr.length) ∧
      (env.ProtocolWithCode code).Code ≠ 0 ∧
      (((env.ProtocolWithCode code).Size = 0 ∧ b = hdr ++ b1 ∧
          s1 = s ++ '/' :: (env.ProtocolWithCode code).Name) ∨
       ((env.ProtocolWithCode code).Size ≠ 0 ∧ ∃ pre value tr a,
          b = hdr ++ (pre ++ (value ++ b1)) ∧
          sizeForAddr env (env.ProtocolWithCode code) (pre ++ (value ++ b1)) =
            some (pre.length, (value.length : Int)) ∧
          (env.ProtocolWithCode code).Transcoder = some tr ∧
          tr.BytesToString value = some a ∧
          s1 = s ++ rendered (env.ProtocolWithCode code) a)) := by
  by_cases hne : b = []
  · rw [hne, bytesToStringBody_nil] at h
    exact absurd h (by simp)
  refine ⟨hne, ?_⟩
  cases hread : env.ReadVarintCode b with
  | none =>
    unfold bytesToStringBody at h
    simp only [hne, hread, if_false] at h
    exact absurd h (by simp)
  | some v =>
    obtain ⟨code, n⟩ := v
    by_cases hcode : (env.ProtocolWithCode code).Code = 0
    · rw [bytesToStringBody_unknown env b s code n hne hread hcode] at h
      exact absurd h (by simp)
    cases hs1 : sliceFrom b n with
    | none =>
      unfold bytesToStringBody at h
      simp only [hne, hread, hcode, hs1, if_false] at h
      exact absurd h (by simp)
    | some bn =>
      obtain ⟨hdr, rfl, rfl⟩ := sliceFrom_split hs1
      refine ⟨hdr, code, rfl, hcode, ?_⟩
      by_cases hsize : (env.ProtocolWithCode code).Size = 0
      · rw [bytesToStringBody_noValue env hdr bn s code hne hread hcode hsize] at h
        injection h with h
        injection h with ha hb
        exact Or.inl ⟨hsize, by rw [ha], hb.symm⟩
      right
      refine ⟨hsize, ?_⟩
      cases hres : sizeForAddr env (env.ProtocolWithCode code) bn with
      | none =>
        unfold bytesToStringBody at h
        simp only [hne, hread, hcode, hs1, hsize, hres, if_false] at h
        exact absurd h (by simp)
      | some w =>
        obtain ⟨n2, size⟩ := w
        cases hs2 : sliceFrom bn n2 with
        | none =>
          unfold bytesToStringBody at h
          simp only [hne, hread, hcode, hs1, hsize, hres, hs2, if_false] at h
          exact absurd h (by simp)
        | some b2 =>
          obtain ⟨pre, rfl, rfl⟩ := sliceFrom_split hs2
          by_cases hlen : ((b2.length : Int) < size ∨ size < 0)
          · unfold bytesToStringBody at h
            simp only [hne, hread, hcode, hs1, hsize, hres, hs2, hlen, if_false, if_true] at h
            exact absurd h (by simp)
          have h0 : 0 ≤ size := by omega
          have h1 : size.toNat ≤ b2.length := by omega
          have hb2 : b2 = b2.take size.toNat ++ b2.drop size.toNat :=
            (List.take_append_drop _ _).symm
          have hsz : ((b2.take size.toNat).length : Int) = size := by
            rw [List.length_take_of_le h1, Int.toNat_of_nonneg h0]
          have hres2 : sizeForAddr env (env.ProtocolWithCode code)
              (pre ++ (b2.take size.toNat ++ b2.drop size.toNat)) =
              some (pre.length, ((b2.take size.toNat).length : Int)) := by
            rw [← hb2, hres, hsz]
          have hne2 : hdr ++ (pre ++ (b2.take size.toNat ++ b2.drop size.toNat)) ≠ [] := by
            rw [← hb2]; exact hne
          have hread2 : env.ReadVarintCode
              (hdr ++ (pre ++ (b2.take size.toNat ++ b2.drop size.toNat))) =
              some (code, hdr.length) := by
            rw [← hb2]; exact hread
          have hstep := bytesToStringBody_valued env hdr pre (b2.take size.toNat)
            (b2.drop size.toNat) s code hne2 hread2 hcode hsize hres2
          rw [← hb2] at hstep
          rw [hstep] at h
          cases htr : (env.ProtocolWithCode code).Transcoder with
          | none => rw [htr] at h; exact absurd h (by simp)
          | some tr =>
            rw [htr] at h
            simp only at h
            cases hbts : tr.BytesToString (b2.take size.toNat) with
            | none => rw [hbts] at h; exact absurd h (by simp)
            | some a =>
              rw [hbts] at h
              injection h with h
              injection h with ha hb
              refine ⟨pre, b2.take size.toNat, tr, a, ?_, ?_, rfl, hbts, hb.symm⟩
              · rw [← ha, ← hb2]
              · rw [← ha]; exact hres2

/-- What a pass of `bytesToString` does to the buffer does not depend on the
text built so far. -/
theorem bytesToStringBody_next_text (env : Env) (b b1 : List Byte) (s s1 : Str)
    (h : bytesToStringBody env (b, s) = .next (b1, s1)) :
    ∃ x t, b = x ++ b1 ∧ ∀ s0, bytesToStringBody env (b, s0) = .next (b1, s0 ++ t) := by
  obtain ⟨hne, hdr, code, hread, hcode, ⟨hsize, rfl, _⟩ |
    ⟨hsize, pre, value, tr, a, rfl, hres, htr, hbts, _⟩⟩ := bytesToStringBody_next env b b1 s s1 h
  · exact ⟨hdr, _, rfl, fun s0 => bytesToStringBody_noValue env hdr b1 s0 code hne hread hcode hsize⟩
  · refine ⟨hdr ++ (pre ++ value), rendered (env.ProtocolWithCode code) a, by simp, fun s0 => ?_⟩
    rw [bytesToStringBody_valued env hdr pre value b1 s0 code hne hread hcode hsize hres, htr]
    simp only [hbts]

/-- With enough fuel for some result, `bytesToString` has that result. -/
theorem bytesToString_of_fuel (env : Env) (f : Nat) (b : List Byte) (r : Outcome Str)
    (h : iterate (bytesToStringBody env) f (b, []) = r) (hr : r ≠ .diverge) :
    bytesToString env b = r := by
  refine iterate_of_fuel (bytesToStringBody env) (fun st => st.1.length)
    (fun st => ∀ s0, ∃ s1, bytesToStringBody env (st.1, s0) = .next (st.1, s1))
    ?_ ?_ f (b, []) r h hr
  · rintro ⟨s, t⟩ hs
    obtain ⟨t1, h1⟩ := hs t
    exact ⟨(s, t1), h1, hs⟩
  · rintro ⟨s, t⟩ ⟨s1, t1⟩ hs
    obtain ⟨x, t2, hx, hall⟩ := bytesToStringBody_next_text env s s1 t t1 hs
    cases x with
    | nil =>
      right
      have e : s = s1 := by simpa using hx
      intro s0
      refine ⟨s0 ++ t2, ?_⟩
      have := hall s0
      rw [e] at this
      exact this
    | cons c x =>
      left
      simp only [hx, List.length_append, List.length_cons]
      omega

/-! ## The unknown tail -/

theorem bytesToString_iterate_nil (env : Env) (f : Nat) (s0 s : Str)
    (h : iterate (bytesToStringBody env) f ([], s0) = .ok s) : s = s0 := by
  cases f with
  | zero => rw [iterate_zero] at h; exact absurd h (by simp)
  | succ f =>
    rw [iterate_done _ f _ _ (bytesToStringBody_nil env s0)] at h
    injection h with h
    exact h.symm

theorem bytesToString_iterate_unknownTail (env : Env) (hs : VarintStable env)
    (u : List Byte) (code : Int) (n : Nat) (hu : u ≠ [])
    (hread : env.ReadVarintCode u = some (code, n))
    (hcode : (env.ProtocolWithCode code).Code = 0)
    (p : List Byte) (hk : KnownComponents env p) :
    ∀ (f : Nat) (s0 s : Str), iterate (bytesToStringBody env) f (p, s0) = .ok s →
      ∃ g, iterate (bytesToStringBody env) g (p ++ u, s0) = .ok (s ++ unknownText env u) := by
  have hbase : ∀ (f : Nat) (s0 s : Str), iterate (bytesToStringBody env) f ([], s0) = .ok s →
      ∃ g, iterate (bytesToStringBody env) g ([] ++ u, s0) = .ok (s ++ unknownText env u) := by
    intro f s0 s h
    rw [bytesToString_iterate_nil env f s0 s h]
    exact ⟨1, iterate_done _ 0 _ _ (bytesToStringBody_unknown env u s0 code n hu hread hcode)⟩
  induction hk with
  | done => exact hbase
  | noValue hdr rest c hr hc hsize _ ih =>
    intro f s0 s h
    by_cases hne : hdr ++ rest = []
    · rw [hne] at h ⊢
      exact hbase f s0 s h
    cases f with
    | zero => rw [iterate_zero] at h; exact absurd h (by simp)
    | succ f =>
      rw [iterate_next _ f _ _ (bytesToStringBody_noValue env hdr rest s0 c hne hr hc hsize)] at h
      obtain ⟨g, hg⟩ := ih f _ s h
      refine ⟨g + 1, ?_⟩
      have hr2 : env.ReadVarintCode (hdr ++ (rest ++ u)) = some (c, hdr.length) := by
        rw [← List.append_assoc]; exact hs _ _ _ hr
      have hne2 : hdr ++ (rest ++ u) ≠ [] := by simp [hu]
      rw [List.append_assoc,
        iterate_next _ g _ _ (bytesToStringBody_noValue env hdr (rest ++ u) s0 c hne2 hr2 hc hsize)]
      exact hg
  | valued hdr pre value rest c hr hc hsize hres _ ih =>
    intro f s0 s h
    by_cases hne : hdr ++ (pre ++ (value ++ rest)) = []
    · rw [hne] at h ⊢
      exact hbase f s0 s h
    cases f with
    | zero => rw [iterate_zero] at h; exact absurd h (by simp)
    | succ f =>
      have e1 : hdr ++ (pre ++ (value ++ rest)) ++ u = hdr ++ (pre ++ (value ++ (rest ++ u))) := by
        simp
      have e2 : pre ++ (value ++ rest) ++ u = pre ++ (value ++ (rest ++ u)) := by simp
      have hr2 : env.ReadVarintCode (hdr ++ (pre ++ (value ++ (rest ++ u)))) =
          some (c, hdr.length) := by
        rw [← e1]; exact hs _ _ _ hr
      have hres2 : sizeForAddr env (env.ProtocolWithCode c) (pre ++ (value ++ (rest ++ u))) =
          some (pre.length, (value.length : Int)) := by
        rw [← e2]; exact sizeForAddr_append env hs _ _ _ _ hres
      have hne2 : hdr ++ (pre ++ (value ++ (rest ++ u))) ≠ [] := by simp [hu]
      rw [iterate_succ, bytesToStringBody_valued env hdr pre value rest s0 c hne hr hc hsize hres] at h
      cases htr : (env.ProtocolWithCode c).Transcoder with
      | none => rw [htr] at h; exact absurd h (by simp)
      | some tr =>
        rw [htr] at h
        simp only at h
        cases hb : tr.BytesToString value with
        | none => rw [hb] at h; exact absurd h (by simp)
        | some a =>
          rw [hb] at h
          simp only at h
          obtain ⟨g, hg⟩ := ih f _ s h
          refine ⟨g + 1, ?_⟩
          rw [e1, iterate_succ,
            bytesToStringBody_valued env hdr pre value (rest ++ u) s0 c hne2 hr2 hc hsize hres2, htr]
          simp only [hb]
          exact hg

/-- The buffer `/ip6zone` with the one-byte value `/`, of known components. -/
theorem knownComponents_zone : KnownComponents refEnv [42, 1, 47] :=
  KnownComponents.valued [42] [1] [47] [] 42 (by decide) (by decide) (by decide) (by decide)
    KnownComponents.done

/-! ## Claims on the unknown tail, the empty string and bad framing -/

/-- C6, as stated, fails: the buffer `p` of `/ip6zone` with the value `/` is
decoded by `bytesToString`, and it has only known components; followed by the
unknown code 127 and two bytes, the buffer is decoded as the claim says, but
`validateBytes` rejects it, because the validator of `ip6zone` refuses a
value that its renderer accepts. -/
theorem unknownTail_validate_fails :
    VarintStable refEnv ∧
    bytesToString refEnv [42, 1, 47] = .ok "/ip6zone//".toList ∧
    KnownComponents refEnv [42, 1, 47] ∧
    refEnv.ReadVarintCode ([127] ++ [1, 2]) = some (127, [127].length) ∧
    (refEnv.ProtocolWithCode 127).Code = 0 ∧
    bytesToString refEnv ([42, 1, 47] ++ ([127] ++ [1, 2])) =
      .ok ("/ip6zone//".toList ++ unknownText refEnv ([127] ++ [1, 2])) ∧
    validateBytes refEnv ([42, 1, 47] ++ ([127] ++ [1, 2])) = .error .transcoder :=
  ⟨varintStable_tableEnv _, by decide, knownComponents_zone, by decide, by decide, by decide,
    by decide⟩

/-- C6, amended. Unknown-code tolerance: when reading a varint gives the same
result after bytes are appended, for every buffer `b = p ++ u` where
`bytesToString p` succeeds with `s`, `validateBytes p` succeeds, `p` has only
known components, and `u = hdr ++ more` starts with a readable varint code
`hdr` that is absent from the registry, `bytesToString b` returns
`s ++ "/unknown/" ++ base32(u)` and `validateBytes b` succeeds. -/
theorem unknownTail_tolerated (env : Env) (hs : VarintStable env)
    (p hdr more : List Byte) (s : Str) (code : Int)
    (hp : bytesToString env p = .ok s) (hv : validateBytes env p = .ok ())
    (hk : KnownComponents env p) (hhdr : hdr ≠ [])
    (hread : env.ReadVarintCode (hdr ++ more) = some (code, hdr.length))
    (hcode : (env.ProtocolWithCode code).Code = 0) :
    bytesToString env (p ++ (hdr ++ more)) = .ok (s ++ unknownText env (hdr ++ more)) ∧
      validateBytes env (p ++ (hdr ++ more)) = .ok () := by
  constructor
  · obtain ⟨g, hg⟩ := bytesToString_iterate_unknownTail env hs (hdr ++ more) code hdr.length
      (by simp [hhdr]) hread hcode p hk _ [] s hp
    exact bytesToString_of_fuel env g _ _ hg (by simp)
  · exact validateBytes_of_validAddr env _
      (validAddr_append env hs p (hdr ++ more) (validAddr_of_validateBytes env p hv)
        (ValidAddr.unknownTail hdr more code hread hcode))

/-- The buffer `/ip6zone/x`, of known components. -/
theorem knownComponents_zone_x : KnownComponents refEnv [42, 1, 120] :=
  KnownComponents.valued [42] [1] [120] [] 42 (by decide) (by decide) (by decide) (by decide)
    KnownComponents.done

/-- C6, amended, at `/ip6zone/x` followed by the unknown code 127. -/
theorem unknownTail_tolerated_witness :
    bytesToString refEnv ([42, 1, 120] ++ ([127] ++ [1, 2])) =
        .ok ("/ip6zone/x".toList ++ unknownText refEnv ([127] ++ [1, 2])) ∧
      validateBytes refEnv ([42, 1, 120] ++ ([127] ++ [1, 2])) = .ok () :=
  unknownTail_tolerated refEnv (varintStable_tableEnv _) [42, 1, 120] [127] [1, 2]
    "/ip6zone/x".toList 127 (by decide) (by decide) knownComponents_zone_x (by decide)
    (by decide) (by decide)

theorem dropSlashes_of_all (s : Str) (h : ∀ c ∈ s, c = '/') : dropSlashes s = [] := by
  induction s with
  | nil => rfl
  | cons c cs ih =>
    have hc : c = '/' := h c (List.mem_cons_self _ _)
    simp only [dropSlashes, hc, if_true]
    exact ih (fun d hd => h d (List.mem_cons_of_mem _ hd))

theorem trimRight_of_all (s : Str) (h : ∀ c ∈ s, c = '/') : trimRight s = [] := by
  unfold trimRight
  rw [dropSlashes_of_all s.reverse (fun c hc => h c (List.mem_reverse.mp hc))]
  rfl

/-- C7, as stated, fails: `stringToBytes` accepts the empty string and the
string `//`, and returns the empty buffer. -/
theorem stringToBytes_empty_not_rejected :
    stringToBytes refEnv "".toList = .ok [] ∧ stringToBytes refEnv "//".toList = .ok [] ∧
      stringToBytes refEnv "".toList ≠ .error .mustBeginWithSlash :=
  ⟨by decide, by decide, by decide⟩

/-- C7, amended. Empty input is accepted: for every string that is empty
after its trailing slashes are stripped (the empty string and every string
made only of `/`), `stringToBytes` succeeds and returns the empty buffer. -/
theorem stringToBytes_of_all_slashes (env : Env) (s : Str) (h : ∀ c ∈ s, c = '/') :
    stringToBytes env s = .ok [] := by
  unfold stringToBytes
  rw [trimRight_of_all s h]
  rfl

/-- C7, amended, at the string `///`. -/
theorem stringToBytes_of_all_slashes_witness :
    (∀ c ∈ "///".toList, c = '/') ∧ stringToBytes refEnv "///".toList = .ok [] :=
  ⟨by decide, stringToBytes_of_all_slashes refEnv "///".toList (by decide)⟩

/-- C8. On the buffer `06 00` (the code of `tcp`, whose value has two bytes,
and one byte), `validateBytes` and `bytesToString` return the error "invalid
value for size", and `bytesSplit` panics in `b[:length]`. -/
theorem bytesSplit_crashes_on_short_value :
    validateBytes refEnv [6, 0] = .error .invalidValueForSize ∧
      bytesToString refEnv [6, 0] = .error .invalidValueForSize ∧
      bytesSplit refEnv [6, 0] = .crash :=
  ⟨by decide, by decide, by decide⟩

/-- On a length prefix that reads as the negative length -1, `validateBytes`
returns the error "invalid value for size" and `bytesSplit` returns ranges. -/
theorem bytesSplit_ranges_on_negative_length :
    refEnv.ReadVarintCode [255, 255, 255, 255, 255, 255, 255, 255, 255, 1, 1] = some (-1, 10) ∧
      validateBytes refEnv [42, 255, 255, 255, 255, 255, 255, 255, 255, 255, 1, 1] =
        .error .invalidValueForSize ∧
      bytesSplit refEnv [42, 255, 255, 255, 255, 255, 255, 255, 255, 255, 1, 1] =
        .ok [[42, 255, 255, 255, 255, 255, 255, 255, 255, 255], [1, 1]] :=
  ⟨by decide, by decide, by decide⟩

/-! ## The loop of `stringToBytes` -/

theorem stringToBytesLoop_nil (env : Env) (b : List Byte) :
    stringToBytesLoop env [] b = .ok b := by
  unfold stringToBytesLoop; rfl

theorem stringToBytesLoop_noValue (env : Env) (tok : Str) (sp : List Str) (b : List Byte)
    (hu : tok ≠ unknownLit)
    (hcode : (env.ProtocolWithName tok).Code ≠ 0)
    (hsize : (env.ProtocolWithName tok).Size = 0) :
    stringToBytesLoop env (tok :: sp) b =
      stringToBytesLoop env sp (b ++ env.CodeToVarint (env.ProtocolWithName tok).Code) := by
  rw [stringToBytesLoop.eq_def]
  simp only [hu, hcode, hsize, if_true, if_false]

/-- A pass of `stringToBytes` over the name of a protocol with a value and
the token after it. -/
theorem stringToBytesLoop_valued (env : Env) (tok arg : Str) (sp : List Str) (b : List Byte)
    (hu : tok ≠ unknownLit)
    (hcode : (env.ProtocolWithName tok).Code ≠ 0)
    (hsize : (env.ProtocolWithName tok).Size ≠ 0) :
    stringToBytesLoop env (tok :: arg :: sp) b =
      match (env.ProtocolWithName tok).Transcoder with
      | none => .error (.noTranscoder (env.ProtocolWithName tok).Name)
      | some tr =>
        match tr.StringToBytes
          (if (env.ProtocolWithName tok).Path then '/' :: joinSlash (arg :: sp) else arg) with
        | none => .error (.failedToParse (env.ProtocolWithName tok).Name
            (if (env.ProtocolWithName tok).Path then '/' :: joinSlash (arg :: sp) else arg))
        | some a =>
          if (env.ProtocolWithName tok).Path then
            .ok (b ++ Comp.bytes env ⟨env.ProtocolWithName tok, a⟩)
          else
            stringToBytesLoop env sp (b ++ Comp.bytes env ⟨env.ProtocolWithName tok, a⟩) := by
  rw [stringToBytesLoop.eq_def]
  simp only [hu, hcode, hsize, if_false, Comp.bytes]
  cases (env.ProtocolWithName tok).Transcoder with
  | none => rfl
  | some tr =>
    simp only
    cases tr.StringToBytes
      (if (env.ProtocolWithName tok).Path then '/' :: joinSlash (arg :: sp) else arg) with
    | none => rfl
    | some a =>
      simp only
      by_cases hneg : (env.ProtocolWithName tok).Size < 0 <;> simp [hneg]

theorem Comp.bytes_eq (env : Env) (c : Comp) :
    c.bytes env = env.CodeToVarint c.p.Code ++ (c.pre env ++ c.value) := rfl

theorem bytesOf_nil (env : Env) : bytesOf env [] = [] := rfl

theorem bytesOf_cons (env : Env) (c : Comp) (cs : List Comp) :
    bytesOf env (c :: cs) = c.bytes env ++ bytesOf env cs := by
  simp [bytesOf]

theorem bytesOf_cons_framed (env : Env) (c : Comp) (cs : List Comp) :
    bytesOf env (c :: cs) =
      env.CodeToVarint c.p.Code ++ (c.pre env ++ (c.value ++ bytesOf env cs)) := by
  rw [bytesOf_cons, Comp.bytes_eq]
  simp

theorem takesEscape_noValue (env : Env) (tok : Str) (sp : List Str)
    (hu : tok ≠ unknownLit)
    (hcode : (env.ProtocolWithName tok).Code ≠ 0)
    (hsize : (env.ProtocolWithName tok).Size = 0) :
    takesEscape env (tok :: sp) = takesEscape env sp := by
  rw [takesEscape.eq_def]
  simp only [hu, hcode, hsize, if_true, if_false]

theorem takesEscape_valued (env : Env) (tok arg : Str) (sp : List Str)
    (hu : tok ≠ unknownLit)
    (hcode : (env.ProtocolWithName tok).Code ≠ 0)
    (hsize : (env.ProtocolWithName tok).Size ≠ 0) :
    takesEscape env (tok :: arg :: sp) =
      if (env.ProtocolWithName tok).Path then false else takesEscape env sp := by
  rw [takesEscape.eq_def]
  simp only [hu, hcode, hsize, if_false]

/-- The tokens that `stringToBytes` cuts into components are accepted, and
written as the bytes of the components, without the escape. -/
theorem stringToBytesLoop_of_parsed (env : Env) (sp : List Str) (cs : List Comp)
    (h : Parsed env sp cs) :
    (∀ b, stringToBytesLoop env sp b = .ok (b ++ bytesOf env cs)) ∧
      takesEscape env sp = false := by
  induction h with
  | done =>
    refine ⟨fun b => ?_, by rw [takesEscape.eq_def]⟩
    rw [stringToBytesLoop_nil, bytesOf_nil, List.append_nil]
  | noValue tok sp cs hu hcode hsize _ ih =>
    refine ⟨fun b => ?_, by rw [takesEscape_noValue env tok sp hu hcode hsize]; exact ih.2⟩
    rw [stringToBytesLoop_noValue env tok sp b hu hcode hsize, ih.1, bytesOf_cons_framed]
    simp [Comp.pre, hsize]
  | valued tok arg sp cs tr a hu hcode hsize hpath htr ha _ ih =>
    refine ⟨fun b => ?_, by
      rw [takesEscape_valued env tok arg sp hu hcode hsize, hpath]; exact ih.2⟩
    rw [stringToBytesLoop_valued env tok arg sp b hu hcode hsize, htr]
    simp only [hpath, Bool.false_eq_true, if_false, ha]
    rw [ih.1, bytesOf_cons]
    simp
  | path tok arg sp tr a hu hcode hsize hpath htr ha =>
    refine ⟨fun b => ?_, by rw [takesEscape_valued env tok arg sp hu hcode hsize, hpath]; rfl⟩
    rw [stringToBytesLoop_valued env tok arg sp b hu hcode hsize, htr]
    simp only [hpath, if_true, ha]
    rw [bytesOf_cons, bytesOf_nil, List.append_nil]

/-- Tokens that `stringToBytes` accepts without the escape are cut into
components, whose bytes are what is written. -/
theorem parsed_of_stringToBytesLoop (env : Env) :
    ∀ (n : Nat) (sp : List Str), sp.length ≤ n → ∀ (b out : List Byte),
      stringToBytesLoop env sp b = .ok out → takesEscape env sp = false →
      ∃ cs, Parsed env sp cs ∧ out = b ++ bytesOf env cs := by
  intro n
  induction n with
  | zero =>
    intro sp hn b out h _
    have : sp = [] := List.length_eq_zero.mp (Nat.le_zero.mp hn)
    subst this
    rw [stringToBytesLoop_nil] at h
    injection h with h
    exact ⟨[], Parsed.done, by rw [bytesOf_nil, List.append_nil, h]⟩
  | succ n ih =>
    intro sp hn b out h he
    cases sp with
    | nil =>
      rw [stringToBytesLoop_nil] at h
      injection h with h
      exact ⟨[], Parsed.done, by rw [bytesOf_nil, List.append_nil, h]⟩
    | cons tok sp =>
      by_cases hu : tok = unknownLit
      · rw [takesEscape.eq_def] at he
        simp only [hu, if_true] at he
        exact absurd he (by simp)
      by_cases hcode : (env.ProtocolWithName tok).Code = 0
      · rw [stringToBytesLoop.eq_def] at h
        simp only [hu, hcode, if_true, if_false] at h
        exact absurd h (by simp)
      by_cases hsize : (env.ProtocolWithName tok).Size = 0
      · rw [stringToBytesLoop_noValue env tok sp b hu hcode hsize] at h
        rw [takesEscape_noValue env tok sp hu hcode hsize] at he
        obtain ⟨cs, hp, ho⟩ := ih sp (by simpa using hn) _ out h he
        refine ⟨_ :: cs, Parsed.noValue tok sp cs hu hcode hsize hp, ?_⟩
        rw [ho, bytesOf_cons_framed]
        simp [Comp.pre, hsize]
      cases sp with
      | nil =>
        rw [stringToBytesLoop.eq_def] at h
        simp only [hu, hcode, hsize, if_false] at h
        exact absurd h (by simp)
      | cons arg sp =>
        rw [stringToBytesLoop_valued env tok arg sp b hu hcode hsize] at h
        rw [takesEscape_valued env tok arg sp hu hcode hsize] at he
        cases htr : (env.ProtocolWithName tok).Transcoder with
        | none => rw [htr] at h; exact absurd h (by simp)
        | some tr =>
          rw [htr] at h
          simp only at h
          cases hpath : (env.ProtocolWithName tok).Path with
          | true =>
            rw [hpath] at h
            simp only [if_true] at h
            cases ha : tr.StringToBytes ('/' :: joinSlash (arg :: sp)) with
            | none => rw [ha] at h; exact absurd h (by simp)
            | some a =>
              rw [ha] at h
              injection h with h
              refine ⟨_, Parsed.path tok arg sp tr a hu hcode hsize hpath htr ha, ?_⟩
              rw [← h, bytesOf_cons, bytesOf_nil, List.append_nil]
          | false =>
            rw [hpath] at h he
            simp only [Bool.false_eq_true, if_false] at h he
            cases ha : tr.StringToBytes arg with
            | none => rw [ha] at h; exact absurd h (by simp)
            | some a =>
              rw [ha] at h
              simp only at h
              obtain ⟨cs, hp, ho⟩ := ih sp (by simp at hn; omega) _ out h he
              refine ⟨_ :: cs, Parsed.valued tok arg sp cs tr a hu hcode hsize hpath htr ha hp, ?_⟩
              rw [ho, bytesOf_cons]
              simp

/-- A varint that is read back is not empty. -/
theorem codeToVarint_ne_nil (env : Env) (ok : EnvOK env) (c : Int) (h0 : 0 ≤ c)
    (h1 : c < 2 ^ 63) : env.CodeToVarint c ≠ [] := by
  intro hnil
  have hc := ok.varint c
  rw [hnil] at hc
  by_cases hz : c = 0
  · have h2 := ok.varint 1 [] (by decide) (by norm_num)
    have h3 := hc (env.CodeToVarint 1 ++ []) h0 h1
    rw [List.nil_append] at h3
    rw [h3] at h2
    injection h2 with h2
    injection h2 with h2 _
    omega
  · have h2 := ok.varint 0 [] (by decide) (by norm_num)
    have h3 := hc (env.CodeToVarint 0 ++ []) h0 h1
    rw [List.nil_append] at h3
    rw [h3] at h2
    injection h2 with h2
    injection h2 with h2 _
    exact hz h2

theorem textOf_cons_length (t : Str) (ts : List Str) :
    (textOf (t :: ts)).length = t.length + 1 + (textOf ts).length := by
  simp [textOf]
  omega

theorem textOf_eq_joinSlash (t : Str) (ts : List Str) :
    textOf (t :: ts) = '/' :: joinSlash (t :: ts) := by
  induction ts generalizing t with
  | nil => simp [textOf, joinSlash]
  | cons u us ih =>
    rw [textOf, ih u, joinSlash]
    rfl

/-- A component of a registered protocol is framed. -/
theorem framed_of_registered (env : Env) (ok : EnvOK env) (sz : SizesOK env)
    (tok t : Str) (a : List Byte)
    (hcode : (env.ProtocolWithName tok).Code ≠ 0)
    (hval : (env.ProtocolWithName tok).Size = 0 ∧ a = [] ∨
      (env.ProtocolWithName tok).Size ≠ 0 ∧ ∃ tr,
        (env.ProtocolWithName tok).Transcoder = some tr ∧ tr.StringToBytes t = some a ∧
        t.length < 2 ^ 63) :
    Comp.Framed env ⟨env.ProtocolWithName tok, a⟩ := by
  obtain ⟨hr0, hr1⟩ := ok.code_range tok hcode
  refine ⟨?_, ok.code_eq tok hcode, codeToVarint_ne_nil env ok _ hr0 hr1,
    fun r => ok.varint _ r hr0 hr1, fun r => ?_, fun h0 => ?_⟩
  · show (env.ProtocolWithCode (env.ProtocolWithName tok).Code).Code ≠ 0
    rw [ok.code_eq tok hcode]; exact hcode
  · show sizeForAddr env (env.ProtocolWithName tok) _ = _
    unfold Comp.pre
    simp only
    rcases hval with ⟨h0, rfl⟩ | ⟨hne, tr, htr, ha, hlen⟩
    · simp [sizeForAddr, h0]
    · rcases lt_or_gt_of_ne hne with hneg | hpos
      · have hb := sz.bounded tok tr t a hcode htr ha hlen
        have hnp : ¬ (env.ProtocolWithName tok).Size > 0 := by omega
        unfold sizeForAddr
        simp only [hneg, if_true, hnp, if_false, hne]
        rw [ok.varint (a.length : Int) (a ++ r) (Int.natCast_nonneg _) (by exact_mod_cast hb)]
      · have hf := sz.fixed tok tr t a hcode hpos htr ha
        have hnn : ¬ (env.ProtocolWithName tok).Size < 0 := by omega
        unfold sizeForAddr
        simp only [hnn, if_false, hpos, gt_iff_lt, if_true, List.nil_append, List.length_nil,
          hf]
  · rcases hval with ⟨_, rfl⟩ | ⟨hne, _⟩
    · rfl
    · exact absurd h0 hne

/-- The components cut from a text that is short enough are framed. -/
theorem framed_of_parsed (env : Env) (ok : EnvOK env) (sz : SizesOK env)
    (sp : List Str) (cs : List Comp) (h : Parsed env sp cs)
    (hlen : (textOf sp).length < 2 ^ 63) : ∀ c ∈ cs, Comp.Framed env c := by
  induction h with
  | done => intro c hc; exact absurd hc (List.not_mem_nil c)
  | noValue tok sp cs hu hcode hsize _ ih =>
    intro c hc
    rw [textOf_cons_length] at hlen
    rcases List.mem_cons.mp hc with rfl | hc
    · exact framed_of_registered env ok sz tok [] [] hcode (Or.inl ⟨hsize, rfl⟩)
    · exact ih (by omega) c hc
  | valued tok arg sp cs tr a hu hcode hsize hpath htr ha _ ih =>
    intro c hc
    rw [textOf_cons_length, textOf_cons_length] at hlen
    rcases List.mem_cons.mp hc with rfl | hc
    · exact framed_of_registered env ok sz tok arg a hcode
        (Or.inr ⟨hsize, tr, htr, ha, by omega⟩)
    · exact ih (by omega) c hc
  | path tok arg sp tr a hu hcode hsize hpath htr ha =>
    intro c hc
    rw [textOf_cons_length, textOf_eq_joinSlash] at hlen
    rcases List.mem_cons.mp hc with rfl | hc
    · exact framed_of_registered env ok sz tok _ a hcode
        (Or.inr ⟨hsize, tr, htr, ha, by omega⟩)
    · exact absurd hc (List.not_mem_nil c)

/-! ## The traversals over framed components -/

theorem bytesOf_cons_ne_nil (env : Env) (c : Comp) (cs : List Comp) (h : c.Framed env) :
    env.CodeToVarint c.p.Code ++ (c.pre env ++ (c.value ++ bytesOf env cs)) ≠ [] := by
  intro hnil
  exact h.hdr_ne (List.append_eq_nil.mp hnil).1

theorem Comp.pre_of_size_zero (env : Env) (c : Comp) (h : c.p.Size = 0) : c.pre env = [] := by
  simp [Comp.pre, h]

/-- The function `bytesSplit` cuts the bytes of framed components into the
components. -/
theorem bytesSplit_iterate_framed (env : Env) (cs : List Comp)
    (h : ∀ c ∈ cs, Comp.Framed env c) :
    ∀ ret, ∃ f, iterate (bytesSplitBody env) f (bytesOf env cs, ret) =
      .ok (ret ++ cs.map (Comp.bytes env)) := by
  induction cs with
  | nil =>
    intro ret
    exact ⟨1, by rw [bytesOf_nil, iterate_done _ 0 _ _ (bytesSplitBody_nil env ret)]; simp⟩
  | cons c cs ih =>
    intro ret
    have hc := h c (List.mem_cons_self _ _)
    obtain ⟨f, hf⟩ := ih (fun d hd => h d (List.mem_cons_of_mem _ hd)) (ret ++ [c.bytes env])
    refine ⟨f + 1, ?_⟩
    have hstep := bytesSplitBody_component env (env.CodeToVarint c.p.Code) (c.pre env) c.value
      (bytesOf env cs) ret c.p.Code (bytesOf_cons_ne_nil env c cs hc) (hc.read _) hc.known
      (by rw [hc.proto]; exact hc.resolve _)
    rw [bytesOf_cons_framed, iterate_next _ _ _ _ hstep, ← Comp.bytes_eq, hf]
    simp

/-- The bytes of framed components whose values pass `ValidateBytes` are a
valid address. -/
theorem validAddr_framed (env : Env) (cs : List Comp)
    (h : ∀ c ∈ cs, Comp.Framed env c)
    (hv : ∀ c ∈ cs, c.p.Size ≠ 0 →
      ∃ tr, c.p.Transcoder = some tr ∧ tr.ValidateBytes c.value = true) :
    ValidAddr env (bytesOf env cs) := by
  induction cs with
  | nil => exact ValidAddr.done
  | cons c cs ih =>
    have hc := h c (List.mem_cons_self _ _)
    have hrest := ih (fun d hd => h d (List.mem_cons_of_mem _ hd))
      (fun d hd => hv d (List.mem_cons_of_mem _ hd))
    rw [bytesOf_cons_framed]
    by_cases hsize : c.p.Size = 0
    · have hread := hc.read (c.pre env ++ (c.value ++ bytesOf env cs))
      rw [Comp.pre_of_size_zero env c hsize, hc.no_value hsize] at hread ⊢
      simp only [List.nil_append] at hread ⊢
      exact ValidAddr.noValue _ _ c.p.Code hread hc.known (by rw [hc.proto]; exact hsize) hrest
    · obtain ⟨tr, htr, hval⟩ := hv c (List.mem_cons_self _ _) hsize
      exact ValidAddr.valued _ _ _ _ c.p.Code tr (hc.read _) hc.known
        (by rw [hc.proto]; exact hsize) (by rw [hc.proto]; exact hc.resolve _)
        (by rw [hc.proto]; exact htr) hval hrest

theorem valueText_of_not_path (p : Protocol) (a : Str) (h : p.Path = false) :
    valueText p a = a := by
  unfold valueText
  rw [h]

theorem valueText_of_path (p : Protocol) (a : Str) (h : p.Path = true) :
    valueText p ('/' :: a) = a := by
  unfold valueText
  rw [h]
  rfl

theorem LastNonempty_tail (t : Str) (ts : List Str) (h : LastNonempty (t :: ts)) :
    LastNonempty ts := by
  cases ts with
  | nil => trivial
  | cons u us => exact h

theorem joinSlash_ne_nil (t : Str) (ts : List Str) (h : LastNonempty (t :: ts)) :
    joinSlash (t :: ts) ≠ [] := by
  cases ts with
  | nil => exact h
  | cons u us =>
    rw [joinSlash]
    simp

/-- The function `bytesToString` renders the bytes of the components cut from a token list
as the text of the tokens. -/
theorem bytesToString_iterate_parsed (env : Env) (ok : EnvOK env) (sz : SizesOK env)
    (inv : TranscodersInvert env) (sp : List Str) (cs : List Comp) (h : Parsed env sp cs) :
    (textOf sp).length < 2 ^ 63 → LastNonempty sp →
      ∀ s0, ∃ f, iterate (bytesToStringBody env) f (bytesOf env cs, s0) =
        .ok (s0 ++ textOf sp) := by
  induction h with
  | done =>
    intro _ _ s0
    exact ⟨1, by rw [bytesOf_nil, iterate_done _ 0 _ _ (bytesToStringBody_nil env s0)]; simp [textOf]⟩
  | noValue tok sp cs hu hcode hsize hp ih =>
    intro hlen hlast s0
    have hc := framed_of_parsed env ok sz _ _ (Parsed.noValue tok sp cs hu hcode hsize hp) hlen
      _ (List.mem_cons_self _ _)
    rw [textOf_cons_length] at hlen
    obtain ⟨f, hf⟩ := ih (by omega) (LastNonempty_tail _ _ hlast) (s0 ++ '/' :: tok)
    refine ⟨f + 1, ?_⟩
    have hread := hc.read (bytesOf env cs)
    have hne := bytesOf_cons_ne_nil env _ cs hc
    rw [bytesOf_cons_framed]
    rw [Comp.pre_of_size_zero env _ hsize, hc.no_value hsize] at hne ⊢
    simp only [List.nil_append] at hne hread ⊢
    rw [iterate_next _ _ _ _ (bytesToStringBody_noValue env _ _ s0 _ hne hread hc.known
      (by rw [hc.proto]; exact hsize)), hc.proto, ok.name_eq tok hcode, hf]
    simp [textOf]
  | valued tok arg sp cs tr a hu hcode hsize hpath htr ha hp ih =>
    intro hlen hlast s0
    have hc := framed_of_parsed env ok sz _ _
      (Parsed.valued tok arg sp cs tr a hu hcode hsize hpath htr ha hp) hlen
      _ (List.mem_cons_self _ _)
    rw [textOf_cons_length, textOf_cons_length] at hlen
    have harg : arg ≠ [] := by
      intro h0
      rw [h0, inv.nonempty tok tr hcode hpath htr] at ha
      exact absurd ha (by simp)
    obtain ⟨f, hf⟩ := ih (by omega) (LastNonempty_tail _ _ (LastNonempty_tail _ _ hlast))
      (s0 ++ ('/' :: tok ++ '/' :: arg))
    refine ⟨f + 1, ?_⟩
    rw [bytesOf_cons_framed, iterate_succ,
      bytesToStringBody_valued env _ _ _ _ s0 _ (bytesOf_cons_ne_nil env _ cs hc) (hc.read _)
        hc.known (by rw [hc.proto]; exact hsize) (by rw [hc.proto]; exact hc.resolve _),
      hc.proto]
    simp only [htr, inv.inverts tok tr arg a hcode htr ha, rendered,
      valueText_of_not_path _ arg hpath, ok.name_eq tok hcode]
    have hpos : arg.length > 0 := List.length_pos.mpr harg
    simp only [hpos, if_true]
    rw [hf]
    simp [textOf]
  | path tok arg sp tr a hu hcode hsize hpath htr ha =>
    intro hlen hlast s0
    have hc := framed_of_parsed env ok sz _ _
      (Parsed.path tok arg sp tr a hu hcode hsize hpath htr ha) hlen
      _ (List.mem_cons_self _ _)
    refine ⟨1 + 1, ?_⟩
    have hj : (joinSlash (arg :: sp)).length > 0 :=
      List.length_pos.mpr (joinSlash_ne_nil arg sp (LastNonempty_tail _ _ hlast))
    rw [bytesOf_cons_framed, iterate_succ,
      bytesToStringBody_valued env _ _ _ _ s0 _ (bytesOf_cons_ne_nil env _ [] hc) (hc.read _)
        hc.known (by rw [hc.proto]; exact hsize) (by rw [hc.proto]; exact hc.resolve _),
      hc.proto]
    simp only [htr, inv.inverts tok tr _ a hcode htr ha, rendered,
      valueText_of_path _ _ hpath, ok.name_eq tok hcode, hj, if_true]
    rw [bytesOf_nil, iterate_done _ 0 _ _ (bytesToStringBody_nil env _)]
    rw [textOf, textOf_eq_joinSlash]

/-! ## Splitting and joining -/

theorem splitSlash_ne_nil (s : Str) : splitSlash s ≠ [] := by
  induction s with
  | nil => simp [splitSlash]
  | cons c cs ih =>
    unfold splitSlash
    split
    · simp
    · split <;> simp

theorem joinSlash_cons_cons (c : Char) (h : Str) (tl : List Str) :
    joinSlash ((c :: h) :: tl) = c :: joinSlash (h :: tl) := by
  cases tl with
  | nil => rfl
  | cons u us => simp [joinSlash]

theorem joinSlash_splitSlash (s : Str) : joinSlash (splitSlash s) = s := by
  induction s with
  | nil => rfl
  | cons c cs ih =>
    unfold splitSlash
    cases hsp : splitSlash cs with
    | nil => exact absurd hsp (splitSlash_ne_nil cs)
    | cons h tl =>
      rw [hsp] at ih
      split
      · rename_i hc
        rw [joinSlash, ih, hc]
        rfl
      · simp only
        rw [joinSlash_cons_cons, ih]

theorem dropSlashes_length_le (s : Str) : (dropSlashes s).length ≤ s.length := by
  induction s with
  | nil => simp [dropSlashes]
  | cons c cs ih =>
    unfold dropSlashes
    split
    · simp only [List.length_cons]; omega
    · exact Nat.le_refl _

theorem trimRight_length_le (s : Str) : (trimRight s).length ≤ s.length := by
  unfold trimRight
  rw [List.length_reverse]
  have := dropSlashes_length_le s.reverse
  rwa [List.length_reverse] at this

theorem dropSlashes_shape (s : Str) :
    dropSlashes s = [] ∨ ∃ c x, dropSlashes s = c :: x ∧ c ≠ '/' := by
  induction s with
  | nil => left; rfl
  | cons c cs ih =>
    unfold dropSlashes
    split
    · exact ih
    · rename_i hc
      exact Or.inr ⟨c, cs, rfl, hc⟩

theorem dropSlashes_of_head (c : Char) (x : Str) (h : c ≠ '/') :
    dropSlashes (c :: x) = c :: x := by
  simp [dropSlashes, h]

theorem trimRight_shape (s : Str) :
    trimRight s = [] ∨ ∃ y c, trimRight s = y ++ [c] ∧ c ≠ '/' := by
  unfold trimRight
  rcases dropSlashes_shape s.reverse with h | ⟨c, x, h, hc⟩
  · left; rw [h]; rfl
  · right
    exact ⟨x.reverse, c, by rw [h, List.reverse_cons], hc⟩

theorem trimRight_of_last (y : Str) (c : Char) (h : c ≠ '/') :
    trimRight (y ++ [c]) = y ++ [c] := by
  unfold trimRight
  rw [List.reverse_append, List.reverse_singleton, List.singleton_append,
    dropSlashes_of_head c _ h, List.reverse_cons, List.reverse_reverse]

theorem trimRight_idem (s : Str) : trimRight (trimRight s) = trimRight s := by
  rcases trimRight_shape s with h | ⟨y, c, h, hc⟩
  · rw [h]; rfl
  · rw [h, trimRight_of_last y c hc]

theorem LastNonempty_splitSlash (y : Str) (c : Char) (h : c ≠ '/') :
    LastNonempty (splitSlash (y ++ [c])) := by
  induction y with
  | nil =>
    simp only [List.nil_append, splitSlash, h, if_false]
    exact List.cons_ne_nil _ _
  | cons d y ih =>
    rw [List.cons_append]
    unfold splitSlash
    cases hsp : splitSlash (y ++ [c]) with
    | nil => exact absurd hsp (splitSlash_ne_nil _)
    | cons t ts =>
      rw [hsp] at ih
      split
      · exact ih
      · simp only
        cases ts with
        | nil => exact List.cons_ne_nil _ _
        | cons u us => exact ih

/-- What `stringToBytes` does before its loop: an accepted string is the
text of its tokens, once its trailing slashes are dropped. -/
theorem stringToBytes_ok_tokens (env : Env) (s : Str) (b : List Byte)
    (h : stringToBytes env s = .ok b) :
    stringToBytesLoop env (tokensOf s) [] = .ok b ∧ textOf (tokensOf s) = trimRight s ∧
      LastNonempty (tokensOf s) := by
  unfold stringToBytes at h
  unfold tokensOf
  have hj := joinSlash_splitSlash (trimRight s)
  cases hsp : splitSlash (trimRight s) with
  | nil => exact absurd hsp (splitSlash_ne_nil _)
  | cons first sp =>
    rw [hsp] at h hj
    simp only at h
    by_cases hf : first = []
    · subst hf
      simp only [ne_eq, not_true_eq_false, if_false] at h
      refine ⟨h, ?_, ?_⟩
      · rw [List.tail_cons, ← hj]
        cases sp with
        | nil => rfl
        | cons u us => rw [textOf_eq_joinSlash]; rfl
      · rw [List.tail_cons]
        rcases trimRight_shape s with h0 | ⟨y, c, hy, hc⟩
        · rw [h0] at hsp
          simp only [splitSlash] at hsp
          injection hsp with _ hsp
          rw [← hsp]
          trivial
        · have hl := LastNonempty_splitSlash y c hc
          rw [← hy, hsp] at hl
          exact LastNonempty_tail _ _ hl
    · simp only [ne_eq, hf, not_false_eq_true, if_true] at h
      exact absurd h (by simp)

/-- The tokens of a string that is the text of its tokens are consumed by the
loop of `stringToBytes`. -/
theorem stringToBytes_of_tokens (env : Env) (s : Str) (sp : List Str)
    (h : splitSlash (trimRight s) = [] :: sp) :
    stringToBytes env s = stringToBytesLoop env sp [] := by
  unfold stringToBytes
  rw [h]
  simp

theorem stringToBytes_trimRight (env : Env) (s : Str) :
    stringToBytes env (trimRight s) = stringToBytes env s := by
  unfold stringToBytes
  rw [trimRight_idem]

theorem tokensOf_trimRight (s : Str) : tokensOf (trimRight s) = tokensOf s := by
  unfold tokensOf
  rw [trimRight_idem]

/-! ## The concrete environment meets the assumptions -/

theorem asciiBytes_cons (c : Char) (cs : Str) (a : List Byte)
    (h : asciiBytes (c :: cs) = some a) :
    c.toNat < 128 ∧ ∃ r, asciiBytes cs = some r ∧ a = c.toNat :: r := by
  unfold asciiBytes at h
  split at h
  · rename_i hc
    cases hr : asciiBytes cs with
    | none => rw [hr] at h; exact absurd h (by simp)
    | some r =>
      rw [hr] at h
      simp only [Option.map_some'] at h
      injection h with h
      exact ⟨hc, r, rfl, h.symm⟩
  · exact absurd h (by simp)

theorem asciiBytes_length (t : Str) (a : List Byte) (h : asciiBytes t = some a) :
    a.length = t.length := by
  induction t generalizing a with
  | nil =>
    simp only [asciiBytes] at h
    injection h with h
    subst h
    rfl
  | cons c cs ih =>
    obtain ⟨_, r, hr, rfl⟩ := asciiBytes_cons c cs a h
    simp [ih r hr]

theorem asciiString_asciiBytes (t : Str) (a : List Byte) (h : asciiBytes t = some a) :
    asciiString a = some t := by
  induction t generalizing a with
  | nil =>
    simp only [asciiBytes] at h
    injection h with h
    rw [← h]
    rfl
  | cons c cs ih =>
    obtain ⟨hc, r, hr, rfl⟩ := asciiBytes_cons c cs a h
    unfold asciiString
    rw [if_pos hc, ih r hr]
    simp [Char.ofNat_toNat]

theorem asciiBytes_mem_slash (t : Str) (a : List Byte) (h : asciiBytes t = some a)
    (hm : 47 ∈ a) : '/' ∈ t := by
  induction t generalizing a with
  | nil =>
    simp only [asciiBytes] at h
    injection h with h
    rw [← h] at hm
    exact absurd hm (List.not_mem_nil _)
  | cons c cs ih =>
    obtain ⟨_, r, hr, rfl⟩ := asciiBytes_cons c cs a h
    rcases List.mem_cons.mp hm with h47 | hm
    · have : c = '/' := by
        rw [← Char.ofNat_toNat c, ← h47]
      rw [this]
      exact List.mem_cons_self _ _
    · exact List.mem_cons_of_mem _ (ih r hr hm)

/-- A protocol found in `textEnv` is one of its three, under its own name. -/
theorem textEnv_registered (name : Str) (h : (textEnv.ProtocolWithName name).Code ≠ 0) :
    (textEnv.ProtocolWithName name).Name = name ∧
      (textEnv.ProtocolWithName name = protoQUIC ∨
       textEnv.ProtocolWithName name = protoIP6ZONE ∨
       textEnv.ProtocolWithName name = protoUNIX) := by
  have e : textEnv.ProtocolWithName name =
      lookupName [protoQUIC, protoIP6ZONE, protoUNIX] name := rfl
  rw [e] at h ⊢
  simp only [lookupName] at h ⊢
  by_cases h1 : protoQUIC.Name = name
  · rw [if_pos h1]
    exact ⟨h1, Or.inl rfl⟩
  · rw [if_neg h1] at h ⊢
    by_cases h2 : protoIP6ZONE.Name = name
    · rw [if_pos h2]
      exact ⟨h2, Or.inr (Or.inl rfl)⟩
    · rw [if_neg h2] at h ⊢
      by_cases h3 : protoUNIX.Name = name
      · rw [if_pos h3]
        exact ⟨h3, Or.inr (Or.inr rfl)⟩
      · rw [if_neg h3] at h
        exact absurd rfl h

theorem envOK_textEnv : EnvOK textEnv where
  name_eq name h := (textEnv_registered name h).1
  code_eq name h := by
    rcases (textEnv_registered name h).2 with e | e | e <;> rw [e] <;> rfl
  code_range name h := by
    rcases (textEnv_registered name h).2 with e | e | e <;> rw [e] <;>
      exact ⟨by decide, by norm_num [protoQUIC, protoIP6ZONE, protoUNIX]⟩
  varint c rest h0 h1 := leb128Read_leb128Write c h0 h1 rest

theorem zone_stringToBytes (t : Str) (a : List Byte)
    (h : TranscoderIP6Zone.StringToBytes t = some a) :
    t ≠ [] ∧ '/' ∉ t ∧ asciiBytes t = some a := by
  simp only [TranscoderIP6Zone] at h
  split at h
  · exact absurd h (by simp)
  · rename_i hc
    rw [not_or] at hc
    refine ⟨hc.1, ?_, h⟩
    intro hm
    exact hc.2 (List.elem_eq_true_of_mem hm)

theorem sizesOK_textEnv : SizesOK textEnv where
  fixed name tr t a h hpos htr ha := by
    rcases (textEnv_registered name h).2 with e | e | e <;> rw [e] at hpos <;>
      exact absurd hpos (by decide)
  bounded name tr t a h htr ha hlen := by
    rcases (textEnv_registered name h).2 with e | e | e <;> rw [e] at htr
    · exact absurd htr (by simp [protoQUIC])
    · have : tr = TranscoderIP6Zone := by
        simp only [protoIP6ZONE, Option.some.injEq] at htr
        exact htr.symm
      subst this
      rw [asciiBytes_length t a (zone_stringToBytes t a ha).2.2]
      exact hlen
    · have : tr = TranscoderUnix := by
        simp only [protoUNIX, Option.some.injEq] at htr
        exact htr.symm
      subst this
      rw [asciiBytes_length t a ha]
      exact hlen

theorem transcodersInvert_textEnv : TranscodersInvert textEnv where
  inverts name tr t a h htr ha := by
    rcases (textEnv_registered name h).2 with e | e | e <;> rw [e] at htr
    · exact absurd htr (by simp [protoQUIC])
    · have : tr = TranscoderIP6Zone := by
        simp only [protoIP6ZONE, Option.some.injEq] at htr
        exact htr.symm
      subst this
      obtain ⟨hne, _, hb⟩ := zone_stringToBytes t a ha
      have hlen := asciiBytes_length t a hb
      have hane : a ≠ [] := by
        intro h0
        rw [h0] at hlen
        exact hne (List.length_eq_zero.mp hlen.symm)
      simp only [TranscoderIP6Zone, hane, if_false]
      exact asciiString_asciiBytes t a hb
    · have : tr = TranscoderUnix := by
        simp only [protoUNIX, Option.some.injEq] at htr
        exact htr.symm
      subst this
      exact asciiString_asciiBytes t a ha
  nonempty name tr h hpath htr := by
    rcases (textEnv_registered name h).2 with e | e | e <;> rw [e] at htr hpath
    · exact absurd htr (by simp [protoQUIC])
    · have : tr = TranscoderIP6Zone := by
        simp only [protoIP6ZONE, Option.some.injEq] at htr
        exact htr.symm
      subst this
      rfl
    · exact absurd hpath (by decide)

theorem transcodersValidate_textEnv : TranscodersValidate textEnv := by
  intro name tr t a h htr ha
  rcases (textEnv_registered name h).2 with e | e | e <;> rw [e] at htr
  · exact absurd htr (by simp [protoQUIC])
  · have : tr = TranscoderIP6Zone := by
      simp only [protoIP6ZONE, Option.some.injEq] at htr
      exact htr.symm
    subst this
    obtain ⟨hne, hslash, hb⟩ := zone_stringToBytes t a ha
    have hlen := asciiBytes_length t a hb
    have hane : a ≠ [] := by
      intro h0
      rw [h0] at hlen
      exact hne (List.length_eq_zero.mp hlen.symm)
    have h47 : a.contains 47 = false := by
      rw [Bool.eq_false_iff]
      intro hc
      exact hslash (asciiBytes_mem_slash t a hb (List.mem_of_elem_eq_true hc))
    simp only [TranscoderIP6Zone, h47, Bool.not_false, Bool.and_true, Bool.not_eq_true',
      beq_eq_false_iff_ne, ne_eq]
    exact hane
  · have : tr = TranscoderUnix := by
      simp only [protoUNIX, Option.some.injEq] at htr
      exact htr.symm
    subst this
    rfl

/-- The values of the components cut from a token list pass `ValidateBytes`
when the transcoders write values that do. -/
theorem validated_of_parsed (env : Env) (val : TranscodersValidate env)
    (sp : List Str) (cs : List Comp) (h : Parsed env sp cs) :
    ∀ c ∈ cs, c.p.Size ≠ 0 →
      ∃ tr, c.p.Transcoder = some tr ∧ tr.ValidateBytes c.value = true := by
  induction h with
  | done => intro c hc; exact absurd hc (List.not_mem_nil c)
  | noValue tok sp cs hu hcode hsize _ ih =>
    intro c hc hs
    rcases List.mem_cons.mp hc with rfl | hc
    · exact absurd hsize hs
    · exact ih c hc hs
  | valued tok arg sp cs tr a hu hcode hsize hpath htr ha _ ih =>
    intro c hc hs
    rcases List.mem_cons.mp hc with rfl | hc
    · exact ⟨tr, htr, val tok tr arg a hcode htr ha⟩
    · exact ih c hc hs
  | path tok arg sp tr a hu hcode hsize hpath htr ha =>
    intro c hc hs
    rcases List.mem_cons.mp hc with rfl | hc
    · exact ⟨tr, htr, val tok tr _ a hcode htr ha⟩
    · exact absurd hc (List.not_mem_nil c)

/-- An accepted string that does not take the escape is cut into components. -/
theorem parsed_of_stringToBytes (env : Env) (s : Str) (b : List Byte)
    (h : stringToBytes env s = .ok b) (he : takesEscape env (tokensOf s) = false) :
    ∃ cs, Parsed env (tokensOf s) cs ∧ b = bytesOf env cs ∧
      textOf (tokensOf s) = trimRight s ∧ LastNonempty (tokensOf s) := by
  obtain ⟨hloop, htext, hlast⟩ := stringToBytes_ok_tokens env s b h
  obtain ⟨cs, hp, hb⟩ :=
    parsed_of_stringToBytesLoop env _ (tokensOf s) (Nat.le_refl _) [] b hloop he
  exact ⟨cs, hp, by rw [hb, List.nil_append], htext, hlast⟩

theorem bytesToString_of_accepted (env : Env) (ok : EnvOK env) (sz : SizesOK env)
    (inv : TranscodersInvert env) (s : Str) (b : List Byte) (hlen : s.length < 2 ^ 63)
    (h : stringToBytes env s = .ok b) (he : takesEscape env (tokensOf s) = false) :
    bytesToString env b = .ok (trimRight s) := by
  obtain ⟨cs, hp, hb, htext, hlast⟩ := parsed_of_stringToBytes env s b h he
  have hl : (textOf (tokensOf s)).length < 2 ^ 63 := by
    rw [htext]
    exact Nat.lt_of_le_of_lt (trimRight_length_le s) hlen
  obtain ⟨f, hf⟩ := bytesToString_iterate_parsed env ok sz inv _ _ hp hl hlast []
  rw [List.nil_append, htext, ← hb] at hf
  exact bytesToString_of_fuel env f b _ hf (by simp)

/-! ## Claims on the round trips and on the validity of what is written -/

/-- C1, as stated, fails: in an environment whose transcoders are inverted by
their `BytesToString`, `stringToBytes` accepts `/unknown/bzqbq` and writes
the two bytes that the text spells, `cc 03`; these are the code of `quic`,
and `bytesToString` returns `/quic`, not the string. -/
theorem stringRoundTrip_fails_on_escape :
    EnvOK textEnv ∧ SizesOK textEnv ∧ TranscodersInvert textEnv ∧
    stringToBytes textEnv "/unknown/bzqbq".toList = .ok [204, 3] ∧
    bytesToString textEnv [204, 3] = .ok "/quic".toList ∧
    "/quic".toList ≠ trimRight "/unknown/bzqbq".toList :=
  ⟨envOK_textEnv, sizesOK_textEnv, transcodersInvert_textEnv, by decide, by decide, by decide⟩

/-- C1, amended. String round trip: with a registry and varints that are
consistent (`EnvOK`), transcoders whose `BytesToString` undoes their
`StringToBytes`, that refuse the empty text unless the protocol is a path,
and that write `Size / 8` bytes for a fixed-size protocol (`SizesOK`), for
every string `s` that `stringToBytes` accepts without taking the `unknown`
escape, `bytesToString (stringToBytes s)` succeeds and is `s` with its
trailing slashes stripped. -/
theorem stringRoundTrip (env : Env) (ok : EnvOK env) (sz : SizesOK env)
    (inv : TranscodersInvert env) (s : Str) (b : List Byte) (hlen : s.length < 2 ^ 63)
    (h : stringToBytes env s = .ok b) (he : takesEscape env (tokensOf s) = false) :
    bytesToString env b = .ok (trimRight s) :=
  bytesToString_of_accepted env ok sz inv s b hlen h he

/-- C1, amended, at `/ip6zone/x/quic/unix/a/b//`. -/
theorem stringRoundTrip_witness :
    stringToBytes textEnv "/ip6zone/x/quic/unix/a/b//".toList =
        .ok [42, 1, 120, 204, 3, 144, 3, 4, 47, 97, 47, 98] ∧
      takesEscape textEnv (tokensOf "/ip6zone/x/quic/unix/a/b//".toList) = false ∧
      bytesToString textEnv [42, 1, 120, 204, 3, 144, 3, 4, 47, 97, 47, 98] =
        .ok (trimRight "/ip6zone/x/quic/unix/a/b//".toList) :=
  ⟨by decide, by decide,
    stringRoundTrip textEnv envOK_textEnv sizesOK_textEnv transcodersInvert_textEnv
      "/ip6zone/x/quic/unix/a/b//".toList _ (by decide) (by decide) (by decide)⟩

/-- C3, as stated, fails: in an environment whose transcoders write values of
the right size that pass their own `ValidateBytes`, `stringToBytes` accepts
`/quic/unknown/bfi` and writes `cc 03 2a`; the last byte is the code of
`ip6zone` without its length prefix, and `validateBytes` rejects the buffer. -/
theorem written_invalid_on_escape :
    EnvOK textEnv ∧ SizesOK textEnv ∧ TranscodersValidate textEnv ∧
    stringToBytes textEnv "/quic/unknown/bfi".toList = .ok [204, 3, 42] ∧
    validateBytes textEnv [204, 3, 42] = .error .varint :=
  ⟨envOK_textEnv, sizesOK_textEnv, transcodersValidate_textEnv, by decide, by decide⟩

/-- C3, amended. What is written is valid: with a registry and varints that
are consistent (`EnvOK`) and transcoders whose `StringToBytes` writes values
that pass their own `ValidateBytes` and have `Size / 8` bytes for a
fixed-size protocol, for every string `s` that `stringToBytes` accepts
without taking the `unknown` escape, `validateBytes (stringToBytes s)`
succeeds. -/
theorem written_is_valid (env : Env) (ok : EnvOK env) (sz : SizesOK env)
    (val : TranscodersValidate env) (s : Str) (b : List Byte) (hlen : s.length < 2 ^ 63)
    (h : stringToBytes env s = .ok b) (he : takesEscape env (tokensOf s) = false) :
    validateBytes env b = .ok () := by
  obtain ⟨cs, hp, hb, htext, _⟩ := parsed_of_stringToBytes env s b h he
  have hl : (textOf (tokensOf s)).length < 2 ^ 63 := by
    rw [htext]
    exact Nat.lt_of_le_of_lt (trimRight_length_le s) hlen
  rw [hb]
  exact validateBytes_of_validAddr env _
    (validAddr_framed env cs (framed_of_parsed env ok sz _ _ hp hl)
      (validated_of_parsed env val _ _ hp))

/-- C3, amended, at `/quic/ip6zone/eth0/unix/run`. -/
theorem written_is_valid_witness :
    stringToBytes textEnv "/quic/ip6zone/eth0/unix/run".toList =
        .ok [204, 3, 42, 4, 101, 116, 104, 48, 144, 3, 4, 47, 114, 117, 110] ∧
      validateBytes textEnv [204, 3, 42, 4, 101, 116, 104, 48, 144, 3, 4, 47, 114, 117, 110] =
        .ok () :=
  ⟨by decide,
    written_is_valid textEnv envOK_textEnv sizesOK_textEnv transcodersValidate_textEnv
      "/quic/ip6zone/eth0/unix/run".toList _ (by decide) (by decide) (by decide)⟩

/-! ## Strings made of single components -/

theorem textOf_append (a b : List Str) : textOf (a ++ b) = textOf a ++ textOf b := by
  induction a with
  | nil => rfl
  | cons t ts ih => simp [textOf, ih]

theorem splitSlash_append_of_no_slash (t x : Str) (ht : '/' ∉ t) (h : Str) (tl : List Str)
    (hx : splitSlash x = h :: tl) : splitSlash (t ++ x) = (t ++ h) :: tl := by
  induction t with
  | nil => simpa using hx
  | cons c cs ih =>
    have hc : c ≠ '/' := fun e => ht (by rw [e]; exact List.mem_cons_self _ _)
    have hcs : '/' ∉ cs := fun m => ht (List.mem_cons_of_mem _ m)
    rw [List.cons_append, splitSlash, if_neg hc, ih hcs]
    rfl

theorem splitSlash_textOf (sp : List Str) (h : ∀ t ∈ sp, '/' ∉ t) :
    splitSlash (textOf sp) = [] :: sp := by
  induction sp with
  | nil => rfl
  | cons t ts ih =>
    have hts := ih (fun u hu => h u (List.mem_cons_of_mem _ hu))
    have ht := h t (List.mem_cons_self _ _)
    rw [textOf, List.cons_append, splitSlash, if_pos rfl,
      splitSlash_append_of_no_slash t (textOf ts) ht [] ts hts, List.append_nil]

theorem textOf_shape (sp : List Str) (h : ∀ t ∈ sp, t ≠ [] ∧ '/' ∉ t) :
    textOf sp = [] ∨ ∃ y c, textOf sp = y ++ [c] ∧ c ≠ '/' := by
  induction sp with
  | nil => left; rfl
  | cons t ts ih =>
    right
    rcases ih (fun u hu => h u (List.mem_cons_of_mem _ hu)) with h0 | ⟨y, c, hy, hc⟩
    · obtain ⟨hne, hns⟩ := h t (List.mem_cons_self _ _)
      refine ⟨'/' :: t.dropLast, t.getLast hne, ?_, ?_⟩
      · rw [textOf, h0, List.append_nil, List.cons_append, List.dropLast_append_getLast]
      · intro e
        exact hns (e ▸ List.getLast_mem hne)
    · exact ⟨'/' :: t ++ y, c, by rw [textOf, hy, List.append_assoc], hc⟩

theorem trimRight_textOf (sp : List Str) (h : ∀ t ∈ sp, t ≠ [] ∧ '/' ∉ t) :
    trimRight (textOf sp) = textOf sp := by
  rcases textOf_shape sp h with h0 | ⟨y, c, hy, hc⟩
  · rw [h0]; rfl
  · rw [hy, trimRight_of_last y c hc]

/-- On the text of tokens, `stringToBytes` is its loop over the tokens. -/
theorem stringToBytes_textOf (env : Env) (sp : List Str) (h : ∀ t ∈ sp, t ≠ [] ∧ '/' ∉ t) :
    stringToBytes env (textOf sp) = stringToBytesLoop env sp [] := by
  apply stringToBytes_of_tokens
  rw [trimRight_textOf sp h, splitSlash_textOf sp (fun t ht => (h t ht).2)]

theorem CompStr.text_eq (c : CompStr) : c.text = textOf c.tokens := by
  unfold CompStr.text CompStr.tokens
  cases c.value with
  | none => simp [textOf]
  | some v => simp [textOf]

theorem CompStr.tokens_ok (env : Env) (c : CompStr) (h : SingleComponent env c) :
    ∀ t ∈ c.tokens, t ≠ [] ∧ '/' ∉ t := by
  obtain ⟨h1, h2, _, _, h5⟩ := h
  unfold CompStr.tokens
  cases hv : c.value with
  | none =>
    intro t ht
    simp only [List.mem_singleton] at ht
    rw [ht]; exact ⟨h1, h2⟩
  | some v =>
    rw [hv] at h5
    intro t ht
    simp only [List.mem_cons, List.mem_singleton, List.not_mem_nil, or_false] at ht
    rcases ht with rfl | rfl
    · exact ⟨h1, h2⟩
    · exact ⟨h5.2.2.1, h5.2.2.2⟩

/-- An accepted single component is cut into one component, which does not
take the rest of the tokens, and its bytes are those of the component. -/
theorem parsed_single (env : Env) (c : CompStr) (b : List Byte)
    (h : SingleComponent env c) (hacc : stringToBytes env c.text = .ok b) :
    ∃ k : Comp, b = k.bytes env ∧
      ∀ sp ks, Parsed env sp ks → Parsed env (c.tokens ++ sp) (k :: ks) := by
  rw [CompStr.text_eq, stringToBytes_textOf env _ (CompStr.tokens_ok env c h)] at hacc
  obtain ⟨_, _, hu, hcode, h5⟩ := h
  unfold CompStr.tokens at hacc ⊢
  cases hv : c.value with
  | none =>
    rw [hv] at h5 hacc
    simp only at h5 hacc
    rw [stringToBytesLoop_noValue env c.name [] [] hu hcode h5, stringToBytesLoop_nil] at hacc
    injection hacc with hacc
    refine ⟨⟨env.ProtocolWithName c.name, []⟩, ?_, fun sp ks hp => ?_⟩
    · rw [← hacc, Comp.bytes_eq]
      simp [Comp.pre, h5]
    · exact Parsed.noValue c.name sp ks hu hcode h5 hp
  | some v =>
    rw [hv] at h5 hacc
    simp only at h5 hacc
    obtain ⟨hsize, hpath, _, _⟩ := h5
    rw [stringToBytesLoop_valued env c.name v [] [] hu hcode hsize] at hacc
    cases htr : (env.ProtocolWithName c.name).Transcoder with
    | none => rw [htr] at hacc; exact absurd hacc (by simp)
    | some tr =>
      rw [htr] at hacc
      simp only [hpath, Bool.false_eq_true, if_false] at hacc
      cases ha : tr.StringToBytes v with
      | none => rw [ha] at hacc; exact absurd hacc (by simp)
      | some a =>
        rw [ha] at hacc
        simp only [stringToBytesLoop_nil, List.nil_append] at hacc
        injection hacc with hacc
        refine ⟨⟨env.ProtocolWithName c.name, a⟩, hacc.symm, fun sp ks hp => ?_⟩
        exact Parsed.valued c.name v sp ks tr a hu hcode hsize hpath htr ha hp

theorem parsed_components (env : Env) (cs : List CompStr) (bs : List (List Byte))
    (hc : ∀ c ∈ cs, SingleComponent env c)
    (hacc : List.Forall₂ (fun c b => stringToBytes env c.text = .ok b) cs bs) :
    ∃ ks, Parsed env (cs.map CompStr.tokens).flatten ks ∧ bs = ks.map (Comp.bytes env) := by
  induction hacc with
  | nil => exact ⟨[], Parsed.done, rfl⟩
  | @cons c b cs bs hab _ ih =>
    obtain ⟨ks, hp, hb⟩ := ih (fun d hd => hc d (List.mem_cons_of_mem _ hd))
    obtain ⟨k, hk, hcons⟩ := parsed_single env c b (hc c (List.mem_cons_self _ _)) hab
    refine ⟨k :: ks, ?_, by rw [hk, hb]; rfl⟩
    rw [List.map_cons, List.flatten_cons]
    exact hcons _ ks hp

theorem text_components (cs : List CompStr) :
    (cs.map CompStr.text).flatten = textOf (cs.map CompStr.tokens).flatten := by
  induction cs with
  | nil => rfl
  | cons c cs ih =>
    rw [List.map_cons, List.flatten_cons, List.map_cons, List.flatten_cons, textOf_append, ih,
      CompStr.text_eq]

/-! ## Claim on the components that `bytesSplit` returns -/

/-- C9. Segmentation recovers the components: with a consistent registry and
varints (`EnvOK`) and transcoders that write `Size / 8` bytes for a
fixed-size protocol (`SizesOK`), for every list, possibly empty, of
single-component strings `c1 .. cn` that `stringToBytes` accepts with the
results `b1 .. bn`, `stringToBytes (c1 ++ .. ++ cn)` is `b1 ++ .. ++ bn` and
`bytesSplit` of it returns exactly `[b1, .., bn]`. -/
theorem bytesSplit_recovers_components (env : Env) (ok : EnvOK env) (sz : SizesOK env)
    (cs : List CompStr) (bs : List (List Byte))
    (hc : ∀ c ∈ cs, SingleComponent env c)
    (hacc : List.Forall₂ (fun c b => stringToBytes env c.text = .ok b) cs bs)
    (hlen : (cs.map CompStr.text).flatten.length < 2 ^ 63) :
    stringToBytes env (cs.map CompStr.text).flatten = .ok bs.flatten ∧
      bytesSplit env bs.flatten = .ok bs := by
  obtain ⟨ks, hp, hb⟩ := parsed_components env cs bs hc hacc
  have htok : ∀ t ∈ (cs.map CompStr.tokens).flatten, t ≠ [] ∧ '/' ∉ t := by
    intro t ht
    obtain ⟨l, hl, htl⟩ := List.mem_flatten.mp ht
    obtain ⟨c, hcm, rfl⟩ := List.mem_map.mp hl
    exact CompStr.tokens_ok env c (hc c hcm) t htl
  rw [text_components] at hlen ⊢
  have hflat : bs.flatten = bytesOf env ks := by rw [hb]; rfl
  constructor
  · rw [stringToBytes_textOf env _ htok, (stringToBytesLoop_of_parsed env _ ks hp).1, hflat,
      List.nil_append]
  · obtain ⟨f, hf⟩ := bytesSplit_iterate_framed env ks (framed_of_parsed env ok sz _ _ hp hlen) []
    rw [hflat, hb]
    exact bytesSplit_of_fuel env f _ _ (by rw [hf, List.nil_append]) (by simp)

/-! ## The reference environment meets the assumptions -/

/-- A protocol found in `refEnv` is one of its four, under its own name. -/
theorem refEnv_registered (name : Str) (h : (refEnv.ProtocolWithName name).Code ≠ 0) :
    (refEnv.ProtocolWithName name).Name = name ∧
      (refEnv.ProtocolWithName name = protoTCP ∨
       refEnv.ProtocolWithName name = protoQUIC ∨
       refEnv.ProtocolWithName name = protoIP6ZONE ∨
       refEnv.ProtocolWithName name = protoUNIX) := by
  have e : refEnv.ProtocolWithName name =
      lookupName [protoTCP, protoQUIC, protoIP6ZONE, protoUNIX] name := rfl
  rw [e] at h ⊢
  simp only [lookupName] at h ⊢
  by_cases h0 : protoTCP.Name = name
  · rw [if_pos h0]
    exact ⟨h0, Or.inl rfl⟩
  · rw [if_neg h0] at h ⊢
    by_cases h1 : protoQUIC.Name = name
    · rw [if_pos h1]
      exact ⟨h1, Or.inr (Or.inl rfl)⟩
    · rw [if_neg h1] at h ⊢
      by_cases h2 : protoIP6ZONE.Name = name
      · rw [if_pos h2]
        exact ⟨h2, Or.inr (Or.inr (Or.inl rfl))⟩
      · rw [if_neg h2] at h ⊢
        by_cases h3 : protoUNIX.Name = name
        · rw [if_pos h3]
          exact ⟨h3, Or.inr (Or.inr (Or.inr rfl))⟩
        · rw [if_neg h3] at h
          exact absurd rfl h

theorem envOK_refEnv : EnvOK refEnv where
  name_eq name h := (refEnv_registered name h).1
  code_eq name h := by
    rcases (refEnv_registered name h).2 with e | e | e | e <;> rw [e] <;> rfl
  code_range name h := by
    rcases (refEnv_registered name h).2 with e | e | e | e <;> rw [e] <;>
      exact ⟨by decide, by norm_num [protoTCP, protoQUIC, protoIP6ZONE, protoUNIX]⟩
  varint c rest h0 h1 := leb128Read_leb128Write c h0 h1 rest

theorem port_stringToBytes_length (t : Str) (a : List Byte)
    (h : TranscoderPort.StringToBytes t = some a) : a.length = 2 := by
  simp only [TranscoderPort] at h
  split at h
  · exact absurd h (by simp)
  · split at h
    · exact absurd h (by simp)
    · injection h with h
      rw [← h]
      rfl

theorem sizesOK_refEnv : SizesOK refEnv where
  fixed name tr t a h hpos htr ha := by
    rcases (refEnv_registered name h).2 with e | e | e | e <;> rw [e] at hpos htr ⊢
    · have : tr = TranscoderPort := by
        simp only [protoTCP, Option.some.injEq] at htr
        exact htr.symm
      subst this
      rw [port_stringToBytes_length t a ha]
      rfl
    all_goals exact absurd hpos (by decide)
  bounded name tr t a h htr ha hlen := by
    rcases (refEnv_registered name h).2 with e | e | e | e <;> rw [e] at htr
    · have : tr = TranscoderPort := by
        simp only [protoTCP, Option.some.injEq] at htr
        exact htr.symm
      subst this
      rw [port_stringToBytes_length t a ha]
      norm_num
    · exact absurd htr (by simp [protoQUIC])
    · have : tr = TranscoderIP6Zone := by
        simp only [protoIP6ZONE, Option.some.injEq] at htr
        exact htr.symm
      subst this
      rw [asciiBytes_length t a (zone_stringToBytes t a ha).2.2]
      exact hlen
    · have : tr = TranscoderUnix := by
        simp only [protoUNIX, Option.some.injEq] at htr
        exact htr.symm
      subst this
      rw [asciiBytes_length t a ha]
      exact hlen

/-- C9, at the components `/tcp/123`, `/quic` and `/ip6zone/eth0`. -/
theorem bytesSplit_recovers_components_witness :
    stringToBytes refEnv "/tcp/123/quic/ip6zone/eth0".toList =
        .ok [6, 0, 123, 204, 3, 42, 4, 101, 116, 104, 48] ∧
      bytesSplit refEnv [6, 0, 123, 204, 3, 42, 4, 101, 116, 104, 48] =
        .ok [[6, 0, 123], [204, 3], [42, 4, 101, 116, 104, 48]] :=
  bytesSplit_recovers_components refEnv envOK_refEnv sizesOK_refEnv
    [⟨"tcp".toList, some "123".toList⟩, ⟨"quic".toList, none⟩,
      ⟨"ip6zone".toList, some "eth0".toList⟩]
    [[6, 0, 123], [204, 3], [42, 4, 101, 116, 104, 48]]
    (by
      intro c hc
      simp only [List.mem_cons, List.mem_singleton, List.not_mem_nil, or_false] at hc
      rcases hc with rfl | rfl | rfl
      · exact ⟨by decide, by decide, by decide, by decide, by decide, by decide, by decide,
          by decide⟩
      · exact ⟨by decide, by decide, by decide, by decide, by decide⟩
      · exact ⟨by decide, by decide, by decide, by decide, by decide, by decide, by decide,
          by decide⟩)
    (List.Forall₂.cons (by decide)
      (List.Forall₂.cons (by decide) (List.Forall₂.cons (by decide) List.Forall₂.nil)))
    (by decide)

/-! ## Truncation at a component boundary -/

theorem validRanges_of_validAddr (env : Env) (b : List Byte) (h : ValidAddr env b) :
    ∃ rs, ValidRanges env b rs := by
  induction h with
  | done => exact ⟨[], ValidRanges.done⟩
  | unknownTail hdr more code hread hcode =>
    by_cases hne : hdr ++ more = []
    · rw [hne]; exact ⟨[], ValidRanges.done⟩
    · exact ⟨_, ValidRanges.unknownTail hdr more code hne hread hcode⟩
  | noValue hdr rest code hread hcode hsize _ ih =>
    obtain ⟨rs, hrs⟩ := ih
    by_cases hne : hdr = []
    · subst hne
      exact ⟨rs, by simpa using hrs⟩
    · exact ⟨_, ValidRanges.noValue hdr rest code rs hne hread hcode hsize hrs⟩
  | valued hdr pre value rest code tr hread hcode hsize hres htr hval _ ih =>
    obtain ⟨rs, hrs⟩ := ih
    by_cases hne : hdr ++ (pre ++ value) = []
    · have h1 : hdr = [] := (List.append_eq_nil.mp hne).1
      have h2 : pre = [] := (List.append_eq_nil.mp (List.append_eq_nil.mp hne).2).1
      have h3 : value = [] := (List.append_eq_nil.mp (List.append_eq_nil.mp hne).2).2
      subst h1 h2 h3
      exact ⟨rs, by simpa using hrs⟩
    · exact ⟨_, ValidRanges.valued hdr pre value rest code tr rs hne hread hcode hsize hres htr
        hval hrs⟩

theorem validAddr_of_validRanges (env : Env) (b : List Byte) (rs : List (List Byte))
    (h : ValidRanges env b rs) : ValidAddr env b := by
  induction h with
  | done => exact ValidAddr.done
  | unknownTail hdr more code _ hread hcode => exact ValidAddr.unknownTail hdr more code hread hcode
  | noValue hdr rest code rs _ hread hcode hsize _ ih =>
    exact ValidAddr.noValue hdr rest code hread hcode hsize ih
  | valued hdr pre value rest code tr rs _ hread hcode hsize hres htr hval _ ih =>
    exact ValidAddr.valued hdr pre value rest code tr hread hcode hsize hres htr hval ih

/-- The function `bytesSplit` returns the ranges of a valid address. -/
theorem bytesSplit_iterate_validRanges (env : Env) (b : List Byte) (rs : List (List Byte))
    (h : ValidRanges env b rs) :
    ∀ ret, ∃ f, iterate (bytesSplitBody env) f (b, ret) = .ok (ret ++ rs) := by
  induction h with
  | done =>
    intro ret
    exact ⟨1, by rw [iterate_done _ 0 _ _ (bytesSplitBody_nil env ret)]; simp⟩
  | unknownTail hdr more code hne hread hcode =>
    intro ret
    exact ⟨1, iterate_done _ 0 _ _ (bytesSplitBody_unknown env _ ret code _ hne hread hcode)⟩
  | noValue hdr rest code rs hne hread hcode hsize _ ih =>
    intro ret
    obtain ⟨f, hf⟩ := ih (ret ++ [hdr])
    refine ⟨f + 1, ?_⟩
    have hstep := bytesSplitBody_component env hdr [] [] rest ret code (by simp [hne])
      (by simpa using hread) hcode
      (by simpa using sizeForAddr_size_zero env _ rest hsize)
    simp only [List.nil_append, List.append_nil] at hstep
    rw [iterate_next _ _ _ _ hstep, hf]
    simp
  | valued hdr pre value rest code tr rs hne hread hcode hsize hres htr hval _ ih =>
    intro ret
    obtain ⟨f, hf⟩ := ih (ret ++ [hdr ++ (pre ++ value)])
    refine ⟨f + 1, ?_⟩
    have hne2 : hdr ++ (pre ++ (value ++ rest)) ≠ [] := by
      intro h0
      apply hne
      have h1 := List.append_eq_nil.mp h0
      have h2 := List.append_eq_nil.mp h1.2
      have h3 := List.append_eq_nil.mp h2.2
      rw [h1.1, h2.1, h3.1]
      rfl
    rw [iterate_next _ _ _ _
      (bytesSplitBody_component env hdr pre value rest ret code hne2 hread hcode hres), hf]
    simp

theorem bytesSplit_of_validRanges (env : Env) (b : List Byte) (rs : List (List Byte))
    (h : ValidRanges env b rs) : bytesSplit env b = .ok rs := by
  obtain ⟨f, hf⟩ := bytesSplit_iterate_validRanges env b rs h []
  exact bytesSplit_of_fuel env f b _ (by rw [hf, List.nil_append]) (by simp)

theorem sizeForAddr_local (env : Env) (hl : VarintLocal env) (p : Protocol)
    (pre y z : List Byte) (size : Int)
    (h : sizeForAddr env p (pre ++ y) = some (pre.length, size)) :
    sizeForAddr env p (pre ++ z) = some (pre.length, size) := by
  unfold sizeForAddr at h ⊢
  split
  · rename_i hp; rw [if_pos hp] at h; exact h
  rename_i hp
  rw [if_neg hp] at h
  split
  · rename_i hp0; rw [if_pos hp0] at h; exact h
  rename_i hp0
  rw [if_neg hp0] at h
  cases hr : env.ReadVarintCode (pre ++ y) with
  | none => rw [hr] at h; exact absurd h (by simp)
  | some v =>
    obtain ⟨c, n⟩ := v
    rw [hr] at h
    simp only [Option.some.injEq, Prod.mk.injEq] at h
    obtain ⟨hn, hc⟩ := h
    subst hn hc
    rw [hl pre y z c hr]

/-- The first `k` ranges of a valid address are the ranges of a valid
address. -/
theorem validRanges_take (env : Env) (hl : VarintLocal env) (b : List Byte)
    (rs : List (List Byte)) (h : ValidRanges env b rs) :
    ∀ k, ValidRanges env (rs.take k).flatten (rs.take k) := by
  induction h with
  | done => intro k; simp only [List.take_nil, List.flatten_nil]; exact ValidRanges.done
  | unknownTail hdr more code hne hread hcode =>
    intro k
    cases k with
    | zero => exact ValidRanges.done
    | succ k =>
      simp only [List.take_succ_cons, List.take_nil, List.flatten_cons, List.flatten_nil,
        List.append_nil]
      exact ValidRanges.unknownTail hdr more code hne hread hcode
  | noValue hdr rest code rs hne hread hcode hsize _ ih =>
    intro k
    cases k with
    | zero => exact ValidRanges.done
    | succ k =>
      simp only [List.take_succ_cons, List.flatten_cons]
      exact ValidRanges.noValue hdr _ code _ hne (hl hdr rest _ code hread) hcode hsize (ih k)
  | valued hdr pre value rest code tr rs hne hread hcode hsize hres htr hval _ ih =>
    intro k
    cases k with
    | zero => exact ValidRanges.done
    | succ k =>
      simp only [List.take_succ_cons, List.flatten_cons, List.append_assoc]
      refine ValidRanges.valued hdr pre value _ code tr _ hne (hl hdr _ _ code hread) hcode hsize
        ?_ htr hval (ih k)
      exact sizeForAddr_local env hl _ pre (value ++ rest) _ _ hres

/-- In the concrete environment a varint read depends only on the bytes that
it consumes. -/
theorem readUvarint_local (x y z : List Byte) (v : Nat)
    (h : readUvarint (x ++ y) = some (v, x.length)) :
    readUvarint (x ++ z) = some (v, x.length) := by
  induction x generalizing v with
  | nil =>
    exfalso
    simp only [List.nil_append, List.length_nil] at h
    cases y with
    | nil => simp [readUvarint] at h
    | cons c cs =>
      simp only [readUvarint] at h
      split at h
      · simp at h
      · cases hr : readUvarint cs with
        | none => rw [hr] at h; simp at h
        | some w => rw [hr] at h; simp at h
  | cons c cs ih =>
    simp only [List.cons_append, readUvarint, List.length_cons] at h ⊢
    split
    · rename_i hc
      rw [if_pos hc] at h
      exact h
    · rename_i hc
      rw [if_neg hc] at h
      rw [show cs.append y = cs ++ y from rfl] at h
      rw [show cs.append z = cs ++ z from rfl]
      cases hr : readUvarint (cs ++ y) with
      | none => rw [hr] at h; exact absurd h (by simp)
      | some w =>
        obtain ⟨v1, n1⟩ := w
        rw [hr] at h
        simp only [Option.some.injEq, Prod.mk.injEq, add_left_inj] at h
        obtain ⟨hv, hn⟩ := h
        subst hn
        rw [ih v1 hr]
        simp only [hv]

theorem varintLocal_tableEnv (table : List Protocol) : VarintLocal (tableEnv table) := by
  intro x y z c h
  show leb128Read (x ++ z) = some (c, x.length)
  have h' : leb128Read (x ++ y) = some (c, x.length) := h
  unfold leb128Read at h' ⊢
  cases hr : readUvarint (x ++ y) with
  | none => rw [hr] at h'; exact absurd h' (by simp)
  | some w =>
    obtain ⟨v, n⟩ := w
    rw [hr] at h'
    simp only at h'
    split at h'
    · exact absurd h' (by simp)
    · rename_i hc
      simp only [Option.some.injEq, Prod.mk.injEq] at h'
      obtain ⟨hv, hn⟩ := h'
      subst hn
      rw [readUvarint_local x y z v hr]
      simp only [hc, if_false, hv]

/-! ## Claim on truncation -/

/-- C11. Truncation at a component boundary preserves validity: when a varint
read depends only on the bytes that it consumes, for every buffer `b` that
`validateBytes` accepts, with `bytesSplit b = [r1, .., rn]`, and for every
`k`, `validateBytes (r1 ++ .. ++ rk)` succeeds and
`bytesSplit (r1 ++ .. ++ rk)` is `[r1, .., rk]`. -/
theorem truncation_valid (env : Env) (hl : VarintLocal env) (b : List Byte)
    (rs : List (List Byte)) (hv : validateBytes env b = .ok ())
    (hs : bytesSplit env b = .ok rs) (k : Nat) :
    validateBytes env (rs.take k).flatten = .ok () ∧
      bytesSplit env (rs.take k).flatten = .ok (rs.take k) := by
  obtain ⟨rs1, h1⟩ := validRanges_of_validAddr env b (validAddr_of_validateBytes env b hv)
  have h2 := bytesSplit_of_validRanges env b rs1 h1
  rw [hs] at h2
  injection h2 with h2
  subst h2
  have ht := validRanges_take env hl b rs h1 k
  exact ⟨validateBytes_of_validAddr env _ (validAddr_of_validRanges env _ _ ht),
    bytesSplit_of_validRanges env _ _ ht⟩

/-- C11, at `/tcp/80/quic/ip6zone/x` cut after two components. -/
theorem truncation_valid_witness :
    validateBytes refEnv [6, 0, 80, 204, 3, 42, 1, 120] = .ok () ∧
      bytesSplit refEnv [6, 0, 80, 204, 3, 42, 1, 120] =
        .ok [[6, 0, 80], [204, 3], [42, 1, 120]] ∧
      validateBytes refEnv ([[6, 0, 80], [204, 3], [42, 1, 120]].take 2).flatten = .ok () ∧
      bytesSplit refEnv ([[6, 0, 80], [204, 3], [42, 1, 120]].take 2).flatten =
        .ok ([[6, 0, 80], [204, 3], [42, 1, 120]].take 2) :=
  ⟨by decide, by decide,
    truncation_valid refEnv (varintLocal_tableEnv _) [6, 0, 80, 204, 3, 42, 1, 120]
      [[6, 0, 80], [204, 3], [42, 1, 120]] (by decide) (by decide) 2⟩

/-! ## Names that the registry does not know, and the leading slash -/

theorem stringToBytesLoop_escape (env : Env) (arg : Str) (sp : List Str) (b : List Byte) :
    stringToBytesLoop env (unknownLit :: arg :: sp) b =
      match env.multibaseDecode arg with
      | none => .error .multibase
      | some bts => stringToBytesLoop env sp (b ++ bts) := by
  rw [stringToBytesLoop.eq_def]
  simp only [if_true]

theorem stringToBytesLoop_escape_alone (env : Env) (b : List Byte) :
    stringToBytesLoop env [unknownLit] b = .error .unknownRequiresArgument := by
  rw [stringToBytesLoop.eq_def]
  simp only [if_true]

theorem stringToBytesLoop_unknown_name (env : Env) (tok : Str) (sp : List Str) (b : List Byte)
    (hu : tok ≠ unknownLit) (hcode : (env.ProtocolWithName tok).Code = 0) :
    stringToBytesLoop env (tok :: sp) b = .error (.noProtocolWithName tok) := by
  rw [stringToBytesLoop.eq_def]
  simp only [hu, hcode, if_true, if_false]

theorem stringToBytesLoop_no_argument (env : Env) (tok : Str) (b : List Byte)
    (hu : tok ≠ unknownLit) (hcode : (env.ProtocolWithName tok).Code ≠ 0)
    (hsize : (env.ProtocolWithName tok).Size ≠ 0) :
    stringToBytesLoop env [tok] b = .error (.requiresAddress (env.ProtocolWithName tok).Name) := by
  rw [stringToBytesLoop.eq_def]
  simp only [hu, hcode, hsize, if_false]

/-- The loop of `stringToBytes` fails on tokens with a name that the registry
does not know. -/
theorem stringToBytesLoop_fails_of_unknown_name (env : Env) :
    ∀ (n : Nat) (sp : List Str), sp.length ≤ n → meetsUnknownName env sp = true →
      ∀ b, ∃ e, stringToBytesLoop env sp b = .error e := by
  intro n
  induction n with
  | zero =>
    intro sp hn hm b
    have : sp = [] := List.length_eq_zero.mp (Nat.le_zero.mp hn)
    subst this
    rw [meetsUnknownName.eq_def] at hm
    exact absurd hm (by simp)
  | succ n ih =>
    intro sp hn hm b
    cases sp with
    | nil =>
      rw [meetsUnknownName.eq_def] at hm
      exact absurd hm (by simp)
    | cons tok sp =>
      by_cases hu : tok = unknownLit
      · subst hu
        cases sp with
        | nil => exact ⟨_, stringToBytesLoop_escape_alone env b⟩
        | cons arg sp2 =>
          rw [meetsUnknownName.eq_def] at hm
          simp only [if_true] at hm
          rw [stringToBytesLoop_escape]
          cases env.multibaseDecode arg with
          | none => exact ⟨_, rfl⟩
          | some bts => exact ih sp2 (by simp at hn; omega) hm _
      by_cases hcode : (env.ProtocolWithName tok).Code = 0
      · exact ⟨_, stringToBytesLoop_unknown_name env tok sp b hu hcode⟩
      by_cases hsize : (env.ProtocolWithName tok).Size = 0
      · rw [meetsUnknownName.eq_def] at hm
        simp only [hu, hcode, hsize, if_true, if_false] at hm
        rw [stringToBytesLoop_noValue env tok sp b hu hcode hsize]
        exact ih sp (by simpa using hn) hm _
      cases sp with
      | nil => exact ⟨_, stringToBytesLoop_no_argument env tok b hu hcode hsize⟩
      | cons arg sp1 =>
        rw [meetsUnknownName.eq_def] at hm
        simp only [hu, hcode, hsize, if_false] at hm
        rw [stringToBytesLoop_valued env tok arg sp1 b hu hcode hsize]
        cases (env.ProtocolWithName tok).Transcoder with
        | none => exact ⟨_, rfl⟩
        | some tr =>
          simp only
          cases hpath : (env.ProtocolWithName tok).Path with
          | true =>
            rw [hpath] at hm
            exact absurd hm (by simp)
          | false =>
            rw [hpath] at hm
            simp only [Bool.false_eq_true, if_false] at hm ⊢
            cases tr.StringToBytes arg with
            | none => exact ⟨_, rfl⟩
            | some a => exact ih sp1 (by simp at hn; omega) hm _

/-! ## Claims on the errors of `stringToBytes` -/

/-- C12. Unknown-name strictness: for every string in which the token at the
place of a protocol name (the first token after the leading `/`, or the token
after a completed component) is neither the literal `unknown` nor a name of
the registry, `stringToBytes` fails. -/
theorem stringToBytes_fails_of_unknown_name (env : Env) (s : Str)
    (h : meetsUnknownName env (tokensOf s) = true) :
    ∃ e, stringToBytes env s = .error e := by
  unfold stringToBytes
  unfold tokensOf at h
  cases hsp : splitSlash (trimRight s) with
  | nil => exact absurd hsp (splitSlash_ne_nil _)
  | cons first sp =>
    rw [hsp, List.tail_cons] at h
    simp only
    by_cases hf : first = []
    · simp only [hf, ne_eq, not_true_eq_false, if_false]
      exact stringToBytesLoop_fails_of_unknown_name env _ sp (Nat.le_refl _) h []
    · simp only [ne_eq, hf, not_false_eq_true, if_true]
      exact ⟨_, rfl⟩

/-- C12, at `/nonexistentproto/1`: the error is "no protocol with name
nonexistentproto". -/
theorem stringToBytes_fails_of_unknown_name_witness :
    meetsUnknownName refEnv (tokensOf "/nonexistentproto/1".toList) = true ∧
      stringToBytes refEnv "/nonexistentproto/1".toList =
        .error (.noProtocolWithName "nonexistentproto".toList) ∧
      ∃ e, stringToBytes refEnv "/nonexistentproto/1".toList = .error e :=
  ⟨by decide, by decide,
    stringToBytes_fails_of_unknown_name refEnv "/nonexistentproto/1".toList (by decide)⟩

theorem dropSlashes_suffix (r : Str) : ∃ k, r = List.replicate k '/' ++ dropSlashes r := by
  induction r with
  | nil => exact ⟨0, rfl⟩
  | cons c cs ih =>
    unfold dropSlashes
    split
    · rename_i hc
      obtain ⟨k, hk⟩ := ih
      refine ⟨k + 1, ?_⟩
      rw [List.replicate_succ, List.cons_append, ← hk, hc]
    · exact ⟨0, rfl⟩

/-- A string is its `strings.TrimRight` followed by slashes. -/
theorem trimRight_prefix (s : Str) : ∃ k, s = trimRight s ++ List.replicate k '/' := by
  obtain ⟨k, hk⟩ := dropSlashes_suffix s.reverse
  refine ⟨k, ?_⟩
  have := congrArg List.reverse hk
  rw [List.reverse_reverse, List.reverse_append, List.reverse_replicate] at this
  exact this

theorem splitSlash_head_ne_nil (c : Char) (cs : Str) (hc : c ≠ '/') :
    ∃ t ts, splitSlash (c :: cs) = (c :: t) :: ts := by
  unfold splitSlash
  rw [if_neg hc]
  cases hsp : splitSlash cs with
  | nil => exact ⟨[], [], rfl⟩
  | cons t ts => exact ⟨t, ts, rfl⟩

/-- C13. The leading slash is required: for every string that is not empty
once its trailing slashes are stripped and whose first character is not `/`,
`stringToBytes` fails, whatever the registry holds. -/
theorem stringToBytes_fails_without_slash (env : Env) (s : Str) (c : Char) (cs : Str)
    (hs : s = c :: cs) (hc : c ≠ '/') :
    stringToBytes env s = .error .mustBeginWithSlash := by
  obtain ⟨k, hk⟩ := trimRight_prefix s
  have ht : ∃ ts, trimRight s = c :: ts := by
    cases htr : trimRight s with
    | nil =>
      rw [htr, List.nil_append, hs] at hk
      cases k with
      | zero => exact absurd hk (by simp)
      | succ k =>
        rw [List.replicate_succ] at hk
        injection hk with h1 _
        exact absurd h1 hc
    | cons d ds =>
      rw [htr, hs, List.cons_append] at hk
      injection hk with h1 _
      exact ⟨ds, by rw [h1]⟩
  obtain ⟨ts, hts⟩ := ht
  obtain ⟨t, tl, hsp⟩ := splitSlash_head_ne_nil c ts hc
  unfold stringToBytes
  rw [hts, hsp]
  simp

/-- C13, at the string `tcp/80/`. -/
theorem stringToBytes_fails_without_slash_witness :
    stringToBytes refEnv "tcp/80/".toList = .error .mustBeginWithSlash :=
  stringToBytes_fails_without_slash refEnv "tcp/80/".toList 't' "cp/80/".toList (by decide)
    (by decide)

/-! ## The encoder on a concatenation -/

/-- The loop of `stringToBytes` only appends to what is written. -/
theorem stringToBytesLoop_acc (env : Env) :
    ∀ (n : Nat) (sp : List Str), sp.length ≤ n → ∀ (acc b out : List Byte),
      stringToBytesLoop env sp b = .ok out →
      stringToBytesLoop env sp (acc ++ b) = .ok (acc ++ out) := by
  intro n
  induction n with
  | zero =>
    intro sp hn acc b out h
    have : sp = [] := List.length_eq_zero.mp (Nat.le_zero.mp hn)
    subst this
    rw [stringToBytesLoop_nil] at h ⊢
    injection h with h
    rw [h]
  | succ n ih =>
    intro sp hn acc b out h
    cases sp with
    | nil =>
      rw [stringToBytesLoop_nil] at h ⊢
      injection h with h
      rw [h]
    | cons tok sp =>
      by_cases hu : tok = unknownLit
      · subst hu
        cases sp with
        | nil =>
          rw [stringToBytesLoop_escape_alone] at h
          exact absurd h (by simp)
        | cons arg sp2 =>
          rw [stringToBytesLoop_escape] at h ⊢
          cases hd : env.multibaseDecode arg with
          | none => rw [hd] at h; exact absurd h (by simp)
          | some bts =>
            rw [hd] at h
            simp only at h ⊢
            rw [List.append_assoc]
            exact ih sp2 (by simp at hn; omega) acc _ out h
      by_cases hcode : (env.ProtocolWithName tok).Code = 0
      · rw [stringToBytesLoop_unknown_name env tok sp b hu hcode] at h
        exact absurd h (by simp)
      by_cases hsize : (env.ProtocolWithName tok).Size = 0
      · rw [stringToBytesLoop_noValue env tok sp _ hu hcode hsize] at h ⊢
        rw [List.append_assoc]
        exact ih sp (by simpa using hn) acc _ out h
      cases sp with
      | nil =>
        rw [stringToBytesLoop_no_argument env tok b hu hcode hsize] at h
        exact absurd h (by simp)
      | cons arg sp1 =>
        rw [stringToBytesLoop_valued env tok arg sp1 _ hu hcode hsize] at h ⊢
        cases htr : (env.ProtocolWithName tok).Transcoder with
        | none => rw [htr] at h; exact absurd h (by simp)
        | some tr =>
          rw [htr] at h
          simp only at h ⊢
          cases ha : tr.StringToBytes
            (if (env.ProtocolWithName tok).Path then '/' :: joinSlash (arg :: sp1) else arg) with
          | none => rw [ha] at h; exact absurd h (by simp)
          | some a =>
            rw [ha] at h
            simp only at h ⊢
            cases hpath : (env.ProtocolWithName tok).Path with
            | true =>
              rw [hpath] at h
              simp only [if_true] at h ⊢
              injection h with h
              rw [← h, List.append_assoc]
            | false =>
              rw [hpath] at h
              simp only [Bool.false_eq_true, if_false] at h ⊢
              rw [List.append_assoc]
              exact ih sp1 (by simp at hn; omega) acc _ out h

/-- Tokens that are accepted without a path protocol leave the loop of
`stringToBytes` at the place of a name: the tokens after them are walked as
if they came first. -/
theorem stringToBytesLoop_append (env : Env) :
    ∀ (n : Nat) (sp1 : List Str), sp1.length ≤ n → ∀ (b out1 : List Byte),
      stringToBytesLoop env sp1 b = .ok out1 → usesPath env sp1 = false →
      ∀ sp2, stringToBytesLoop env (sp1 ++ sp2) b = stringToBytesLoop env sp2 out1 := by
  intro n
  induction n with
  | zero =>
    intro sp1 hn b out1 h _ sp2
    have : sp1 = [] := List.length_eq_zero.mp (Nat.le_zero.mp hn)
    subst this
    rw [stringToBytesLoop_nil] at h
    injection h with h
    rw [List.nil_append, h]
  | succ n ih =>
    intro sp1 hn b out1 h hp sp2
    cases sp1 with
    | nil =>
      rw [stringToBytesLoop_nil] at h
      injection h with h
      rw [List.nil_append, h]
    | cons tok sp =>
      by_cases hu : tok = unknownLit
      · subst hu
        cases sp with
        | nil =>
          rw [stringToBytesLoop_escape_alone] at h
          exact absurd h (by simp)
        | cons arg sp' =>
          rw [usesPath.eq_def] at hp
          simp only [if_true] at hp
          rw [stringToBytesLoop_escape] at h
          rw [List.cons_append, List.cons_append, stringToBytesLoop_escape]
          cases hd : env.multibaseDecode arg with
          | none => rw [hd] at h; exact absurd h (by simp)
          | some bts =>
            rw [hd] at h
            simp only at h ⊢
            exact ih sp' (by simp at hn; omega) _ out1 h hp sp2
      by_cases hcode : (env.ProtocolWithName tok).Code = 0
      · rw [stringToBytesLoop_unknown_name env tok sp b hu hcode] at h
        exact absurd h (by simp)
      by_cases hsize : (env.ProtocolWithName tok).Size = 0
      · rw [usesPath.eq_def] at hp
        simp only [hu, hcode, hsize, if_true, if_false] at hp
        rw [stringToBytesLoop_noValue env tok sp _ hu hcode hsize] at h
        rw [List.cons_append, stringToBytesLoop_noValue env tok _ _ hu hcode hsize]
        exact ih sp (by simpa using hn) _ out1 h hp sp2
      cases sp with
      | nil =>
        rw [stringToBytesLoop_no_argument env tok b hu hcode hsize] at h
        exact absurd h (by simp)
      | cons arg sp' =>
        rw [usesPath.eq_def] at hp
        simp only [hu, hcode, hsize, if_false] at hp
        cases hpath : (env.ProtocolWithName tok).Path with
        | true =>
          rw [hpath] at hp
          exact absurd hp (by simp)
        | false =>
          rw [hpath] at hp
          simp only [Bool.false_eq_true, if_false] at hp
          rw [stringToBytesLoop_valued env tok arg sp' _ hu hcode hsize] at h
          rw [List.cons_append, List.cons_append,
            stringToBytesLoop_valued env tok arg _ _ hu hcode hsize]
          cases htr : (env.ProtocolWithName tok).Transcoder with
          | none => rw [htr] at h; exact absurd h (by simp)
          | some tr =>
            rw [htr] at h
            simp only [hpath, Bool.false_eq_true, if_false] at h ⊢
            cases ha : tr.StringToBytes arg with
            | none => rw [ha] at h; exact absurd h (by simp)
            | some a =>
              rw [ha] at h
              simp only at h ⊢
              exact ih sp' (by simp at hn; omega) _ out1 h hp sp2

theorem splitSlash_no_slash (s : Str) : ∀ t ∈ splitSlash s, '/' ∉ t := by
  induction s with
  | nil =>
    intro t ht
    simp only [splitSlash, List.mem_singleton] at ht
    rw [ht]
    exact List.not_mem_nil _
  | cons c cs ih =>
    intro t ht
    unfold splitSlash at ht
    cases hsp : splitSlash cs with
    | nil => exact absurd hsp (splitSlash_ne_nil cs)
    | cons u us =>
      rw [hsp] at ih ht
      split at ht
      · rcases List.mem_cons.mp ht with rfl | hm
        · exact List.not_mem_nil _
        · exact ih t hm
      · rename_i hc
        simp only at ht
        rcases List.mem_cons.mp ht with rfl | hm
        · intro hmem
          rcases List.mem_cons.mp hmem with e | hmem
          · exact hc e.symm
          · exact ih u (List.mem_cons_self _ _) hmem
        · exact ih t (List.mem_cons_of_mem _ hm)

theorem tokensOf_no_slash (s : Str) : ∀ t ∈ tokensOf s, '/' ∉ t := by
  intro t ht
  exact splitSlash_no_slash (trimRight s) t (List.mem_of_mem_tail ht)

theorem dropSlashes_replicate (k : Nat) (r : Str) :
    dropSlashes (List.replicate k '/' ++ r) = dropSlashes r := by
  induction k with
  | zero => rfl
  | succ k ih =>
    rw [List.replicate_succ, List.cons_append, dropSlashes, if_pos rfl, ih]

theorem trimRight_append_slashes (x : Str) (k : Nat) :
    trimRight (x ++ List.replicate k '/') = trimRight x := by
  unfold trimRight
  rw [List.reverse_append, List.reverse_replicate, dropSlashes_replicate]

/-- The string `strings.TrimRight` leaves of a concatenation whose first part
has no trailing slash. -/
theorem trimRight_append (s1 s2 : Str) (h1 : trimRight s1 = s1) :
    trimRight (s1 ++ s2) = s1 ++ trimRight s2 := by
  obtain ⟨k, hk⟩ := trimRight_prefix s2
  rcases trimRight_shape s2 with h0 | ⟨y, c, hy, hc⟩
  · rw [h0] at hk ⊢
    rw [hk, List.nil_append, trimRight_append_slashes, h1, List.append_nil]
  · have e : s1 ++ s2 = (s1 ++ y ++ [c]) ++ List.replicate k '/' := by
      conv_lhs => rw [hk, hy]
      simp
    rw [e, trimRight_append_slashes, trimRight_of_last _ c hc, hy]
    simp

theorem textOf_shape_last (sp : List Str) (hne : sp ≠ []) (hl : LastNonempty sp)
    (hs : ∀ t ∈ sp, '/' ∉ t) : ∃ y c, textOf sp = y ++ [c] ∧ c ≠ '/' := by
  induction sp with
  | nil => exact absurd rfl hne
  | cons t ts ih =>
    cases ts with
    | nil =>
      have htne : t ≠ [] := hl
      refine ⟨'/' :: t.dropLast, t.getLast htne, ?_, ?_⟩
      · rw [textOf, textOf, List.append_nil, List.cons_append, List.dropLast_append_getLast]
      · intro e
        exact hs t (List.mem_cons_self _ _) (e ▸ List.getLast_mem htne)
    | cons u us =>
      obtain ⟨y, c, hy, hc⟩ := ih (List.cons_ne_nil _ _) hl
        (fun v hv => hs v (List.mem_cons_of_mem _ hv))
      exact ⟨'/' :: t ++ y, c, by rw [textOf, hy, List.append_assoc], hc⟩

/-- On the text of tokens without a slash, the last of them not empty,
`stringToBytes` is its loop over the tokens. -/
theorem stringToBytes_textOf_last (env : Env) (sp : List Str) (hl : LastNonempty sp)
    (hs : ∀ t ∈ sp, '/' ∉ t) :
    stringToBytes env (textOf sp) = stringToBytesLoop env sp [] := by
  apply stringToBytes_of_tokens
  have ht : trimRight (textOf sp) = textOf sp := by
    by_cases hne : sp = []
    · rw [hne]; rfl
    · obtain ⟨y, c, hy, hc⟩ := textOf_shape_last sp hne hl hs
      rw [hy, trimRight_of_last y c hc]
  rw [ht, splitSlash_textOf sp hs]

/-- The encoder on the concatenation of two accepted strings, the first
without a trailing slash and without a path protocol. -/
theorem stringToBytes_append (env : Env) (s1 s2 : Str) (b1 b2 : List Byte)
    (h1 : stringToBytes env s1 = .ok b1) (h2 : stringToBytes env s2 = .ok b2)
    (hts : trimRight s1 = s1) (hp : usesPath env (tokensOf s1) = false) :
    stringToBytes env (s1 ++ s2) = .ok (b1 ++ b2) := by
  obtain ⟨hl1, ht1, _⟩ := stringToBytes_ok_tokens env s1 b1 h1
  obtain ⟨hl2, ht2, _⟩ := stringToBytes_ok_tokens env s2 b2 h2
  have hsplit : splitSlash (trimRight (s1 ++ s2)) = [] :: (tokensOf s1 ++ tokensOf s2) := by
    rw [trimRight_append s1 s2 hts, ← ht2]
    conv_lhs => rw [← hts, ← ht1]
    rw [← textOf_append]
    apply splitSlash_textOf
    intro t ht
    rcases List.mem_append.mp ht with h | h
    · exact tokensOf_no_slash s1 t h
    · exact tokensOf_no_slash s2 t h
  rw [stringToBytes_of_tokens env _ _ hsplit,
    stringToBytesLoop_append env _ (tokensOf s1) (Nat.le_refl _) [] b1 hl1 hp (tokensOf s2)]
  have := stringToBytesLoop_acc env _ (tokensOf s2) (Nat.le_refl _) b1 [] b2 hl2
  rwa [List.append_nil] at this

/-! ## Claims on the encoder: concatenation and path protocols -/

/-- C18. The encoder is a homomorphism on string concatenation: for all
strings `s1` and `s2` that `stringToBytes` accepts, where `s1` has no trailing
slash and uses no path protocol, `stringToBytes (s1 ++ s2)` succeeds and is
`stringToBytes s1 ++ stringToBytes s2`. -/
theorem stringToBytes_homomorphism (env : Env) (s1 s2 : Str) (b1 b2 : List Byte)
    (h1 : stringToBytes env s1 = .ok b1) (h2 : stringToBytes env s2 = .ok b2)
    (hts : trimRight s1 = s1) (hp : usesPath env (tokensOf s1) = false) :
    stringToBytes env (s1 ++ s2) = .ok (b1 ++ b2) :=
  stringToBytes_append env s1 s2 b1 b2 h1 h2 hts hp

/-- C18, at `/tcp/80/unknown/bzqbq` and `/quic/unix/a//`. -/
theorem stringToBytes_homomorphism_witness :
    stringToBytes refEnv "/tcp/80/unknown/bzqbq".toList = .ok [6, 0, 80, 204, 3] ∧
      stringToBytes refEnv "/quic/unix/a//".toList = .ok [204, 3, 144, 3, 2, 47, 97] ∧
      stringToBytes refEnv ("/tcp/80/unknown/bzqbq".toList ++ "/quic/unix/a//".toList) =
        .ok ([6, 0, 80, 204, 3] ++ [204, 3, 144, 3, 2, 47, 97]) :=
  ⟨by decide, by decide,
    stringToBytes_homomorphism refEnv "/tcp/80/unknown/bzqbq".toList "/quic/unix/a//".toList
      _ _ (by decide) (by decide) (by decide) (by decide)⟩

/-- C14. Path-protocol terminality: for every registered path protocol `p`
with a value and a transcoder, every string `pre` that `stringToBytes`
accepts, that uses no path protocol and has no trailing slash, and every list
of tokens `t1 .. tk`, not empty and the last not empty,
`stringToBytes (pre ++ "/" ++ name ++ "/" ++ t1 ++ "/" ++ .. ++ tk)` is
`stringToBytes pre`, the varint of the code of `p`, the varint of the length
of `v` when `p` has a variable size, and `v`, where `v` is what the
transcoder of `p` makes of `"/" ++ t1 ++ "/" ++ .. ++ tk`: no token after the
name is looked up. -/
theorem path_protocol_terminal (env : Env) (pre name : Str) (ts : List Str)
    (bpre v : List Byte) (tr : Transcoder)
    (hpre : stringToBytes env pre = .ok bpre) (hts : trimRight pre = pre)
    (hnp : usesPath env (tokensOf pre) = false)
    (hname : '/' ∉ name) (hu : name ≠ unknownLit)
    (hcode : (env.ProtocolWithName name).Code ≠ 0)
    (hsize : (env.ProtocolWithName name).Size ≠ 0)
    (hpath : (env.ProtocolWithName name).Path = true)
    (htr : (env.ProtocolWithName name).Transcoder = some tr)
    (hne : ts ≠ []) (hlast : LastNonempty ts) (htok : ∀ t ∈ ts, '/' ∉ t)
    (hv : tr.StringToBytes (textOf ts) = some v) :
    stringToBytes env (pre ++ ('/' :: name ++ textOf ts)) =
      .ok (bpre ++ (env.CodeToVarint (env.ProtocolWithName name).Code ++
        ((if (env.ProtocolWithName name).Size < 0 then env.CodeToVarint v.length else []) ++
          v))) := by
  obtain ⟨t, ts1, rfl⟩ := List.exists_cons_of_ne_nil hne
  have hl : LastNonempty (name :: t :: ts1) := hlast
  have hs : ∀ u ∈ name :: t :: ts1, '/' ∉ u := by
    intro u hu'
    rcases List.mem_cons.mp hu' with rfl | hm
    · exact hname
    · exact htok u hm
  have h2 : stringToBytes env (textOf (name :: t :: ts1)) =
      .ok (Comp.bytes env ⟨env.ProtocolWithName name, v⟩) := by
    rw [stringToBytes_textOf_last env _ hl hs,
      stringToBytesLoop_valued env name t ts1 [] hu hcode hsize, htr]
    rw [textOf_eq_joinSlash] at hv
    simp only [hpath, if_true, hv, List.nil_append]
  have := stringToBytes_append env pre (textOf (name :: t :: ts1)) bpre _ hpre h2 hts hnp
  rw [textOf] at this
  exact this

/-- C14, at `/tcp/80` followed by `/unix/tmp/tcp/80`: the tokens `tcp` and
`80` after `unix` are part of the path, eleven bytes after the code `90 03`
and the length `0b`. -/
theorem path_protocol_terminal_witness :
    stringToBytes refEnv "/tcp/80".toList = .ok [6, 0, 80] ∧
      stringToBytes refEnv "/tcp/80/unix/tmp/tcp/80".toList =
        .ok [6, 0, 80, 144, 3, 11, 47, 116, 109, 112, 47, 116, 99, 112, 47, 56, 48] :=
  ⟨by decide,
    path_protocol_terminal refEnv "/tcp/80".toList "unix".toList
      ["tmp".toList, "tcp".toList, "80".toList] [6, 0, 80]
      [47, 116, 109, 112, 47, 116, 99, 112, 47, 56, 48] TranscoderUnix
      (by decide) (by decide) (by decide) (by decide) (by decide) (by decide) (by decide)
      (by decide) rfl (by decide) (show "80".toList ≠ [] by decide) (by decide) (by decide)⟩

/-! ## Claims on the rendering of a value and on the escape -/

/-- C15, as stated, fails: the buffer `90 03 00` is the one component `unix`
with an empty value, which the transcoder renders as the empty text; the
claim gives `/unix/`, and `bytesToString` returns `/unix`.  The buffer
`90 03 01 2f` is `unix` with the value `/`; the claim gives `/unix/`, and
`bytesToString` returns `/unix`. -/
theorem rendering_drops_empty_value :
    refEnv.ReadVarintCode [144, 3, 0] = some (400, 2) ∧
    sizeForAddr refEnv (refEnv.ProtocolWithCode 400) [0] = some (1, 0) ∧
    TranscoderUnix.BytesToString [] = some [] ∧
    bytesToString refEnv [144, 3, 0] = .ok "/unix".toList ∧
    "/unix".toList ≠ '/' :: (refEnv.ProtocolWithCode 400).Name ++ '/' :: [] ∧
    TranscoderUnix.BytesToString [47] = some ['/'] ∧
    bytesToString refEnv [144, 3, 1, 47] = .ok "/unix".toList ∧
    "/unix".toList ≠ '/' :: (refEnv.ProtocolWithCode 400).Name ++ ['/'] :=
  ⟨by decide, by decide, by decide, by decide, by decide, by decide, by decide, by decide⟩

/-- C15, amended. Decoder rendering of a valued component: for every buffer
that is exactly one well-framed component of a known protocol `p` with a
value and a transcoder whose `BytesToString` renders the value as `r`,
`bytesToString` returns `"/" ++ p.Name` followed, unless `t` is empty, by
`"/" ++ t`, where `t` is `r` without its first character when `p` is a path
and that character is `/`, and `r` otherwise. -/
theorem rendering_of_valued_component (env : Env) (hdr pre value : List Byte) (code : Int)
    (tr : Transcoder) (r : Str) (hne : hdr ≠ [])
    (hread : env.ReadVarintCode (hdr ++ (pre ++ value)) = some (code, hdr.length))
    (hcode : (env.ProtocolWithCode code).Code ≠ 0)
    (hsize : (env.ProtocolWithCode code).Size ≠ 0)
    (hres : sizeForAddr env (env.ProtocolWithCode code) (pre ++ value) =
      some (pre.length, (value.length : Int)))
    (htr : (env.ProtocolWithCode code).Transcoder = some tr)
    (hr : tr.BytesToString value = some r) :
    bytesToString env (hdr ++ (pre ++ value)) =
      .ok ('/' :: (env.ProtocolWithCode code).Name ++
        (if (valueText (env.ProtocolWithCode code) r).length > 0 then
          '/' :: valueText (env.ProtocolWithCode code) r
        else [])) := by
  have hne2 : hdr ++ (pre ++ (value ++ [])) ≠ [] := by simp [hne]
  have hstep := bytesToStringBody_valued env hdr pre value [] [] code hne2
    (by rw [List.append_nil]; exact hread) hcode hsize (by rw [List.append_nil]; exact hres)
  rw [htr] at hstep
  simp only [hr, List.nil_append, List.append_nil] at hstep
  refine bytesToString_of_fuel env (1 + 1) _ _ ?_ (by simp)
  rw [iterate_next _ _ _ _ hstep, iterate_done _ 0 _ _ (bytesToStringBody_nil env _)]
  rfl

/-- C15, amended, at `/tcp/80` and at `/unix/a`. -/
theorem rendering_of_valued_component_witness :
    bytesToString refEnv ([6] ++ ([] ++ [0, 80])) = .ok "/tcp/80".toList ∧
      bytesToString refEnv [144, 3, 2, 47, 97] = .ok "/unix/a".toList :=
  ⟨rendering_of_valued_component refEnv [6] [] [0, 80] 6 TranscoderPort "80".toList
      (by decide) (by decide) (by decide) (by decide) (by decide) rfl (by decide),
    rendering_of_valued_component refEnv [144, 3] [2] [47, 97] 400 TranscoderUnix "/a".toList
      (by decide) (by decide) (by decide) (by decide) (by decide) rfl (by decide)⟩

theorem stringToBytes_append_slashes (env : Env) (s : Str) (k : Nat) :
    stringToBytes env (s ++ List.replicate k '/') = stringToBytes env s := by
  unfold stringToBytes
  rw [trimRight_append_slashes]

/-- C16. The `unknown` escape of the encoder: when the multibase decoder
refuses the empty text, for every token `t` without a `/`,
`stringToBytes ("/unknown/" ++ t)` succeeds exactly when the multibase
decoding of `t` succeeds, and then returns the decoded bytes and nothing
else; `/unknown` alone fails. -/
theorem unknown_escape (env : Env) (hempty : env.multibaseDecode [] = none) (t : Str)
    (ht : '/' ∉ t) :
    (∀ bts, env.multibaseDecode t = some bts →
        stringToBytes env ('/' :: unknownLit ++ '/' :: t) = .ok bts) ∧
      (env.multibaseDecode t = none →
        ∃ e, stringToBytes env ('/' :: unknownLit ++ '/' :: t) = .error e) ∧
      stringToBytes env ('/' :: unknownLit) = .error .unknownRequiresArgument := by
  have hun : '/' ∉ unknownLit := by decide
  have halone : stringToBytes env ('/' :: unknownLit) = .error .unknownRequiresArgument := by
    have e : '/' :: unknownLit = textOf [unknownLit] := by simp [textOf]
    rw [e, stringToBytes_textOf_last env [unknownLit] (show unknownLit ≠ [] by decide)
      (by intro u hu; rw [List.mem_singleton.mp hu]; exact hun),
      stringToBytesLoop_escape_alone]
  by_cases h0 : t = []
  · subst h0
    refine ⟨fun bts hb => ?_, fun _ => ⟨.unknownRequiresArgument, ?_⟩, halone⟩
    · rw [hempty] at hb
      exact absurd hb (by simp)
    · have e : '/' :: unknownLit ++ '/' :: [] = '/' :: unknownLit ++ List.replicate 1 '/' := rfl
      rw [e, stringToBytes_append_slashes]
      exact halone
  · have e : '/' :: unknownLit ++ '/' :: t = textOf [unknownLit, t] := by simp [textOf]
    have hl : LastNonempty [unknownLit, t] := h0
    have hs : ∀ u ∈ [unknownLit, t], '/' ∉ u := by
      intro u hu
      simp only [List.mem_cons, List.mem_singleton, List.not_mem_nil, or_false] at hu
      rcases hu with rfl | rfl
      · exact hun
      · exact ht
    rw [e, stringToBytes_textOf_last env _ hl hs, stringToBytesLoop_escape]
    refine ⟨fun bts hb => ?_, fun hn => ⟨.multibase, ?_⟩, halone⟩
    · rw [hb]
      simp only [stringToBytesLoop_nil, List.nil_append]
    · rw [hn]

/-- C16, at `/unknown/bzqbq`, whose token spells the bytes `cc 03`. -/
theorem unknown_escape_witness :
    refEnv.multibaseDecode "bzqbq".toList = some [204, 3] ∧
      stringToBytes refEnv ('/' :: unknownLit ++ '/' :: "bzqbq".toList) = .ok [204, 3] :=
  ⟨by decide,
    (unknown_escape refEnv (by decide) "bzqbq".toList (by decide)).1 [204, 3] (by decide)⟩

/-! ## The ranges collected by `bytesSplit` -/

theorem bytesSplitBody_done (env : Env) (b : List Byte) (ret : List (List Byte))
    (r : Outcome (List (List Byte))) (h : bytesSplitBody env (b, ret) = .done r) :
    (b = [] ∧ r = .ok ret) ∨ (b ≠ [] ∧ r = .ok (ret ++ [b])) ∨
      (b ≠ [] ∧ (∀ rs, r ≠ .ok rs) ∧ ∀ ret0, bytesSplitBody env (b, ret0) = .done r) := by
  by_cases hb : b = []
  · left
    rw [hb, bytesSplitBody_nil] at h
    injection h with h
    exact ⟨hb, h.symm⟩
  right
  cases hread : env.ReadVarintCode b with
  | none =>
    right
    unfold bytesSplitBody at h ⊢
    simp only [hb, hread, if_false] at h ⊢
    injection h with h
    subst h
    exact ⟨hb, fun rs => by simp, fun _ => rfl⟩
  | some v =>
    obtain ⟨code, n⟩ := v
    by_cases hcode : (env.ProtocolWithCode code).Code = 0
    · left
      rw [bytesSplitBody_unknown env b ret code n hb hread hcode] at h
      injection h with h
      exact ⟨hb, h.symm⟩
    right
    cases hs1 : sliceFrom b n with
    | none =>
      unfold bytesSplitBody at h ⊢
      simp only [hb, hread, hcode, hs1, if_false] at h ⊢
      injection h with h
      subst h
      exact ⟨hb, fun rs => by simp, fun _ => rfl⟩
    | some bn =>
      cases hres : sizeForAddr env (env.ProtocolWithCode code) bn with
      | none =>
        unfold bytesSplitBody at h ⊢
        simp only [hb, hread, hcode, hs1, hres, if_false] at h ⊢
        injection h with h
        subst h
        exact ⟨hb, fun rs => by simp, fun _ => rfl⟩
      | some w =>
        obtain ⟨n2, size⟩ := w
        cases hto : sliceTo b ((n : Int) + (n2 : Int) + size) with
        | none =>
          unfold bytesSplitBody at h ⊢
          simp only [hb, hread, hcode, hs1, hres, hto, if_false] at h ⊢
          injection h with h
          subst h
          exact ⟨hb, fun rs => by simp, fun _ => rfl⟩
        | some r1 =>
          cases hfrom : sliceFrom b ((n : Int) + (n2 : Int) + size) with
          | none =>
            unfold bytesSplitBody at h ⊢
            simp only [hb, hread, hcode, hs1, hres, hto, hfrom, if_false] at h ⊢
            injection h with h
            subst h
            exact ⟨hb, fun rs => by simp, fun _ => rfl⟩
          | some b1 =>
            unfold bytesSplitBody at h
            simp only [hb, hread, hcode, hs1, hres, hto, hfrom, if_false] at h
            exact absurd h (by simp)

/-- The ranges that `bytesSplit` has collected stay at the front of its
result, and do not change what the loop does. -/
theorem bytesSplit_iterate_ret (env : Env) :
    ∀ (f : Nat) (b : List Byte) (ret : List (List Byte)),
      iterate (bytesSplitBody env) f (b, ret) =
        match iterate (bytesSplitBody env) f (b, []) with
        | .ok rs => .ok (ret ++ rs)
        | x => x := by
  intro f
  induction f with
  | zero => intro b ret; rfl
  | succ f ih =>
    intro b ret
    cases hb : bytesSplitBody env (b, []) with
    | done r =>
      rw [iterate_done _ f _ _ hb]
      rcases bytesSplitBody_done env b [] r hb with ⟨h0, hr⟩ | ⟨hne, hr⟩ | ⟨hne, hr, hall⟩
      · subst h0 hr
        rw [iterate_done _ f _ _ (bytesSplitBody_nil env ret)]
        simp
      · subst hr
        cases hread : env.ReadVarintCode b with
        | none =>
          unfold bytesSplitBody at hb
          simp only [hne, hread, if_false] at hb
          exact absurd hb (by simp)
        | some v =>
          obtain ⟨code, n⟩ := v
          by_cases hcode : (env.ProtocolWithCode code).Code = 0
          · rw [iterate_done _ f _ _ (bytesSplitBody_unknown env b ret code n hne hread hcode)]
            simp
          · exfalso
            rcases bytesSplitBody_done env b [] _ hb with ⟨h0, _⟩ | ⟨_, _⟩ | ⟨_, hr, _⟩
            · exact hne h0
            · unfold bytesSplitBody at hb
              simp only [hne, hread, hcode, if_false] at hb
              split at hb
              · exact absurd hb (by simp)
              · split at hb
                · exact absurd hb (by simp)
                · split at hb
                  · exact absurd hb (by simp)
                  · exact absurd hb (by simp)
            · exact hr _ rfl
      · rw [iterate_done _ f _ _ (hall ret)]
        cases r with
        | ok rs => exact absurd rfl (hr rs)
        | error e => rfl
        | crash => rfl
        | diverge => rfl
    | next st =>
      obtain ⟨b1, ret1⟩ := st
      obtain ⟨r, _, hret1, hall⟩ := bytesSplitBody_next_ret env b b1 [] ret1 hb
      rw [iterate_next _ f _ _ hb, iterate_next _ f _ _ (hall ret), hret1, List.nil_append,
        ih b1 (ret ++ [r]), ih b1 [r]]
      cases iterate (bytesSplitBody env) f (b1, []) with
      | ok rs => simp
      | error e => rfl
      | crash => rfl
      | diverge => rfl

/-! ## Claim on the fixed sizes -/

/-- C17, as stated, fails: the buffer `06 00 50 80` starts with the code of
`tcp` (one byte, sixteen bits of value) and has three more bytes, and
`bytesSplit` returns an error and no range: the byte `80` after the first
component is a truncated varint. -/
theorem bytesSplit_no_range_on_bad_rest :
    refEnv.ReadVarintCode [6, 0, 80, 128] = some (6, 1) ∧
    (refEnv.ProtocolWithCode 6).Size = 16 ∧
    sizeForAddr refEnv (refEnv.ProtocolWithCode 6) [0, 80, 128] = some (0, 2) ∧
    bytesSplit refEnv [6, 0, 80, 128] = .error .varint :=
  ⟨by decide, by decide, by decide, by decide⟩

/-- C17, amended. Fixed-size arithmetic: for every protocol `p` with
`Size > 0`, `sizeForAddr p b` is `(0, Size / 8)` for every buffer `b`; so on
every buffer that starts with the code of `p` in the bytes `hdr`, followed by
`Size / 8` bytes `value` and by `rest`, the first pass of `bytesSplit` cuts
off exactly `hdr ++ value`; `bytesSplit` returns that range first whenever it
returns ranges, and it does when it splits `rest`. -/
theorem fixed_size_first_range (env : Env) (p : Protocol) (hpos : 0 < p.Size) :
    (∀ b, sizeForAddr env p b = some (0, Int.tdiv p.Size 8)) ∧
    ∀ (hdr value rest : List Byte) (code : Int), hdr ≠ [] →
      env.ReadVarintCode (hdr ++ (value ++ rest)) = some (code, hdr.length) →
      env.ProtocolWithCode code = p → p.Code ≠ 0 →
      (value.length : Int) = Int.tdiv p.Size 8 →
      (∀ ret, bytesSplitBody env (hdr ++ (value ++ rest), ret) =
        .next (rest, ret ++ [hdr ++ value])) ∧
      (∀ rs, bytesSplit env rest = .ok rs →
        bytesSplit env (hdr ++ (value ++ rest)) = .ok ((hdr ++ value) :: rs)) ∧
      (∀ rs, bytesSplit env (hdr ++ (value ++ rest)) = .ok rs →
        ∃ rs1, rs = (hdr ++ value) :: rs1) := by
  have hsz : ∀ b, sizeForAddr env p b = some (0, Int.tdiv p.Size 8) := by
    intro b
    unfold sizeForAddr
    rw [if_pos hpos]
  refine ⟨hsz, ?_⟩
  intro hdr value rest code hne hread hp hcode hlen
  have hstep : ∀ ret, bytesSplitBody env (hdr ++ (value ++ rest), ret) =
      .next (rest, ret ++ [hdr ++ value]) := by
    intro ret
    have h := bytesSplitBody_component env hdr [] value rest ret code (by simp [hne])
      (by simpa using hread) (by rw [hp]; exact hcode)
      (by rw [hp, hsz, hlen]; rfl)
    simpa using h
  refine ⟨hstep, ?_, ?_⟩
  · intro rs hrs
    refine bytesSplit_of_fuel env (rest.length + 1 + 1) _ _ ?_ (by simp)
    rw [iterate_next _ _ _ _ (hstep []), bytesSplit_iterate_ret]
    have : iterate (bytesSplitBody env) (rest.length + 1) (rest, []) = .ok rs := hrs
    rw [this]
    rfl
  · intro rs hrs
    have h : iterate (bytesSplitBody env) ((hdr ++ (value ++ rest)).length + 1)
        (hdr ++ (value ++ rest), []) = .ok rs := hrs
    rw [iterate_next _ _ _ _ (hstep []), bytesSplit_iterate_ret] at h
    cases hi : iterate (bytesSplitBody env) (hdr ++ (value ++ rest)).length (rest, []) with
    | ok rs1 =>
      rw [hi] at h
      injection h with h
      exact ⟨rs1, by rw [← h]; rfl⟩
    | error e => rw [hi] at h; exact absurd h (by simp)
    | crash => rw [hi] at h; exact absurd h (by simp)
    | diverge => rw [hi] at h; exact absurd h (by simp)

/-- C17, amended, at a protocol of 32 bits, whose value has 4 bytes whatever
the buffer holds, and at `/tcp/80/quic`. -/
theorem fixed_size_first_range_witness :
    sizeForAddr refEnv ⟨"ip4".toList, 4, 32, false, none⟩ [255, 255, 255, 255, 255] =
        some (0, 4) ∧
      bytesSplit refEnv [204, 3] = .ok [[204, 3]] ∧
      bytesSplit refEnv ([6] ++ ([0, 80] ++ [204, 3])) = .ok (([6] ++ [0, 80]) :: [[204, 3]]) :=
  ⟨(fixed_size_first_range refEnv ⟨"ip4".toList, 4, 32, false, none⟩ (by decide)).1 _,
    by decide,
    ((fixed_size_first_range refEnv protoTCP (by decide)).2 [6] [0, 80] [204, 3] 6
      (by decide) (by decide) rfl (by decide) (by decide)).2.1 [[204, 3]] (by decide)⟩

/-! ## Claim on the validator and the decoder -/

theorem bytesToString_iterate_of_validAddr (env : Env)
    (hbts : ∀ (code : Int) (tr : Transcoder) (v : List Byte),
      (env.ProtocolWithCode code).Code ≠ 0 → (env.ProtocolWithCode code).Size ≠ 0 →
      (env.ProtocolWithCode code).Transcoder = some tr → tr.ValidateBytes v = true →
      ∃ r, tr.BytesToString v = some r)
    (b : List Byte) (h : ValidAddr env b) :
    ∀ s0, ∃ f s, iterate (bytesToStringBody env) f (b, s0) = .ok s := by
  induction h with
  | done =>
    intro s0
    exact ⟨1, s0, iterate_done _ 0 _ _ (bytesToStringBody_nil env s0)⟩
  | unknownTail hdr more code hread hcode =>
    intro s0
    by_cases hne : hdr ++ more = []
    · rw [hne]
      exact ⟨1, s0, iterate_done _ 0 _ _ (bytesToStringBody_nil env s0)⟩
    · exact ⟨1, _, iterate_done _ 0 _ _
        (bytesToStringBody_unknown env _ s0 code _ hne hread hcode)⟩
  | noValue hdr rest code hread hcode hsize _ ih =>
    intro s0
    by_cases hne : hdr ++ rest = []
    · rw [hne]
      exact ⟨1, s0, iterate_done _ 0 _ _ (bytesToStringBody_nil env s0)⟩
    · obtain ⟨f, s, hf⟩ := ih (s0 ++ '/' :: (env.ProtocolWithCode code).Name)
      refine ⟨f + 1, s, ?_⟩
      rw [iterate_next _ _ _ _ (bytesToStringBody_noValue env hdr rest s0 code hne hread hcode
        hsize)]
      exact hf
  | valued hdr pre value rest code tr hread hcode hsize hres htr hval _ ih =>
    intro s0
    by_cases hne : hdr ++ (pre ++ (value ++ rest)) = []
    · rw [hne]
      exact ⟨1, s0, iterate_done _ 0 _ _ (bytesToStringBody_nil env s0)⟩
    · obtain ⟨r, hr⟩ := hbts code tr value hcode hsize htr hval
      obtain ⟨f, s, hf⟩ := ih (s0 ++ rendered (env.ProtocolWithCode code) r)
      refine ⟨f + 1, s, ?_⟩
      have hstep := bytesToStringBody_valued env hdr pre value rest s0 code hne hread hcode hsize
        hres
      rw [htr] at hstep
      simp only [hr] at hstep
      rw [iterate_next _ _ _ _ hstep]
      exact hf

/-- C19. The validator is at least as strict as the decoder: when the
`BytesToString` of every registered protocol with a value succeeds on every
value that its `ValidateBytes` accepts, `bytesToString` succeeds on every
buffer that `validateBytes` accepts. -/
theorem bytesToString_of_validateBytes (env : Env)
    (hbts : ∀ (code : Int) (tr : Transcoder) (v : List Byte),
      (env.ProtocolWithCode code).Code ≠ 0 → (env.ProtocolWithCode code).Size ≠ 0 →
      (env.ProtocolWithCode code).Transcoder = some tr → tr.ValidateBytes v = true →
      ∃ r, tr.BytesToString v = some r)
    (b : List Byte) (hv : validateBytes env b = .ok ()) :
    ∃ s, bytesToString env b = .ok s := by
  obtain ⟨f, s, hf⟩ := bytesToString_iterate_of_validAddr env hbts b
    (validAddr_of_validateBytes env b hv) []
  exact ⟨s, bytesToString_of_fuel env f b _ hf (by simp)⟩

theorem asciiString_of_all (b : List Byte) (h : b.all (fun x => decide (x < 128)) = true) :
    ∃ r, asciiString b = some r := by
  induction b with
  | nil => exact ⟨[], rfl⟩
  | cons c cs ih =>
    simp only [List.all_cons, Bool.and_eq_true, decide_eq_true_eq] at h
    obtain ⟨r, hr⟩ := ih h.2
    exact ⟨Char.ofNat c :: r, by simp [asciiString, h.1, hr]⟩

/-- In `dnsEnv` the renderers succeed on the values that the validators
accept. -/
theorem dnsEnv_renders_validated (code : Int) (tr : Transcoder) (v : List Byte)
    (hcode : (dnsEnv.ProtocolWithCode code).Code ≠ 0)
    (hsize : (dnsEnv.ProtocolWithCode code).Size ≠ 0)
    (htr : (dnsEnv.ProtocolWithCode code).Transcoder = some tr)
    (hval : tr.ValidateBytes v = true) : ∃ r, tr.BytesToString v = some r := by
  have e : dnsEnv.ProtocolWithCode code = lookupCode [protoQUIC, protoDNS] code := rfl
  rw [e] at hcode hsize htr
  simp only [lookupCode] at hcode hsize htr
  by_cases h1 : protoQUIC.Code = code
  · rw [if_pos h1] at hsize
    exact absurd rfl hsize
  · rw [if_neg h1] at hcode htr
    by_cases h2 : protoDNS.Code = code
    · rw [if_pos h2] at htr
      have : tr = TranscoderDNS := by
        simp only [protoDNS, Option.some.injEq] at htr
        exact htr.symm
      subst this
      exact asciiString_of_all v hval
    · rw [if_neg h2] at hcode
      exact absurd rfl hcode

/-- C19, at `/dns/ab/quic` in an environment whose renderers succeed on what
the validators accept. -/
theorem bytesToString_of_validateBytes_witness :
    validateBytes dnsEnv [53, 2, 97, 98, 204, 3] = .ok () ∧
      bytesToString dnsEnv [53, 2, 97, 98, 204, 3] = .ok "/dns/ab/quic".toList ∧
      ∃ s, bytesToString dnsEnv [53, 2, 97, 98, 204, 3] = .ok s :=
  ⟨by decide, by decide,
    bytesToString_of_validateBytes dnsEnv dnsEnv_renders_validated
      [53, 2, 97, 98, 204, 3] (by decide)⟩

/-! ## Claim on the progress of `bytesSplit` -/

/-- Every range in a result of `bytesSplit` is not empty, the ranges are no
more than the bytes of the buffer, and together they are the buffer. -/
theorem bytesSplit_iterate_ok_ranges (env : Env) :
    ∀ (f : Nat) (b : List Byte) (rs : List (List Byte)),
      iterate (bytesSplitBody env) f (b, []) = .ok rs →
      (∀ r ∈ rs, r ≠ []) ∧ rs.length ≤ b.length ∧ rs.flatten = b := by
  intro f
  induction f with
  | zero =>
    intro b rs h
    rw [iterate_zero] at h
    exact absurd h (by simp)
  | succ f ih =>
    intro b rs h
    cases hb : bytesSplitBody env (b, []) with
    | done r =>
      rw [iterate_done _ f _ _ hb] at h
      subst h
      rcases bytesSplitBody_done env b [] _ hb with ⟨h0, hr⟩ | ⟨hne, hr⟩ | ⟨_, hr, _⟩
      · injection hr with hr
        subst h0 hr
        exact ⟨fun r hr => absurd hr (List.not_mem_nil r), Nat.le_refl _, rfl⟩
      · injection hr with hr
        subst hr
        refine ⟨?_, ?_, by simp⟩
        · intro r hr
          simp only [List.nil_append, List.mem_singleton] at hr
          rw [hr]; exact hne
        · simp only [List.nil_append, List.length_singleton]
          exact List.length_pos.mpr hne
      · exact absurd rfl (hr rs)
    | next st =>
      obtain ⟨b1, ret1⟩ := st
      obtain ⟨r, hbr, hret1, hall⟩ := bytesSplitBody_next_ret env b b1 [] ret1 hb
      rw [iterate_next _ f _ _ hb, hret1, List.nil_append, bytesSplit_iterate_ret] at h
      cases hi : iterate (bytesSplitBody env) f (b1, []) with
      | ok rs1 =>
        rw [hi] at h
        injection h with h
        subst h
        obtain ⟨h1, h2, h3⟩ := ih b1 rs1 hi
        have hr : r ≠ [] := by
          intro h0
          subst h0
          have e : b = b1 := by simpa using hbr
          subst e
          have hd := iterate_stuck (bytesSplitBody env) (fun st => st.1 = b)
            (fun st hst => ⟨(b, st.2 ++ [[]]), by
              obtain ⟨s1, s2⟩ := st
              simp only at hst
              subst hst
              exact hall s2, rfl⟩) f (b, []) rfl
          rw [hd] at hi
          exact absurd hi (by simp)
        refine ⟨?_, ?_, ?_⟩
        · intro x hx
          rcases List.mem_cons.mp hx with rfl | hx
          · exact hr
          · exact h1 x hx
        · have := List.length_pos.mpr hr
          simp only [List.singleton_append, List.length_cons, hbr, List.length_append]
          omega
        · simp [h3, hbr]
      | error e => rw [hi] at h; exact absurd h (by simp)
      | crash => rw [hi] at h; exact absurd h (by simp)
      | diverge => rw [hi] at h; exact absurd h (by simp)

/-- When `bytesSplit` returns ranges, none is empty, they are no more than the
bytes of the buffer, and together they are the buffer. -/
theorem bytesSplit_ok_ranges (env : Env) (b : List Byte) (rs : List (List Byte))
    (h : bytesSplit env b = .ok rs) :
    (∀ r ∈ rs, r ≠ []) ∧ rs.length ≤ b.length ∧ rs.flatten = b :=
  bytesSplit_iterate_ok_ranges env _ b rs h

/-- A pass of `bytesSplit` over `/ip6zone` with a length prefix that reads as
-11 leaves the buffer as it is and appends an empty range. -/
theorem bytesSplitBody_negative_length (ret : List (List Byte)) :
    bytesSplitBody refEnv ([42, 245, 255, 255, 255, 255, 255, 255, 255, 255, 1], ret) =
      .next ([42, 245, 255, 255, 255, 255, 255, 255, 255, 255, 1], ret ++ [[]]) := by
  have h := bytesSplitBody_known refEnv [42, 245, 255, 255, 255, 255, 255, 255, 255, 255, 1]
    ret 42 1 10 (-11) (by decide) (by decide) (by decide) (by decide) (by decide) (by decide)
    (by decide)
  have e : ((1 : Nat) : Int) + ((10 : Nat) : Int) + (-11) = 0 := by decide
  rw [e] at h
  exact h

/-- C20. On the buffer `2a f5 ff ff ff ff ff ff ff ff 01` (the code of
`ip6zone` and a length prefix that reads as -11) `validateBytes` and
`bytesToString` return the error "invalid value for size", and the loop of
`bytesSplit` does not return, however many passes it is given: each pass
computes `length = 1 + 10 - 11 = 0`, appends the empty range `b[:0]` and
goes on with `b[0:]`, the same buffer. -/
theorem bytesSplit_loops_on_negative_length :
    refEnv.ReadVarintCode [245, 255, 255, 255, 255, 255, 255, 255, 255, 1] = some (-11, 10) ∧
    validateBytes refEnv [42, 245, 255, 255, 255, 255, 255, 255, 255, 255, 1] =
      .error .invalidValueForSize ∧
    bytesToString refEnv [42, 245, 255, 255, 255, 255, 255, 255, 255, 255, 1] =
      .error .invalidValueForSize ∧
    (∀ f, iterate (bytesSplitBody refEnv) f
      ([42, 245, 255, 255, 255, 255, 255, 255, 255, 255, 1], []) = .diverge) ∧
    bytesSplit refEnv [42, 245, 255, 255, 255, 255, 255, 255, 255, 255, 1] = .diverge := by
  refine ⟨by decide, by decide, by decide, ?_, by decide⟩
  intro f
  exact iterate_stuck (bytesSplitBody refEnv)
    (fun st => st.1 = [42, 245, 255, 255, 255, 255, 255, 255, 255, 255, 1])
    (fun st hst => ⟨([42, 245, 255, 255, 255, 255, 255, 255, 255, 255, 1], st.2 ++ [[]]), by
      obtain ⟨s1, s2⟩ := st
      simp only at hst
      subst hst
      exact bytesSplitBody_negative_length s2, rfl⟩) f _ rfl

/-! ## The binary round trip -/

/-- The string `strings.TrimRight` leaves of a concatenation whose second part
is more than slashes. -/
theorem trimRight_append_of_ne_nil (x v : Str) (h : trimRight v ≠ []) :
    trimRight (x ++ v) = x ++ trimRight v := by
  obtain ⟨k, hk⟩ := trimRight_prefix v
  rcases trimRight_shape v with h0 | ⟨y, c, hy, hc⟩
  · exact absurd h0 h
  · have e : x ++ v = (x ++ y ++ [c]) ++ List.replicate k '/' := by
      conv_lhs => rw [hk, hy]
      simp
    rw [e, trimRight_append_slashes, trimRight_of_last _ c hc, hy]
    simp

theorem textOf_ne_nil (t : Str) (ts : List Str) : textOf (t :: ts) ≠ [] := by
  rw [textOf]
  exact List.cons_ne_nil _ _

/-- The text of tokens followed by a rendering that trims to the text of
further tokens trims to the text of all of them. -/
theorem trimRight_textOf_append (x sp1 : List Str) (t : Str) (hx : x ≠ [])
    (hxs : ∀ u ∈ x, '/' ∉ u) (hxl : sp1 = [] → LastNonempty x)
    (h0 : sp1 = [] → t = []) (ht : trimRight t = textOf sp1) :
    trimRight (textOf x ++ t) = textOf (x ++ sp1) := by
  rw [textOf_append]
  cases sp1 with
  | nil =>
    rw [h0 rfl, List.append_nil]
    obtain ⟨y, c, hy, hc⟩ := textOf_shape_last x hx (hxl rfl) hxs
    rw [hy, trimRight_of_last y c hc]
    simp [textOf]
  | cons u us =>
    rw [trimRight_append_of_ne_nil _ _ (by rw [ht]; exact textOf_ne_nil u us), ht]

theorem LastNonempty_cons (t : Str) (sp sp1 : List Str) (h : LastNonempty (t :: sp))
    (h0 : sp1 = [] → sp = []) (h1 : LastNonempty sp1) : LastNonempty (t :: sp1) := by
  cases sp1 with
  | nil =>
    rw [h0 rfl] at h
    exact h
  | cons u us => exact h1

/-- The text of joined tokens, the last of them not empty, does not end in a
slash. -/
theorem joinSlash_shape_last (t : Str) (ts : List Str) (hl : LastNonempty (t :: ts))
    (hs : ∀ u ∈ t :: ts, '/' ∉ u) : ∃ y c, joinSlash (t :: ts) = y ++ [c] ∧ c ≠ '/' := by
  obtain ⟨y, c, hy, hc⟩ := textOf_shape_last (t :: ts) (List.cons_ne_nil _ _) hl hs
  rw [textOf_eq_joinSlash] at hy
  cases y with
  | nil =>
    simp only [List.nil_append] at hy
    injection hy with h1 _
    exact absurd h1.symm hc
  | cons d y =>
    rw [List.cons_append] at hy
    injection hy with _ h2
    exact ⟨y, c, h2, hc⟩

/-- The function `bytesToString` renders the bytes of the components cut
from a token list as a text that, without its trailing slashes, is the text
of tokens that `stringToBytes` cuts into the same components. -/
theorem bytesToString_iterate_reencode (env : Env) (ok : EnvOK env) (sz : SizesOK env)
    (re : TranscodersReencode env) (sp : List Str) (cs : List Comp) (h : Parsed env sp cs) :
    (textOf sp).length < 2 ^ 63 → (∀ u ∈ sp, '/' ∉ u) → LastNonempty sp →
      ∃ (sp1 : List Str) (t : Str), Parsed env sp1 cs ∧ (∀ u ∈ sp1, '/' ∉ u) ∧
        LastNonempty sp1 ∧ (sp1 = [] → sp = [] ∧ t = []) ∧ trimRight t = textOf sp1 ∧
        ∀ s0, ∃ f, iterate (bytesToStringBody env) f (bytesOf env cs, s0) = .ok (s0 ++ t) := by
  induction h with
  | done =>
    intro _ _ _
    refine ⟨[], [], Parsed.done, fun u hu => absurd hu (List.not_mem_nil u), trivial,
      fun _ => ⟨rfl, rfl⟩, rfl, fun s0 => ⟨1, ?_⟩⟩
    rw [bytesOf_nil, iterate_done _ 0 _ _ (bytesToStringBody_nil env s0)]
    simp
  | noValue tok sp cs hu hcode hsize hp ih =>
    intro hlen hs hlast
    have hc := framed_of_parsed env ok sz _ _ (Parsed.noValue tok sp cs hu hcode hsize hp) hlen
      _ (List.mem_cons_self _ _)
    rw [textOf_cons_length] at hlen
    obtain ⟨sp1, t, hp1, hs1, hl1, h01, ht1, hdec⟩ :=
      ih (by omega) (fun u hu => hs u (List.mem_cons_of_mem _ hu)) (LastNonempty_tail _ _ hlast)
    have htok : '/' ∉ tok := hs tok (List.mem_cons_self _ _)
    refine ⟨tok :: sp1, '/' :: tok ++ t, Parsed.noValue tok sp1 cs hu hcode hsize hp1, ?_,
      LastNonempty_cons tok sp sp1 hlast (fun e => (h01 e).1) hl1,
      fun e => absurd e (List.cons_ne_nil _ _), ?_, fun s0 => ?_⟩
    · intro u hu
      rcases List.mem_cons.mp hu with rfl | hu
      · exact htok
      · exact hs1 u hu
    · have := trimRight_textOf_append [tok] sp1 t (List.cons_ne_nil _ _)
        (fun u hu => by rw [List.mem_singleton.mp hu]; exact htok)
        (fun e => by
          have := (h01 e).1
          rw [this] at hlast
          exact hlast)
        (fun e => (h01 e).2) ht1
      simpa [textOf] using this
    · obtain ⟨f, hf⟩ := hdec (s0 ++ '/' :: tok)
      refine ⟨f + 1, ?_⟩
      have hread := hc.read (bytesOf env cs)
      have hne := bytesOf_cons_ne_nil env _ cs hc
      rw [bytesOf_cons_framed]
      rw [Comp.pre_of_size_zero env _ hsize, hc.no_value hsize] at hne ⊢
      simp only [List.nil_append] at hne hread ⊢
      rw [iterate_next _ _ _ _ (bytesToStringBody_noValue env _ _ s0 _ hne hread hc.known
        (by rw [hc.proto]; exact hsize)), hc.proto, ok.name_eq tok hcode, hf]
      simp
  | valued tok arg sp cs tr a hu hcode hsize hpath htr ha hp ih =>
    intro hlen hs hlast
    have hc := framed_of_parsed env ok sz _ _
      (Parsed.valued tok arg sp cs tr a hu hcode hsize hpath htr ha hp) hlen
      _ (List.mem_cons_self _ _)
    rw [textOf_cons_length, textOf_cons_length] at hlen
    have htok : '/' ∉ tok := hs tok (List.mem_cons_self _ _)
    have harg : '/' ∉ arg := hs arg (List.mem_cons_of_mem _ (List.mem_cons_self _ _))
    obtain ⟨r, hr, hrne, hrs, hra⟩ := re.plain tok tr arg a hcode hsize hpath htr harg ha
    obtain ⟨sp1, t, hp1, hs1, hl1, h01, ht1, hdec⟩ :=
      ih (by omega)
        (fun u hu => hs u (List.mem_cons_of_mem _ (List.mem_cons_of_mem _ hu)))
        (LastNonempty_tail _ _ (LastNonempty_tail _ _ hlast))
    have hlr : LastNonempty (r :: sp1) := by
      cases sp1 with
      | nil => exact hrne
      | cons u us => exact hl1
    refine ⟨tok :: r :: sp1, '/' :: tok ++ '/' :: r ++ t,
      Parsed.valued tok r sp1 cs tr a hu hcode hsize hpath htr hra hp1, ?_, hlr,
      fun e => absurd e (List.cons_ne_nil _ _), ?_, fun s0 => ?_⟩
    · intro u hu
      rcases List.mem_cons.mp hu with rfl | hu
      · exact htok
      · rcases List.mem_cons.mp hu with rfl | hu
        · exact hrs
        · exact hs1 u hu
    · have := trimRight_textOf_append [tok, r] sp1 t (List.cons_ne_nil _ _)
        (fun u hu => by
          rcases List.mem_cons.mp hu with rfl | hu
          · exact htok
          · rw [List.mem_singleton.mp hu]; exact hrs)
        (fun _ => hrne)
        (fun e => (h01 e).2) ht1
      simpa [textOf] using this
    · obtain ⟨f, hf⟩ := hdec (s0 ++ ('/' :: tok ++ '/' :: r))
      refine ⟨f + 1, ?_⟩
      rw [bytesOf_cons_framed, iterate_succ,
        bytesToStringBody_valued env _ _ _ _ s0 _ (bytesOf_cons_ne_nil env _ cs hc) (hc.read _)
          hc.known (by rw [hc.proto]; exact hsize) (by rw [hc.proto]; exact hc.resolve _),
        hc.proto]
      simp only [htr, hr, rendered, valueText_of_not_path _ r hpath, ok.name_eq tok hcode]
      have hpos : r.length > 0 := List.length_pos.mpr hrne
      simp only [hpos, if_true]
      rw [hf]
      simp
  | path tok arg sp tr a hu hcode hsize hpath htr ha =>
    intro hlen hs hlast
    have hc := framed_of_parsed env ok sz _ _
      (Parsed.path tok arg sp tr a hu hcode hsize hpath htr ha) hlen
      _ (List.mem_cons_self _ _)
    have htok : '/' ∉ tok := hs tok (List.mem_cons_self _ _)
    obtain ⟨y, c, hy, hyc⟩ := joinSlash_shape_last arg sp (LastNonempty_tail _ _ hlast)
      (fun u hu => hs u (List.mem_cons_of_mem _ hu))
    rw [hy] at ha
    obtain ⟨r, hr, hv, hra⟩ := re.path tok tr y c a hcode hsize hpath htr hyc ha
    have hvne : valueText (env.ProtocolWithName tok) r ≠ [] := by
      intro e
      rw [e] at hv
      exact hv rfl
    obtain ⟨y1, c1, hy1, hc1⟩ : ∃ y1 c1,
        trimRight (valueText (env.ProtocolWithName tok) r) = y1 ++ [c1] ∧ c1 ≠ '/' := by
      rcases trimRight_shape (valueText (env.ProtocolWithName tok) r) with h0 | h1
      · exact absurd h0 hv
      · exact h1
    have hj := joinSlash_splitSlash (trimRight (valueText (env.ProtocolWithName tok) r))
    have hl := LastNonempty_splitSlash y1 c1 hc1
    rw [← hy1] at hl
    have hss := splitSlash_no_slash (trimRight (valueText (env.ProtocolWithName tok) r))
    cases hsp : splitSlash (trimRight (valueText (env.ProtocolWithName tok) r)) with
    | nil => exact absurd hsp (splitSlash_ne_nil _)
    | cons arg1 sp1 =>
      rw [hsp] at hj hl hss
      rw [← hj] at hra
      refine ⟨tok :: arg1 :: sp1, '/' :: tok ++ '/' :: valueText (env.ProtocolWithName tok) r,
        Parsed.path tok arg1 sp1 tr a hu hcode hsize hpath htr hra, ?_, hl,
        fun e => absurd e (List.cons_ne_nil _ _), ?_, fun s0 => ?_⟩
      · intro u hu
        rcases List.mem_cons.mp hu with rfl | hu
        · exact htok
        · exact hss u hu
      · have e : '/' :: tok ++ '/' :: valueText (env.ProtocolWithName tok) r =
            ('/' :: tok ++ ['/']) ++ valueText (env.ProtocolWithName tok) r := by simp
        rw [e, trimRight_append_of_ne_nil _ _ hv, textOf, textOf_eq_joinSlash, hj]
        simp
      · refine ⟨1 + 1, ?_⟩
        have hpos : (valueText (env.ProtocolWithName tok) r).length > 0 :=
          List.length_pos.mpr hvne
        rw [bytesOf_cons_framed, iterate_succ,
          bytesToStringBody_valued env _ _ _ _ s0 _ (bytesOf_cons_ne_nil env _ [] hc) (hc.read _)
            hc.known (by rw [hc.proto]; exact hsize) (by rw [hc.proto]; exact hc.resolve _),
          hc.proto]
        simp only [htr, hr, rendered, ok.name_eq tok hcode, hpos, if_true]
        rw [bytesOf_nil, iterate_done _ 0 _ _ (bytesToStringBody_nil env _)]

theorem digit_facts (k : Nat) (h : k < 10) :
    (Char.ofNat (48 + k)).isDigit = true ∧ (Char.ofNat (48 + k)).toNat - 48 = k := by
  interval_cases k <;> exact ⟨by decide, by decide⟩

/-- The decimal digits of a number are digits, at least one, and spell the
number. -/
theorem decimalDigits_spec (fuel : Nat) : ∀ x, x < 10 ^ (fuel + 1) →
    (decimalDigits (fuel + 1) x).all Char.isDigit = true ∧
      decimalDigits (fuel + 1) x ≠ [] ∧
      (decimalDigits (fuel + 1) x).foldl (fun acc c => 10 * acc + (c.toNat - 48)) 0 = x := by
  induction fuel with
  | zero =>
    intro x hx
    have hx10 : x < 10 := by simpa using hx
    obtain ⟨h1, h2⟩ := digit_facts x hx10
    simp only [decimalDigits, hx10, if_true]
    refine ⟨by simp [h1], List.cons_ne_nil _ _, ?_⟩
    simp [h2]
  | succ fuel ih =>
    intro x hx
    rw [decimalDigits]
    by_cases hx10 : x < 10
    · obtain ⟨h1, h2⟩ := digit_facts x hx10
      rw [if_pos hx10]
      refine ⟨by simp [h1], List.cons_ne_nil _ _, ?_⟩
      simp [h2]
    · rw [if_neg hx10]
      have hdiv : x / 10 < 10 ^ (fuel + 1) := by
        rw [Nat.div_lt_iff_lt_mul (by decide)]
        rw [pow_succ] at hx
        exact hx
      obtain ⟨i1, i2, i3⟩ := ih (x / 10) hdiv
      obtain ⟨h1, h2⟩ := digit_facts (x % 10) (Nat.mod_lt _ (by decide))
      refine ⟨?_, ?_, ?_⟩
      · rw [List.all_append, i1]
        simp [h1]
      · intro e
        exact i2 (List.append_eq_nil.mp e).1
      · rw [List.foldl_append, i3]
        simp only [List.foldl_cons, List.foldl_nil, h2]
        omega

theorem parseDecimal_decimalDigits (i : Nat) (h : i < 65536) :
    parseDecimal (decimalDigits 5 i) = some i ∧ decimalDigits 5 i ≠ [] ∧
      '/' ∉ decimalDigits 5 i := by
  obtain ⟨h1, h2, h3⟩ := decimalDigits_spec 4 i (lt_trans h (by norm_num))
  refine ⟨?_, h2, ?_⟩
  · unfold parseDecimal
    rw [if_neg (by rw [not_or]; exact ⟨h2, by rw [h1]; simp⟩), h3]
  · intro hm
    have := List.all_eq_true.mp h1 '/' hm
    exact absurd this (by decide)

theorem port_stringToBytes (t : Str) (a : List Byte)
    (h : TranscoderPort.StringToBytes t = some a) :
    ∃ i, parseDecimal t = some i ∧ i < 65536 ∧ a = [i / 256, i % 256] := by
  simp only [TranscoderPort] at h
  split at h
  · exact absurd h (by simp)
  · rename_i i hi
    split at h
    · exact absurd h (by simp)
    · rename_i hlt
      injection h with h
      exact ⟨i, hi, by omega, h.symm⟩

/-- The port transcoder reads back its rendering of a value that it wrote. -/
theorem port_reencode (t : Str) (a : List Byte)
    (h : TranscoderPort.StringToBytes t = some a) :
    ∃ r, TranscoderPort.BytesToString a = some r ∧ r ≠ [] ∧ '/' ∉ r ∧
      TranscoderPort.StringToBytes r = some a := by
  obtain ⟨i, _, hi, rfl⟩ := port_stringToBytes t a h
  obtain ⟨h1, h2, h3⟩ := parseDecimal_decimalDigits i hi
  have e : 256 * (i / 256) + i % 256 = i := Nat.div_add_mod i 256
  refine ⟨decimalDigits 5 i, ?_, h2, h3, ?_⟩
  · simp only [TranscoderPort, e]
  · simp only [TranscoderPort, h1]
    rw [if_neg (by omega)]

theorem transcodersReencode_refEnv : TranscodersReencode refEnv where
  plain name tr t a h hsize hpath htr hs ha := by
    rcases (refEnv_registered name h).2 with e | e | e | e <;> rw [e] at htr hpath
    · have : tr = TranscoderPort := by
        simp only [protoTCP, Option.some.injEq] at htr
        exact htr.symm
      subst this
      exact port_reencode t a ha
    · exact absurd htr (by simp [protoQUIC])
    · have : tr = TranscoderIP6Zone := by
        simp only [protoIP6ZONE, Option.some.injEq] at htr
        exact htr.symm
      subst this
      obtain ⟨hne, hsl, hb⟩ := zone_stringToBytes t a ha
      have hlen := asciiBytes_length t a hb
      have hane : a ≠ [] := by
        intro h0
        rw [h0] at hlen
        exact hne (List.length_eq_zero.mp hlen.symm)
      refine ⟨t, ?_, hne, hsl, ha⟩
      simp only [TranscoderIP6Zone, hane, if_false]
      exact asciiString_asciiBytes t a hb
    · exact absurd hpath (by decide)
  path name tr y c a h hsize hpath htr hc ha := by
    rcases (refEnv_registered name h).2 with e | e | e | e <;> rw [e] at htr hpath ⊢
    · exact absurd hpath (by decide)
    · exact absurd hpath (by decide)
    · exact absurd hpath (by decide)
    · have : tr = TranscoderUnix := by
        simp only [protoUNIX, Option.some.injEq] at htr
        exact htr.symm
      subst this
      refine ⟨'/' :: (y ++ [c]), asciiString_asciiBytes _ a ha, ?_, ?_⟩
      · rw [valueText_of_path _ _ rfl, trimRight_of_last y c hc]
        simp
      · rw [valueText_of_path _ _ rfl, trimRight_of_last y c hc]
        exact ha

/-- Transcoders that are inverted by their `BytesToString` read back what
they render. -/
theorem transcodersReencode_of_invert (env : Env) (inv : TranscodersInvert env) :
    TranscodersReencode env where
  plain name tr t a h hsize hpath htr hs ha := by
    refine ⟨t, inv.inverts name tr t a h htr ha, ?_, hs, ha⟩
    intro e
    rw [e, inv.nonempty name tr h hpath htr] at ha
    exact absurd ha (by simp)
  path name tr y c a h hsize hpath htr hc ha := by
    refine ⟨'/' :: (y ++ [c]), inv.inverts name tr _ a h htr ha, ?_, ?_⟩
    · rw [valueText_of_path _ _ hpath, trimRight_of_last y c hc]
      simp
    · rw [valueText_of_path _ _ hpath, trimRight_of_last y c hc]
      exact ha

/-- The port transcoder of `refEnv` is not inverted by its `BytesToString`:
it accepts `080` and renders the value as `80`. -/
theorem not_transcodersInvert_refEnv : ¬ TranscodersInvert refEnv := by
  intro inv
  have h := inv.inverts "tcp".toList TranscoderPort "080".toList [0, 80] (by decide) rfl
    (by decide)
  exact absurd h (by decide)

/-- C2, as stated, fails: in an environment whose transcoders read back what
they render, `stringToBytes` accepts `/unknown/bfi`, taking the `unknown`
escape, and returns the one byte that the text spells, `2a`; this is the
code of `ip6zone` without its length prefix, and `bytesToString` fails on the
buffer. -/
theorem binaryRoundTrip_fails_on_escape :
    EnvOK refEnv ∧ SizesOK refEnv ∧ TranscodersReencode refEnv ∧
    takesEscape refEnv (tokensOf "/unknown/bfi".toList) = true ∧
    stringToBytes refEnv "/unknown/bfi".toList = .ok [42] ∧
    bytesToString refEnv [42] = .error .varint :=
  ⟨envOK_refEnv, sizesOK_refEnv, transcodersReencode_refEnv, by decide, by decide, by decide⟩

/-- C2, amended. Binary round trip: with a registry and varints that are
consistent (`EnvOK`), transcoders that write `Size / 8` bytes for a
fixed-size protocol (`SizesOK`) and that read back what they render
(`TranscodersReencode`; the rendering need not be the text that was
encoded), for every buffer `b` that `stringToBytes` returns on a string
that it accepts without taking the `unknown` escape, `bytesToString b`
succeeds and `stringToBytes (bytesToString b)` is `b`. -/
theorem binaryRoundTrip (env : Env) (ok : EnvOK env) (sz : SizesOK env)
    (re : TranscodersReencode env) (s : Str) (b : List Byte) (hlen : s.length < 2 ^ 63)
    (h : stringToBytes env s = .ok b) (he : takesEscape env (tokensOf s) = false) :
    ∃ t, bytesToString env b = .ok t ∧ stringToBytes env t = .ok b := by
  obtain ⟨cs, hp, hb, htext, hlast⟩ := parsed_of_stringToBytes env s b h he
  have hl : (textOf (tokensOf s)).length < 2 ^ 63 := by
    rw [htext]
    exact Nat.lt_of_le_of_lt (trimRight_length_le s) hlen
  obtain ⟨sp1, t, hp1, hs1, hl1, _, ht1, hdec⟩ :=
    bytesToString_iterate_reencode env ok sz re _ _ hp hl (tokensOf_no_slash s) hlast
  obtain ⟨f, hf⟩ := hdec []
  rw [List.nil_append, ← hb] at hf
  refine ⟨t, bytesToString_of_fuel env f b _ hf (by simp), ?_⟩
  rw [← stringToBytes_trimRight, ht1, stringToBytes_textOf_last env sp1 hl1 hs1,
    (stringToBytesLoop_of_parsed env sp1 cs hp1).1 [], List.nil_append, hb]

/-- C2, amended, at `/tcp/080/unix/tmp/sock//`, a string that is not the one
`bytesToString` renders: the buffer is rendered as `/tcp/80/unix/tmp/sock`,
which `stringToBytes` turns into the buffer again. -/
theorem binaryRoundTrip_witness :
    stringToBytes refEnv "/tcp/080/unix/tmp/sock//".toList =
        .ok [6, 0, 80, 144, 3, 9, 47, 116, 109, 112, 47, 115, 111, 99, 107] ∧
      takesEscape refEnv (tokensOf "/tcp/080/unix/tmp/sock//".toList) = false ∧
      bytesToString refEnv [6, 0, 80, 144, 3, 9, 47, 116, 109, 112, 47, 115, 111, 99, 107] =
        .ok "/tcp/80/unix/tmp/sock".toList ∧
      ∃ t, bytesToString refEnv
            [6, 0, 80, 144, 3, 9, 47, 116, 109, 112, 47, 115, 111, 99, 107] = .ok t ∧
        stringToBytes refEnv t =
          .ok [6, 0, 80, 144, 3, 9, 47, 116, 109, 112, 47, 115, 111, 99, 107] :=
  ⟨by decide, by decide, by decide,
    binaryRoundTrip refEnv envOK_refEnv sizesOK_refEnv transcodersReencode_refEnv
      "/tcp/080/unix/tmp/sock//".toList _ (by decide) (by decide) (by decide)⟩

end Multiaddr
